import Mathlib

/-! miniprogram-file-uploader: the upload scheduler of `src/main.js`.

A shallow embedding of the `Uploader` class.  The object's fields become the
fields of the record `Uploader`; every method becomes a function on that record.
Asynchronous collaborators (file reads, `wx.request`, the verify and merge
requests, `Date.now`) are modelled by explicit state: the reads and requests that
are outstanding are kept in the record, and each completion callback is an
`Event` that the environment may fire, in any order.

Conventions
* Byte counts that the code subtracts are `Int`; counts and indices are `Nat`.
* `Math.ceil (a / b)` and `Math.floor (a / b)` on positive integers are integer
  ceiling and floor division (exact below 2^53).
* The progress ratio is a quotient of two integers that the code rounds to two
  decimals; the quotient is taken as the double nearest to it (`fixed2`).
* Indices keep the JavaScript distinction between a number and the string key
  that `Object.keys` returns (`JsIndex`), because `Array.prototype.includes` tells
  them apart.
* `upload ()` awaits the hashing reads and the verify request; the model runs it
  as one event, that is, no other method is called while it is suspended and the
  awaited calls succeed.  When `testChunks` is off the method has no suspension
  point at all.
* A request that `pause` aborted never reports success afterwards.
* The fields `mergeListeners`, `reads`, `requests` and `mergeRequests` describe
  the environment, and the fields whose name starts with `g` log what the code
  did; none of them is a field of the source object.
-/

namespace MiniprogramFileUploader

/-! ## Values -/

/-- An index as JavaScript holds it.  `chunksIndex` starts out with numbers;
`Object.keys (uploadTasks)` yields the keys as decimal strings, so `pause` pushes
strings.  `str n` is the decimal string of `n`. -/
inductive JsIndex where
  | num (n : Nat)
  | str (n : Nat)
deriving DecidableEq, Repr

/-- Numeric value of an index: what `index * chunkSize` and the property key
`uploadTasks[index]` use. -/
def JsIndex.toNat : JsIndex → Nat
  | .num n => n
  | .str n => n

/-- The numbers that the progress fields can hold.  `cent h` is `h / 100`. -/
inductive JsNum where
  | nan
  | posInf
  | negInf
  | int (z : Int)
  | cent (h : Int)
deriving DecidableEq, Repr

/-- Result of `Array.prototype.includes` for an array of numbers: SameValueZero
never identifies a string with a number. -/
def jsIncludes (xs : List Nat) : JsIndex → Bool
  | .num n => decide (n ∈ xs)
  | .str _ => false

/-- Result of `chunksIndex.includes (z)` for a number `z`. -/
def includesNum (xs : List JsIndex) (z : Int) : Bool :=
  xs.any (fun v => match v with
    | .num n => decide ((n : Int) = z)
    | .str _ => false)

/-- Lexicographic order on digit lists. -/
def lexLe : List Nat → List Nat → Bool
  | [], _ => true
  | _ :: _, [] => false
  | a :: as, b :: bs => if a < b then true else if b < a then false else lexLe as bs

/-- Decimal digits of a number, most significant first. -/
def decimalDigits (n : Nat) : List Nat :=
  (Nat.toDigits 10 n).map Char.toNat

/-- Order used by `Array.prototype.sort ()` without a comparator: the elements are
compared as strings. -/
def jsStrLe (a b : Nat) : Prop := lexLe (decimalDigits a) (decimalDigits b) = true

instance : DecidableRel jsStrLe := fun a b => by unfold jsStrLe; infer_instance

/-- Result of `uploadedChunks.sort ()`. -/
def jsSort (xs : List Nat) : List Nat := xs.insertionSort jsStrLe

/-- Value of `Math.ceil (a / b)` for natural `a` and positive `b`. -/
def ceilDiv (a b : Nat) : Nat := (a + b - 1) / b

/-- The constant `MB`. -/
def MB : Nat := 1024 * 1024

/-- First significant decimal digit of `a / b` for `0 < a < b`: `a` is multiplied
by ten until it reaches `b`. -/
def leadingDigit : Nat → Nat → Nat → Nat
  | 0, _, _ => 0
  | fuel + 1, a, b => if b ≤ a then a / b else leadingDigit fuel (10 * a) b

/-- Value of `parseInt (a / b, 10)` where either operand may be undefined or NaN
(`none`).  `parseInt` converts the quotient to a string and reads the digits up to
the first character that is not a digit.  A zero divisor gives `Infinity` or
`NaN`, whose strings have no leading digits.  From `1e-6` upwards (and below
`1e21`, which holds for operands under 2^53) the string is in decimal notation and
the digits read are the truncated quotient.  A non-zero quotient below `1e-6` is
printed in exponent notation (`5e-7`, `1.25e-7`), so the digits read are its first
significant digit.  The digit is taken from the exact quotient; the shortest
decimal of the nearest double has the same one for divisors under 5·10^14. -/
def parseIntDiv : Option Int → Option Int → JsNum
  | some a, some b =>
    if b = 0 then .nan
    else if a ≠ 0 ∧ a.natAbs * 1000000 < b.natAbs then
      .int (Int.sign a * Int.sign b * (leadingDigit b.natAbs a.natAbs b.natAbs : Nat))
    else .int (Int.tdiv a b)
  | _, _ => .nan

/-- Value of `parseInt (w / v, 10)` for an integer `w` and a number `v`. -/
def parseIntDivNum (w : Int) : JsNum → JsNum
  | .int v => parseIntDiv (some w) (some v)
  | _ => .nan

/-- Number of doublings of `a` needed to reach `t`, at most `fuel`. -/
def scaleUp : Nat → Nat → Nat → Nat
  | 0, _, _ => 0
  | fuel + 1, a, t => if t ≤ a then 0 else scaleUp fuel (2 * a) t + 1

/-- Number of doublings of `t` needed to exceed `a`, at most `fuel`. -/
def scaleDown : Nat → Nat → Nat → Nat
  | 0, _, _ => 0
  | fuel + 1, a, t => if a < t then 0 else scaleDown fuel a (2 * t) + 1

/-- The integer nearest to `n / d`, a tie going to the even one: the rounding of
IEEE 754 arithmetic. -/
def roundHalfEven (n d : Nat) : Nat :=
  if d < 2 * (n % d) ∨ (d = 2 * (n % d) ∧ (n / d) % 2 = 1) then n / d + 1 else n / d

/-- Hundredths in `(u / s).toFixed (2)` for natural `u` and positive `s`.  The
quotient is a double: `u / s` is scaled by a power of two (`2 ^ up / 2 ^ down`)
into the range of a 53-bit mantissa and rounded there, which gives the double
`m * 2 ^ down / 2 ^ up`.  `toFixed (2)` then takes the integer `n` with `n / 100`
nearest to that double, the larger one at a tie.  (Exact for operands under 2^53;
subnormal and overflowing quotients do not arise there.) -/
def fixed2 (u s : Nat) : Nat :=
  if u = 0 then 0
  else
    let up := scaleUp (s + 53) u (2 ^ 52 * s)
    let down := scaleDown u u (2 ^ 53 * s)
    let m := roundHalfEven (u * 2 ^ up) (s * 2 ^ down)
    (200 * m * 2 ^ down + 2 ^ up) / (2 * 2 ^ up)

/-- Value of `(u / s).toFixed (2) * 1`: the double `u / s` rounded to the nearest
hundredth.  A zero divisor gives `Infinity`, `-Infinity` or `NaN`, which `toFixed`
prints by name and the multiplication reads back.  Otherwise `toFixed` rounds the
magnitude (`fixed2`) and puts the sign in front; from `1e21` upwards it prints the
double itself, which is the same number of hundredths. -/
def toFixed2 (u s : Int) : JsNum :=
  if s = 0 then
    if 0 < u then .posInf else if u < 0 then .negInf else .nan
  else
    .cent (Int.sign u * Int.sign s * (fixed2 u.natAbs s.natAbs : Nat))

/-! ## Records -/

/-- The configuration options the scheduler reads. -/
structure Config where
  size : Nat
  chunkSize : Nat
  maxMemory : Nat
  maxConcurrency : Nat
  testChunks : Bool
deriving DecidableEq, Repr

/-- A `readFileAsync` call issued by `readFileChunk` that has not completed; the
callback closes over `length` and `index`. -/
structure ReadReq where
  position : Nat
  length : Int
  index : JsIndex
deriving DecidableEq, Repr

/-- An entry of `chunksQueue`.  The bytes are represented by the file position
they were read from. -/
structure Chunk where
  chunk : Nat
  length : Int
  index : JsIndex
deriving DecidableEq, Repr

/-- Life cycle of a `wx.request` task. -/
inductive ReqState where
  | inflight
  | aborted
  | succeeded
  | failed
deriving DecidableEq, Repr

/-- A `wx.request` issued by `uploadChunk`; the callbacks close over `index` and
`length`.  `id` is the task handle. -/
structure UploadReq where
  id : Nat
  index : JsIndex
  length : Int
  state : ReqState
deriving DecidableEq, Repr

/-- Payload of the progress notification sent by `updateUploadSize`. -/
structure ProgressInfo where
  progress : JsNum
  uploadedSize : Int
  averageSpeed : JsNum
  timeRemaining : JsNum
deriving DecidableEq, Repr

/-- What `emit` was called with. -/
inductive Emitted where
  | progressNum (v : JsNum)
  | progress (info : ProgressInfo)
  | complete
  | uploadDone
  | error
deriving DecidableEq, Repr

/-- The `Uploader` object together with its environment. -/
structure Uploader where
  config : Config
  size : Nat
  chunkSize : Nat
  totalChunks : Nat
  maxLoadChunks : Nat
  chunksIndex : List JsIndex
  chunksNeedSend : Nat
  sizeNeedSend : Int
  progress : JsNum
  identifier : String
  isUploading : Bool
  chunksSend : Nat
  chunksQueue : List Chunk
  /-- The object `uploadTasks`: property key and task handle, keys ascending (the
  enumeration order of integer keys). -/
  uploadTasks : List (Nat × Nat)
  pUploadList : List Nat
  uploadedChunks : List Nat
  uploadedSize : Int
  averageSpeed : JsNum
  timeRemaining : JsNum
  /-- Undefined (`none`) until `_upload` runs. -/
  startUploadTime : Option Int
  /-- Undefined (`none`) until `_upload` runs. -/
  _uploadedSize : Option Int
  /-- Number of listeners `_event` registered for the event uploadDone. -/
  mergeListeners : Nat
  /-- Outstanding reads of `readFileChunk`. -/
  reads : List ReadReq
  /-- Every `wx.request` issued so far, with its state. -/
  requests : List UploadReq
  /-- Merge requests awaiting their response. -/
  mergeRequests : Nat
  /-- Log: the calls of `emit`, oldest first. -/
  gEmitted : List Emitted
  /-- Log: index of each chunk whose success callback ran in this session. -/
  gConfirmed : List JsIndex
  /-- Log: `(position, length)` of the reads `computeMD5` fed to the digest. -/
  gHashed : List (Nat × Int)
deriving DecidableEq, Repr

/-! ## The object `uploadTasks` -/

/-- Assignment `obj[k] = v`. -/
def objSet (k v : Nat) : List (Nat × Nat) → List (Nat × Nat)
  | [] => [(k, v)]
  | (k1, v1) :: t =>
    if k = k1 then (k, v) :: t
    else if k < k1 then (k, v) :: (k1, v1) :: t
    else (k1, v1) :: objSet k v t

/-- Statement `delete obj[k]`. -/
def objDelete (k : Nat) (o : List (Nat × Nat)) : List (Nat × Nat) :=
  o.filter (fun e => decide (e.1 ≠ k))

/-- Value of `Object.keys (obj)` as numbers. -/
def objKeys (o : List (Nat × Nat)) : List Nat := o.map Prod.fst

/-! ## Methods -/

/-- Method `emit`.  The only listener the class itself registers is the one of
`_event`: on uploadDone it starts `mergeRequest`, which sends the merge request. -/
def emit (e : Emitted) (s : Uploader) : Uploader :=
  let s1 := { s with gEmitted := s.gEmitted ++ [e] }
  match e with
  | .uploadDone => { s1 with mergeRequests := s1.mergeRequests + s1.mergeListeners }
  | _ => s1

/-- Method `_event`. -/
def _event (s : Uploader) : Uploader :=
  { s with mergeListeners := s.mergeListeners + 1 }

/-- Method `_reset`. -/
def _reset (s : Uploader) : Uploader :=
  emit (.progressNum (.int 0))
    { s with
      chunksIndex := (List.range s.totalChunks).map JsIndex.num
      chunksNeedSend := s.totalChunks
      sizeNeedSend := s.size
      progress := .int 0
      identifier := ""
      isUploading := false
      chunksSend := 0
      chunksQueue := []
      uploadTasks := []
      pUploadList := []
      uploadedChunks := []
      uploadedSize := 0
      averageSpeed := .int 0
      timeRemaining := .posInf
      gConfirmed := [] }

/-- The object before the constructor body assigns anything. -/
def blank (cfg : Config) : Uploader :=
  { config := cfg, size := 0, chunkSize := 0, totalChunks := 0, maxLoadChunks := 0
    chunksIndex := [], chunksNeedSend := 0, sizeNeedSend := 0, progress := .nan
    identifier := "", isUploading := false, chunksSend := 0, chunksQueue := []
    uploadTasks := [], pUploadList := [], uploadedChunks := [], uploadedSize := 0
    averageSpeed := .nan, timeRemaining := .nan, startUploadTime := none
    _uploadedSize := none, mergeListeners := 0, reads := [], requests := []
    mergeRequests := 0, gEmitted := [], gConfirmed := [], gHashed := [] }

/-- The constructor. -/
def new (cfg : Config) : Uploader :=
  _event (_reset
    { blank cfg with
      size := cfg.size
      chunkSize := cfg.chunkSize
      totalChunks := ceilDiv cfg.size cfg.chunkSize
      maxLoadChunks := cfg.maxMemory / cfg.chunkSize })

/-- Method `updateUploadSize`; `now` is the value of `Date.now ()`. -/
def updateUploadSize (currUploadSize : Int) (now : Int) (s : Uploader) : Uploader :=
  let uploadedSize := s.uploadedSize + currUploadSize
  let sessionSize := s._uploadedSize.map (· + currUploadSize)
  let time := s.startUploadTime.map (now - ·)
  let averageSpeed := parseIntDiv sessionSize time
  let sizeWaitSend := s.sizeNeedSend - uploadedSize
  let timeRemaining := parseIntDivNum sizeWaitSend averageSpeed
  let progress := toFixed2 uploadedSize s.sizeNeedSend
  emit (.progress
      { progress := progress, uploadedSize := uploadedSize
        averageSpeed := averageSpeed, timeRemaining := timeRemaining })
    { s with
      uploadedSize := uploadedSize
      _uploadedSize := sessionSize
      averageSpeed := averageSpeed
      timeRemaining := timeRemaining
      progress := progress }

/-- The read that the loop body of `readFileChunk` issues for `index`. -/
def readRequest (s : Uploader) (index : JsIndex) : ReadReq :=
  { position := index.toNat * s.chunkSize
    length := min ((s.size : Int) - (index.toNat * s.chunkSize : Nat)) s.chunkSize
    index := index }

/-- The loop of `readFileChunk`, `n` iterations.  `shift ()` on an empty array
cannot happen (the iteration count is at most the length); that branch stops. -/
def readLoop : Nat → Uploader → Uploader
  | 0, s => s
  | n + 1, s =>
    match s.chunksIndex with
    | [] => s
    | index :: rest =>
      readLoop n { s with chunksIndex := rest, reads := s.reads ++ [readRequest s index] }

/-- Value of `chunks` in `readFileChunk`. -/
def readCount (s : Uploader) : Int :=
  min (s.chunksIndex.length : Int) ((s.maxLoadChunks : Int) - s.chunksQueue.length)

/-- Method `readFileChunk`. -/
def readFileChunk (s : Uploader) : Uploader :=
  readLoop (readCount s).toNat s

/-- The part of `uploadChunk` after the skip test: issue the request and record
the task. -/
def dispatch (c : Chunk) (s : Uploader) : Uploader :=
  let id := s.requests.length
  { s with
    requests := s.requests ++ [{ id := id, index := c.index, length := c.length, state := .inflight }]
    uploadTasks := objSet c.index.toNat id s.uploadTasks }

/-- Method `uploadChunk`, by recursion on the queue it is called with.  The three
guards return without effect, so testing the empty queue first changes nothing. -/
def uploadChunkFrom : List Chunk → Uploader → Uploader
  | [], s => s
  | c :: rest, s =>
    if s.isUploading = false then s
    else if (objKeys s.uploadTasks).length = s.config.maxConcurrency then s
    else
      let s1 := { s with chunksQueue := rest }
      if jsIncludes s1.uploadedChunks c.index then uploadChunkFrom rest s1
      else dispatch c s1

/-- Method `uploadChunk`. -/
def uploadChunk (s : Uploader) : Uploader :=
  uploadChunkFrom s.chunksQueue s

/-- Body of the `then` callback of a read in `readFileChunk`. -/
def onReadDone (r : ReadReq) (s : Uploader) : Uploader :=
  uploadChunk
    { s with chunksQueue := s.chunksQueue ++ [{ chunk := r.position, length := r.length, index := r.index }] }

/-- Body of the `success` callback of the request for `index`. -/
def onUploadSuccess (index : JsIndex) (length : Int) (now : Int) (s : Uploader) : Uploader :=
  let s1 := { s with chunksSend := s.chunksSend + 1, gConfirmed := s.gConfirmed ++ [index] }
  let s2 := { s1 with uploadTasks := objDelete index.toNat s1.uploadTasks }
  let s3 := updateUploadSize length now s2
  let s4 := readFileChunk s3
  let s5 := uploadChunk s4
  if s5.chunksSend = s5.chunksNeedSend then emit .uploadDone s5 else s5

/-- Method `_upload`. -/
def _upload (now : Int) (s : Uploader) : Uploader :=
  let s1 := { s with startUploadTime := some now, _uploadedSize := some 0 }
  if s1.chunksQueue.length ≠ 0 then
    (List.range s1.config.maxConcurrency).foldl (fun t _ => uploadChunk t) s1
  else readFileChunk s1

/-- Call `task.abort ()`: a request still in flight is aborted. -/
def abortTask (id : Nat) (rs : List UploadReq) : List UploadReq :=
  rs.map (fun r => if r.id = id ∧ r.state = .inflight then { r with state := .aborted } else r)

/-- Method `pause`. -/
def pause (s : Uploader) : Uploader :=
  let s1 := s.uploadTasks.foldl
    (fun t e => { t with chunksIndex := t.chunksIndex ++ [JsIndex.str e.1]
                         requests := abortTask e.2 t.requests }) s
  { s1 with uploadTasks := [], isUploading := false }

/-- Method `resume`. -/
def resume (now : Int) (s : Uploader) : Uploader :=
  _upload now { s with isUploading := true }

/-- Method `cancel`. -/
def cancel (s : Uploader) : Uploader :=
  _reset (pause s)

/-- One iteration of the slice loop of `computeMD5`. -/
def hashSlice (isltMaxMemory : Bool) (sliceSize : Nat) (s : Uploader) (i : Nat) : Uploader :=
  let position := i * sliceSize
  let length : Int := min ((s.size : Int) - (position : Nat)) sliceSize
  let s1 := if isltMaxMemory then
      { s with chunksQueue := s.chunksQueue ++ [{ chunk := position, length := length, index := .num i }] }
    else s
  { s1 with gHashed := s1.gHashed ++ [(position, length)] }

/-- Method `computeMD5` (every awaited read succeeds). -/
def computeMD5 (s : Uploader) : Uploader :=
  let isltMaxMemory := decide (s.size < s.config.maxMemory)
  let sliceSize := if isltMaxMemory then s.chunkSize else 10 * MB
  let sliceNum := ceilDiv s.size sliceSize
  let s1 := (List.range sliceNum).foldl (hashSlice isltMaxMemory sliceSize) s
  { s1 with chunksIndex := [] }

/-- The resume bookkeeping of `upload` (the `else` branch after the verify
request). -/
def applyResume (uploadedChunks : List Nat) (s : Uploader) : Uploader :=
  let s1 := { s with uploadedChunks := jsSort uploadedChunks }
  let s2 := { s1 with chunksIndex := s1.chunksIndex.filter (fun v => !jsIncludes s1.uploadedChunks v) }
  let s3 := { s2 with chunksNeedSend := s2.chunksIndex.length }
  let s4 := { s3 with sizeNeedSend := (s3.chunksNeedSend : Int) * s3.chunkSize }
  if includesNum s4.chunksIndex ((s4.totalChunks : Int) - 1) then
    { s4 with sizeNeedSend := s4.sizeNeedSend - ((s4.totalChunks : Int) * s4.chunkSize - s4.size) }
  else s4

/-- Method `upload`.  `ident` is the identifier that the digest or the generator
returns, `needUpload` and `uploadedChunks` are the verify response. -/
def upload (ident : String) (needUpload : Bool) (uploadedChunks : List Nat) (now : Int)
    (s : Uploader) : Uploader :=
  let s1 := if s.config.testChunks then { computeMD5 s with identifier := ident }
    else { s with identifier := ident }
  if s1.config.testChunks then
    if needUpload = false then emit .complete s1
    else _upload now { applyResume uploadedChunks s1 with isUploading := true }
  else _upload now { s1 with isUploading := true }

/-! ## Events -/

/-- What can happen to an uploader: a method call by the owner, or a completion
reported by the environment. -/
inductive Event where
  | upload (ident : String) (needUpload : Bool) (uploadedChunks : List Nat) (now : Int)
  | pause
  | resume (now : Int)
  | cancel
  | readDone (k : Nat)
  | readFail (k : Nat)
  | uploadSuccess (id : Nat) (now : Int)
  | uploadFail (id : Nat)
  | mergeDone
deriving DecidableEq, Repr

/-- Mark request `id` with a new state. -/
def setReqState (id : Nat) (st : ReqState) (rs : List UploadReq) : List UploadReq :=
  rs.map (fun r => if r.id = id then { r with state := st } else r)

/-- Effect of one event.  A completion for something that is not outstanding
does nothing; an aborted request never reports success. -/
def step (e : Event) (s : Uploader) : Uploader :=
  match e with
  | .upload ident needUpload uploadedChunks now => upload ident needUpload uploadedChunks now s
  | .pause => pause s
  | .resume now => resume now s
  | .cancel => cancel s
  | .readDone k =>
    match s.reads.get? k with
    | none => s
    | some r => onReadDone r { s with reads := s.reads.eraseIdx k }
  | .readFail k =>
    match s.reads.get? k with
    | none => s
    | some _ => emit .error { s with reads := s.reads.eraseIdx k }
  | .uploadSuccess id now =>
    match s.requests.find? (fun r => decide (r.id = id ∧ r.state = .inflight)) with
    | none => s
    | some r =>
      onUploadSuccess r.index r.length now { s with requests := setReqState id .succeeded s.requests }
  | .uploadFail id =>
    match s.requests.find?
        (fun r => decide (r.id = id ∧ (r.state = .inflight ∨ r.state = .aborted))) with
    | none => s
    | some _ => emit .error { s with requests := setReqState id .failed s.requests }
  | .mergeDone =>
    if s.mergeRequests = 0 then s
    else emit .complete { s with mergeRequests := s.mergeRequests - 1 }

/-- Effect of a sequence of events, oldest first. -/
def run (evs : List Event) (s : Uploader) : Uploader :=
  evs.foldl (fun t e => step e t) s


/-! ## Concrete sessions used below -/

/-- The scenario of the specification: 2 500 000 bytes in chunks of 1 000 000. -/
def scenarioConfig : Config :=
  { size := 2500000, chunkSize := 1000000, maxMemory := 100 * MB, maxConcurrency := 5
    testChunks := false }

/-- The same file with hashing and resume negotiation switched on. -/
def resumeConfig : Config :=
  { scenarioConfig with testChunks := true }

/-- A six-byte file read one byte at a time, two chunks of read-ahead, one upload
at a time. -/
def readAheadConfig : Config :=
  { size := 6, chunkSize := 1, maxMemory := 2, maxConcurrency := 1, testChunks := false }

/-- A session of `readAheadConfig` in which two uploads finish before reads that
were issued earlier. -/
def readAheadEvents : List Event :=
  [.upload "id" true [] 0, .readDone 0, .uploadSuccess 0 1, .readDone 0, .uploadSuccess 1 2,
   .readDone 0, .readDone 0, .readDone 0, .readDone 0]

/-- A three-byte file that does not fit the memory budget, hashing switched on. -/
def largeFileConfig : Config :=
  { size := 3, chunkSize := 1, maxMemory := 3, maxConcurrency := 1, testChunks := true }

/-- A three-byte file within the memory budget, hashing switched on. -/
def smallFileConfig : Config :=
  { size := 3, chunkSize := 1, maxMemory := 10, maxConcurrency := 1, testChunks := true }

/-- A one-byte file, one chunk. -/
def oneChunkConfig : Config :=
  { size := 1, chunkSize := 1, maxMemory := 1, maxConcurrency := 1, testChunks := false }

/-- State of a session: a freshly constructed uploader, then `upload` with the
given verify response, then the events `evs`. -/
def session (cfg : Config) (ident : String) (needUpload : Bool) (uploadedChunks : List Nat)
    (now : Int) (evs : List Event) : Uploader :=
  run evs (step (.upload ident needUpload uploadedChunks now) (new cfg))

/-- A three-byte file, one chunk of read-ahead, one upload at a time. -/
def pauseConfig : Config :=
  { size := 3, chunkSize := 1, maxMemory := 1, maxConcurrency := 1, testChunks := false }

/-- Byte length of chunk `i`: the expression `Math.min (size - position, chunkSize)`
of `readFileChunk` at `position = i * chunkSize`. -/
def chunkLen (size chunkSize i : Nat) : Int :=
  min ((size : Int) - (i * chunkSize : Nat)) chunkSize

/-- Completions reported by the environment, as opposed to method calls. -/
def Event.isCompletion : Event → Bool
  | .readDone _ => true
  | .readFail _ => true
  | .uploadSuccess _ _ => true
  | .uploadFail _ => true
  | .mergeDone => true
  | _ => false

/-- Events of a running session other than `pause`. -/
def Event.keepsTasks : Event → Bool
  | .upload _ _ _ _ => false
  | .cancel => false
  | .pause => false
  | _ => true

/-- A session of `pauseConfig` in which the upload of chunk 0 is aborted by a
pause, chunks 1 and 2 are confirmed after the resume, and chunk 0 has been read
and sent again. -/
def pausedSessionEvents : List Event :=
  [.readDone 0, .pause, .resume 1, .readDone 0, .uploadSuccess 1 2, .readDone 0,
   .uploadSuccess 2 3, .readDone 0]

/-- A one-chunk file with hashing and resume negotiation switched on, two uploads
at a time. -/
def raceConfig : Config :=
  { size := 1, chunkSize := 1, maxMemory := 10, maxConcurrency := 2, testChunks := true }

/-- An execution in which `resume` is called before `upload`: chunk 0 is read and
sent, then `upload` negotiates the resume set 0, and after a pause and a resume
the re-queued key of chunk 0 is read again. -/
def raceEvents : List Event :=
  [.resume 0, .readDone 0, .upload "id" true [0] 1, .pause, .resume 2, .readDone 0]

/-- State of the session of `smallFileConfig` with resume set 1, right after
`upload`: chunk 0 is in flight, chunks 1 and 2 are queued. -/
def skipSession : Uploader := session smallFileConfig "id" true [1] 0 []

/-- The state in which the `success` callback of chunk 0 calls `uploadChunk` in
`skipSession`: the callback has counted the chunk, deleted its task, updated the
progress and called `readFileChunk`. -/
def skipCallState : Uploader :=
  readFileChunk (updateUploadSize 1 1
    { skipSession with
      requests := setReqState 0 .succeeded skipSession.requests
      chunksSend := skipSession.chunksSend + 1
      gConfirmed := skipSession.gConfirmed ++ [.num 0]
      uploadTasks := objDelete 0 skipSession.uploadTasks })

/-- The scenario of the specification after all three chunks have been dispatched
and `pause` has aborted them: the Pending list holds their three string keys. -/
def pausedScenario : Uploader :=
  run [.upload "id" true [] 0, .readDone 0, .readDone 0, .readDone 0, .pause]
    (new scenarioConfig)

/-- The scenario of the specification with one chunk of read-ahead, paused while
chunk 0 is in flight: the Pending list holds the numbers 1 and 2 and the string
key of chunk 0. -/
def mixedPending : Uploader :=
  run [.upload "id" true [] 0, .readDone 0, .pause]
    (new { scenarioConfig with maxMemory := 1000000 })

/-! ## Predicates used by the theorems -/

/-- The concurrency bound: `uploadTasks` has at most `maxConcurrency` keys. -/
def TasksBounded (s : Uploader) : Prop :=
  (objKeys s.uploadTasks).length ≤ s.config.maxConcurrency

/-- The fields that are assigned in the constructor only. -/
def immut (s : Uploader) : Config × Nat × Nat × Nat × Nat :=
  (s.config, s.size, s.chunkSize, s.totalChunks, s.maxLoadChunks)

/-- Index values waiting in some stage of the pipeline: the Pending list, an
outstanding read, the queue, or `uploadTasks`. -/
def waiting (s : Uploader) : List Nat :=
  s.chunksIndex.map JsIndex.toNat ++ s.reads.map (fun r => r.index.toNat)
    ++ s.chunksQueue.map (fun c => c.index.toNat) ++ objKeys s.uploadTasks

/-- Index values held anywhere: waiting, or confirmed. -/
def whereabouts (s : Uploader) : List Nat :=
  waiting s ++ s.gConfirmed.map JsIndex.toNat

/-- A string index never names a chunk of the resume set `u`. -/
def strSafe (u : List Nat) (i : JsIndex) : Prop := ∀ k, i = JsIndex.str k → k ∉ u

/-- The resume set is `u`, and no index that can still reach `uploadChunk` as a
string, no key of `uploadTasks` and no request issued so far names a chunk of it. -/
structure SkipSafe (u : List Nat) (s : Uploader) : Prop where
  resume : s.uploadedChunks = u
  pending : ∀ i ∈ s.chunksIndex, strSafe u i
  reading : ∀ i ∈ s.reads.map (fun r => r.index), strSafe u i
  queued : ∀ i ∈ s.chunksQueue.map (fun c => c.index), strSafe u i
  tasks : ∀ k ∈ objKeys s.uploadTasks, k ∉ u
  sent : ∀ k ∈ s.requests.map (fun r => r.index.toNat), k ∉ u

/-- Events of a running session: everything but `upload` and `cancel`. -/
def Event.inSession : Event → Bool
  | .upload _ _ _ _ => false
  | .cancel => false
  | _ => true

/-- Nothing has been paused or sent yet: every index is a number. -/
structure Untouched (s : Uploader) : Prop where
  pending : ∀ i ∈ s.chunksIndex, ∃ n, i = JsIndex.num n
  reading : s.reads = []
  queued : ∀ i ∈ s.chunksQueue.map (fun c => c.index), ∃ n, i = JsIndex.num n
  tasks : s.uploadTasks = []
  sent : s.requests = []

/-- The resume set that `upload` installs. -/
def resumeSet (cfg : Config) (needUpload : Bool) (u : List Nat) : List Nat :=
  if cfg.testChunks = true ∧ needUpload = true then jsSort u else []

/-- Number of times uploadDone has been emitted. -/
def doneCount (s : Uploader) : Nat := s.gEmitted.count Emitted.uploadDone

/-- The counters that decide when uploadDone is emitted, with the number of
success callbacks logged. -/
def tally (s : Uploader) : Nat × Nat × Nat × Nat :=
  (doneCount s, s.chunksSend, s.chunksNeedSend, s.gConfirmed.length)

/-- The counters and collections that `_reset` assigns. -/
def sessionFields (s : Uploader) :
    List JsIndex × Nat × Int × JsNum × String × Bool × Nat × List Chunk × List (Nat × Nat)
      × List Nat × List Nat × Int × JsNum × JsNum :=
  (s.chunksIndex, s.chunksNeedSend, s.sizeNeedSend, s.progress, s.identifier, s.isUploading,
    s.chunksSend, s.chunksQueue, s.uploadTasks, s.pUploadList, s.uploadedChunks, s.uploadedSize,
    s.averageSpeed, s.timeRemaining)

/-- Number of places that hold the index value `v`: entries of the Pending list,
outstanding reads, queue entries, keys of `uploadTasks` and confirmed chunks. -/
def occ (v : Nat) (s : Uploader) : Nat := (whereabouts s).count v

/-- Chunk conservation for a session without resume set: every index value is
held in at most one place and is below `totalChunks`; each request in flight is
the task recorded under its index; every length travelling with an index is the
byte length of that chunk; `uploadedSize` is the total length of the confirmed
chunks; the counters are those of a session that sends every chunk. -/
structure Conserved (s : Uploader) : Prop where
  nodup : ∀ v, occ v s ≤ 1
  bound : ∀ v, 0 < occ v s → v < s.totalChunks
  ids : s.requests.map (fun r => r.id) = List.range s.requests.length
  inflight : ∀ r ∈ s.requests, r.state = .inflight → (r.index.toNat, r.id) ∈ s.uploadTasks
  lenReads : ∀ r ∈ s.reads, r.length = chunkLen s.size s.chunkSize r.index.toNat
  lenQueue : ∀ c ∈ s.chunksQueue, c.length = chunkLen s.size s.chunkSize c.index.toNat
  lenReq : ∀ r ∈ s.requests, r.length = chunkLen s.size s.chunkSize r.index.toNat
  total : s.uploadedSize
    = (s.gConfirmed.map (fun i => chunkLen s.size s.chunkSize i.toNat)).sum
  noSkip : s.uploadedChunks = []
  need : s.chunksNeedSend = s.totalChunks
  sizeNeed : s.sizeNeedSend = s.size
  sent : s.gConfirmed.length = s.chunksSend

/-! ## Theorems -/

/-! ### Chunk geometry (C1) -/

theorem ceilDiv_mul_ge (a b : Nat) (hb : 0 < b) : a ≤ ceilDiv a b * b := by
  unfold ceilDiv
  have h := Nat.div_add_mod (a + b - 1) b
  have hr := Nat.mod_lt (a + b - 1) hb
  rw [Nat.mul_comm] at h
  omega

theorem ceilDiv_pred_mul_lt (a b : Nat) (ha : 0 < a) (hb : 0 < b) :
    (ceilDiv a b - 1) * b < a := by
  unfold ceilDiv
  have h := Nat.div_add_mod (a + b - 1) b
  rw [Nat.mul_comm] at h
  rw [Nat.sub_mul]
  omega

theorem ceilDiv_eq_ceil (a b : Nat) (ha : 0 < a) (hb : 0 < b) :
    ((ceilDiv a b : Nat) : ℤ) = ⌈(a : ℚ) / (b : ℚ)⌉ := by
  symm
  rw [Int.ceil_eq_iff]
  have hb' : (0 : ℚ) < b := by exact_mod_cast hb
  have h1 := ceilDiv_mul_ge a b hb
  have h2 := ceilDiv_pred_mul_lt a b ha hb
  have hpos : 1 ≤ ceilDiv a b := by
    rcases Nat.eq_zero_or_pos (ceilDiv a b) with h | h
    · rw [h] at h1; omega
    · exact h
  constructor
  · rw [lt_div_iff₀ hb']
    have : (((ceilDiv a b - 1) * b : Nat) : ℚ) < (a : ℚ) := by exact_mod_cast h2
    push_cast [Nat.cast_sub hpos] at this ⊢
    linarith
  · rw [div_le_iff₀ hb']
    have : ((a : Nat) : ℚ) ≤ ((ceilDiv a b * b : Nat) : ℚ) := by exact_mod_cast h1
    push_cast at this ⊢
    linarith

theorem readRequest_congr (s t : Uploader) (h1 : t.size = s.size) (h2 : t.chunkSize = s.chunkSize)
    (i : JsIndex) : readRequest t i = readRequest s i := by
  simp [readRequest, h1, h2]

theorem readLoop_reads (n : Nat) : ∀ s : Uploader, n ≤ s.chunksIndex.length →
    (readLoop n s).reads = s.reads ++ (s.chunksIndex.take n).map (readRequest s) := by
  induction n with
  | zero => intro s _; simp [readLoop]
  | succ n ih =>
    intro s hn
    cases hc : s.chunksIndex with
    | nil => rw [hc] at hn; simp at hn
    | cons i rest =>
      rw [hc] at hn
      simp only [readLoop, hc]
      rw [ih _ (by simpa using hn)]
      simp only [List.take_succ_cons, List.map_cons, List.append_assoc, List.singleton_append]
      congr 2

theorem readCount_le (s : Uploader) : (readCount s).toNat ≤ s.chunksIndex.length := by
  unfold readCount; omega

theorem readFileChunk_reads (s : Uploader) :
    (readFileChunk s).reads
      = s.reads ++ (s.chunksIndex.take (readCount s).toNat).map (readRequest s) :=
  readLoop_reads _ s (readCount_le s)


/-- C1: for positive `size` and `chunkSize` the constructor sets `totalChunks` to
the ceiling of `size / chunkSize`; `readFileChunk` issues, for the indices it takes
from the front of `chunksIndex`, the read `readRequest`, and for every index
`i < totalChunks` that read has position `i * chunkSize` and length
`min (size - i * chunkSize) chunkSize`, which is `chunkSize` when
`i < totalChunks - 1` and `size - (totalChunks - 1) * chunkSize` when
`i = totalChunks - 1`. -/
theorem chunk_geometry (cfg : Config) (hs : 0 < cfg.size) (hc : 0 < cfg.chunkSize) :
    (((new cfg).totalChunks : Nat) : ℤ) = ⌈(cfg.size : ℚ) / (cfg.chunkSize : ℚ)⌉ ∧
    ∀ s : Uploader, s.size = cfg.size → s.chunkSize = cfg.chunkSize →
      (readFileChunk s).reads
        = s.reads ++ (s.chunksIndex.take (readCount s).toNat).map (readRequest s) ∧
      ∀ idx : JsIndex, idx.toNat < (new cfg).totalChunks →
        (readRequest s idx).position = idx.toNat * cfg.chunkSize ∧
        (readRequest s idx).length
          = min ((cfg.size : Int) - (idx.toNat : Int) * cfg.chunkSize) cfg.chunkSize ∧
        (idx.toNat < (new cfg).totalChunks - 1 →
          (readRequest s idx).length = cfg.chunkSize) ∧
        (idx.toNat = (new cfg).totalChunks - 1 →
          (readRequest s idx).length
            = (cfg.size : Int) - (((new cfg).totalChunks : Int) - 1) * cfg.chunkSize) := by
  have htot : (new cfg).totalChunks = ceilDiv cfg.size cfg.chunkSize := rfl
  refine ⟨by rw [htot]; exact ceilDiv_eq_ceil _ _ hs hc, ?_⟩
  intro s h1 h2
  refine ⟨readFileChunk_reads s, ?_⟩
  intro idx hidx
  rw [htot] at hidx ⊢
  have hge := ceilDiv_mul_ge cfg.size cfg.chunkSize hc
  have hlt := ceilDiv_pred_mul_lt cfg.size cfg.chunkSize hs hc
  generalize ceilDiv cfg.size cfg.chunkSize = t at hidx hge hlt
  simp only [readRequest, h1, h2, Nat.cast_mul]
  generalize idx.toNat = i at hidx ⊢
  refine ⟨trivial, trivial, ?_, ?_⟩
  · intro hi
    have : (i + 1) * cfg.chunkSize ≤ (t - 1) * cfg.chunkSize :=
      Nat.mul_le_mul_right _ (by omega)
    rw [Nat.add_mul] at this
    have h3 : ((i * cfg.chunkSize + 1 * cfg.chunkSize : Nat) : Int) < cfg.size := by
      exact_mod_cast lt_of_le_of_lt this hlt
    push_cast at h3
    rw [min_eq_right]
    linarith
  · intro hi
    subst hi
    have ht : 1 ≤ t := by omega
    push_cast [Nat.cast_sub ht]
    rw [min_eq_left]
    have h3 : ((cfg.size : Nat) : Int) ≤ ((t * cfg.chunkSize : Nat) : Int) := by
      exact_mod_cast hge
    push_cast at h3
    linarith

/-- The scenario of the specification: three chunks, the last of 500 000 bytes. -/
theorem chunk_geometry_witness :
    (0 < scenarioConfig.size ∧ 0 < scenarioConfig.chunkSize) ∧
    (new scenarioConfig).totalChunks = 3 ∧
    (((new scenarioConfig).totalChunks : Nat) : ℤ)
      = ⌈(scenarioConfig.size : ℚ) / (scenarioConfig.chunkSize : ℚ)⌉ ∧
    (readRequest (new scenarioConfig) (.num 2)).length = 500000 ∧
    (readRequest (new scenarioConfig) (.num 2)).length
      = (scenarioConfig.size : Int)
        - (((new scenarioConfig).totalChunks : Int) - 1) * scenarioConfig.chunkSize :=
  have h := chunk_geometry scenarioConfig (by decide) (by decide)
  ⟨⟨by decide, by decide⟩, by decide, h.1, by decide,
    ((h.2 (new scenarioConfig) rfl rfl).2 (.num 2) (by decide)).2.2.2 (by decide)⟩

/-! ### Frames: which fields each method can change -/

theorem emit_frame (e : Emitted) (s : Uploader) :
    ∃ m, emit e s = { s with gEmitted := s.gEmitted ++ [e], mergeRequests := m } := by
  cases e <;> exact ⟨_, rfl⟩

theorem readLoop_frame (n : Nat) : ∀ s : Uploader,
    ∃ ci rd, readLoop n s = { s with chunksIndex := ci, reads := rd } := by
  induction n with
  | zero => intro s; exact ⟨_, _, rfl⟩
  | succ n ih =>
    intro s
    cases hc : s.chunksIndex with
    | nil => simp only [readLoop, hc]; exact ⟨[], s.reads, by rw [← hc]⟩
    | cons i rest =>
      simp only [readLoop, hc]
      obtain ⟨ci, rd, h⟩ := ih { s with chunksIndex := rest, reads := s.reads ++ [readRequest s i] }
      exact ⟨ci, rd, by rw [h]⟩

theorem readFileChunk_frame (s : Uploader) :
    ∃ ci rd, readFileChunk s = { s with chunksIndex := ci, reads := rd } :=
  readLoop_frame _ s

theorem uploadChunkFrom_frame (l : List Chunk) : ∀ s : Uploader,
    ∃ q rq ut, uploadChunkFrom l s = { s with chunksQueue := q, requests := rq, uploadTasks := ut } := by
  induction l with
  | nil => intro s; exact ⟨_, _, _, rfl⟩
  | cons c rest ih =>
    intro s
    simp only [uploadChunkFrom]
    split
    · exact ⟨_, _, _, rfl⟩
    · split
      · exact ⟨_, _, _, rfl⟩
      · split
        · obtain ⟨q, rq, ut, h⟩ := ih { s with chunksQueue := rest }
          exact ⟨q, rq, ut, by rw [h]⟩
        · exact ⟨_, _, _, rfl⟩

theorem uploadChunk_frame (s : Uploader) :
    ∃ q rq ut, uploadChunk s = { s with chunksQueue := q, requests := rq, uploadTasks := ut } :=
  uploadChunkFrom_frame _ s

/-! ### More frames -/

theorem hashSlice_frame (b : Bool) (n : Nat) (s : Uploader) (i : Nat) :
    ∃ q h, hashSlice b n s i = { s with chunksQueue := q, gHashed := h } := by
  cases b <;> exact ⟨_, _, rfl⟩

theorem hashLoop_frame (b : Bool) (n : Nat) (l : List Nat) : ∀ s : Uploader,
    ∃ q h, l.foldl (hashSlice b n) s = { s with chunksQueue := q, gHashed := h } := by
  induction l with
  | nil => intro s; exact ⟨_, _, rfl⟩
  | cons i rest ih =>
    intro s
    obtain ⟨q, h, e⟩ := hashSlice_frame b n s i
    obtain ⟨q2, h2, e2⟩ := ih (hashSlice b n s i)
    rw [List.foldl_cons, e2, e]
    exact ⟨q2, h2, rfl⟩

theorem computeMD5_frame (s : Uploader) :
    ∃ q h, computeMD5 s = { s with chunksQueue := q, gHashed := h, chunksIndex := [] } := by
  unfold computeMD5
  obtain ⟨q, h, e⟩ := hashLoop_frame (decide (s.size < s.config.maxMemory))
    (if decide (s.size < s.config.maxMemory) = true then s.chunkSize else 10 * MB)
    (List.range (ceilDiv s.size
      (if decide (s.size < s.config.maxMemory) = true then s.chunkSize else 10 * MB))) s
  simp only [e]
  exact ⟨q, h, rfl⟩

theorem applyResume_frame (u : List Nat) (s : Uploader) :
    ∃ n, applyResume u s =
      { s with uploadedChunks := jsSort u
               chunksIndex := s.chunksIndex.filter (fun v => !jsIncludes (jsSort u) v)
               chunksNeedSend := (s.chunksIndex.filter (fun v => !jsIncludes (jsSort u) v)).length
               sizeNeedSend := n } := by
  unfold applyResume
  simp only
  split <;> exact ⟨_, rfl⟩

theorem pauseLoop_eq (l : List (Nat × Nat)) : ∀ s : Uploader,
    l.foldl (fun t e => { t with chunksIndex := t.chunksIndex ++ [JsIndex.str e.1]
                                 requests := abortTask e.2 t.requests }) s
      = { s with chunksIndex := s.chunksIndex ++ (objKeys l).map JsIndex.str
                 requests := l.foldl (fun rs e => abortTask e.2 rs) s.requests } := by
  induction l with
  | nil => intro s; simp [objKeys]
  | cons e rest ih => intro s; rw [List.foldl_cons, ih]; simp [objKeys]

theorem pause_eq (s : Uploader) :
    pause s = { s with chunksIndex := s.chunksIndex ++ (objKeys s.uploadTasks).map JsIndex.str
                       requests := s.uploadTasks.foldl (fun rs e => abortTask e.2 rs) s.requests
                       uploadTasks := []
                       isUploading := false } := by
  unfold pause
  simp only [pauseLoop_eq]

theorem upload_eq (i : String) (b : Bool) (u : List Nat) (now : Int) (s : Uploader) :
    upload i b u now s =
      if s.config.testChunks then
        if b = false then emit .complete { computeMD5 s with identifier := i }
        else _upload now { applyResume u { computeMD5 s with identifier := i } with
                            isUploading := true }
      else _upload now { s with identifier := i, isUploading := true } := by
  unfold upload
  obtain ⟨q, g, e⟩ := computeMD5_frame s
  cases h : s.config.testChunks
  · simp [h]
  · simp only [h, if_true]
    have hc : (computeMD5 s).config.testChunks = true := by rw [e]; exact h
    simp only [hc, if_true]

theorem foldl_uploadChunk_induct (P : Uploader → Prop)
    (hP : ∀ s, P s → P (uploadChunk s)) (l : List Nat) :
    ∀ s, P s → P (l.foldl (fun t _ => uploadChunk t) s) := by
  induction l with
  | nil => intro s h; exact h
  | cons _ rest ih => intro s h; exact ih _ (hP _ h)

/-! ### Fields assigned once -/

theorem immut_emit (e : Emitted) (s : Uploader) : immut (emit e s) = immut s := by
  obtain ⟨m, h⟩ := emit_frame e s
  rw [h]; rfl

theorem immut_readFileChunk (s : Uploader) : immut (readFileChunk s) = immut s := by
  obtain ⟨a, b, h⟩ := readFileChunk_frame s
  rw [h]; rfl

theorem immut_uploadChunk (s : Uploader) : immut (uploadChunk s) = immut s := by
  obtain ⟨a, b, c, h⟩ := uploadChunk_frame s
  rw [h]; rfl

theorem immut_updateUploadSize (l now : Int) (s : Uploader) :
    immut (updateUploadSize l now s) = immut s := by
  unfold updateUploadSize
  rw [immut_emit]; rfl

theorem immut__upload (now : Int) (s : Uploader) : immut (_upload now s) = immut s := by
  unfold _upload
  simp only
  split
  · exact foldl_uploadChunk_induct (fun t => immut t = immut s)
      (fun t h => (immut_uploadChunk t).trans h) _ _ rfl
  · rw [immut_readFileChunk]; rfl

theorem immut_pause (s : Uploader) : immut (pause s) = immut s := by
  rw [pause_eq]; rfl

theorem immut__reset (s : Uploader) : immut (_reset s) = immut s := by
  unfold _reset
  rw [immut_emit]; rfl

theorem immut_computeMD5 (s : Uploader) : immut (computeMD5 s) = immut s := by
  obtain ⟨q, g, e⟩ := computeMD5_frame s
  rw [e]; rfl

theorem immut_applyResume (u : List Nat) (s : Uploader) : immut (applyResume u s) = immut s := by
  obtain ⟨n, e⟩ := applyResume_frame u s
  rw [e]; rfl

theorem immut_upload (i : String) (b : Bool) (u : List Nat) (now : Int) (s : Uploader) :
    immut (upload i b u now s) = immut s := by
  rw [upload_eq]
  have h1 : immut { computeMD5 s with identifier := i } = immut s := immut_computeMD5 s
  split
  · split
    · rw [immut_emit]; exact h1
    · rw [immut__upload]
      exact (immut_applyResume u { computeMD5 s with identifier := i }).trans h1
  · rw [immut__upload]; rfl

theorem immut_onUploadSuccess (i : JsIndex) (l now : Int) (s : Uploader) :
    immut (onUploadSuccess i l now s) = immut s := by
  unfold onUploadSuccess
  simp only
  split
  · rw [immut_emit, immut_uploadChunk, immut_readFileChunk, immut_updateUploadSize]; rfl
  · rw [immut_uploadChunk, immut_readFileChunk, immut_updateUploadSize]; rfl

theorem immut_step (e : Event) (s : Uploader) : immut (step e s) = immut s := by
  cases e with
  | upload i b u now => exact immut_upload i b u now s
  | pause => exact immut_pause s
  | resume now => exact (immut__upload now _).trans rfl
  | cancel => exact (immut__reset _).trans (immut_pause s)
  | readDone k =>
    simp only [step]
    split
    · rfl
    · exact (immut_uploadChunk _).trans rfl
  | readFail k =>
    simp only [step]
    split
    · rfl
    · exact (immut_emit _ _).trans rfl
  | uploadSuccess id now =>
    simp only [step]
    split
    · rfl
    · exact (immut_onUploadSuccess _ _ _ _).trans rfl
  | uploadFail id =>
    simp only [step]
    split
    · rfl
    · exact (immut_emit _ _).trans rfl
  | mergeDone =>
    simp only [step]
    split
    · rfl
    · exact (immut_emit _ _).trans rfl

theorem immut_run (evs : List Event) : ∀ s : Uploader, immut (run evs s) = immut s := by
  induction evs with
  | nil => intro s; rfl
  | cons e rest ih => intro s; exact (ih (step e s)).trans (immut_step e s)

theorem run_config (evs : List Event) (s : Uploader) : (run evs s).config = s.config :=
  congrArg (fun p => p.1) (immut_run evs s)

/-! ### Resume counters (C2) -/

theorem _upload_counters (now : Int) (s : Uploader) :
    (_upload now s).chunksNeedSend = s.chunksNeedSend ∧
    (_upload now s).sizeNeedSend = s.sizeNeedSend := by
  unfold _upload
  simp only
  split
  · exact foldl_uploadChunk_induct
      (fun x => x.chunksNeedSend = s.chunksNeedSend ∧ x.sizeNeedSend = s.sizeNeedSend)
      (fun x hx => by
        obtain ⟨a, b, c, h⟩ := uploadChunk_frame x
        rw [h]; exact hx) _ _ ⟨rfl, rfl⟩
  · obtain ⟨a, b, h⟩ := readFileChunk_frame
      { s with startUploadTime := some now, _uploadedSize := some 0 }
    rw [h]; exact ⟨rfl, rfl⟩

theorem applyResume_of_empty (u : List Nat) (s : Uploader) (h : s.chunksIndex = []) :
    (applyResume u s).chunksNeedSend = 0 ∧ (applyResume u s).sizeNeedSend = 0 := by
  simp [applyResume, h, includesNum]

/-- With `testChunks` on and `needUpload` true, `upload` leaves both counters at
zero whatever the state and the resume set. -/
theorem upload_testChunks_counters (i : String) (u : List Nat) (now : Int) (s : Uploader)
    (h : s.config.testChunks = true) :
    (upload i true u now s).chunksNeedSend = 0 ∧ (upload i true u now s).sizeNeedSend = 0 := by
  rw [upload_eq]
  simp only [h, if_true, Bool.true_eq_false, if_false]
  have hr := applyResume_of_empty u { computeMD5 s with identifier := i } (by
    obtain ⟨q, g, e⟩ := computeMD5_frame s
    rw [e])
  have hu := _upload_counters now
    { applyResume u { computeMD5 s with identifier := i } with isUploading := true }
  exact ⟨hu.1.trans hr.1, hu.2.trans hr.2⟩

/-- C2, the code at the scenario of the specification (2 500 000 bytes, chunks of
1 000 000, verify response `needUpload = true`, `uploadedChunks = [0, 1]`): there are
three chunks and two of them are skipped, yet `upload` leaves `chunksNeedSend = 0`
and `sizeNeedSend = 0`, not 1 and 500 000, because `computeMD5` has emptied
`chunksIndex` before the bookkeeping filters and counts it. -/
theorem resume_counters_scenario :
    (step (.upload "id" true [0, 1] 0) (new resumeConfig)).totalChunks = 3 ∧
    (step (.upload "id" true [0, 1] 0) (new resumeConfig)).uploadedChunks = [0, 1] ∧
    (step (.upload "id" true [0, 1] 0) (new resumeConfig)).chunksNeedSend = 0 ∧
    (step (.upload "id" true [0, 1] 0) (new resumeConfig)).sizeNeedSend = 0 := by
  decide

/-! ### Memory bound (C5) -/

/-- C5, the code on `readAheadConfig`: `maxLoadChunks` is 2, and after the events
`readAheadEvents` (only read completions and upload successes after `upload`) the
queue holds the three chunks 3, 4 and 5.  `readFileChunk` subtracts the queue
length from `maxLoadChunks` but not the reads that are still outstanding. -/
theorem queue_exceeds_maxLoadChunks :
    (run readAheadEvents (new readAheadConfig)).maxLoadChunks = 2 ∧
    (run readAheadEvents (new readAheadConfig)).chunksQueue.map (fun c => c.index)
      = [.num 3, .num 4, .num 5] ∧
    (run readAheadEvents (new readAheadConfig)).chunksQueue.length = 3 := by
  decide

/-! ### Chunk conservation (C6) -/

/-- C6, the code on `largeFileConfig` (hashing on, file not below `maxMemory`):
after `upload` with an empty resume set the three chunk indices are in no stage at
all: not Pending, not being read, not queued, not in flight, not confirmed.
`computeMD5` empties `chunksIndex` although it kept no chunk. -/
theorem chunks_lost_after_hashing :
    (step (.upload "id" true [] 0) (new largeFileConfig)).totalChunks = 3 ∧
    (step (.upload "id" true [] 0) (new largeFileConfig)).uploadedChunks = [] ∧
    (step (.upload "id" true [] 0) (new largeFileConfig)).isUploading = true ∧
    whereabouts (step (.upload "id" true [] 0) (new largeFileConfig)) = [] := by
  decide

/-! ### Progress bound (C10) -/

/-- C10, the code on `smallFileConfig` (hashing on): after `upload` and the first
upload success `uploadedSize` is 1 while `sizeNeedSend` is 0. -/
theorem uploadedSize_exceeds_sizeNeedSend :
    (run [.upload "id" true [] 0, .uploadSuccess 0 5] (new smallFileConfig)).uploadedSize = 1 ∧
    (run [.upload "id" true [] 0, .uploadSuccess 0 5] (new smallFileConfig)).sizeNeedSend = 0 ∧
    (run [.upload "id" true [] 0, .uploadSuccess 0 5] (new smallFileConfig)).progress
      = .posInf := by
  decide

/-! ### Pause (C7) -/

/-- C7: for every state, after `pause` every key of `uploadTasks` (a failed upload
leaves its key there, see the last conjunct) is in `chunksIndex`, as the string
that `Object.keys` produced; `chunksIndex` is the old list followed by these keys;
`uploadTasks` is empty, `isUploading` is false and `chunksQueue` is unchanged. -/
theorem pause_requeues (s : Uploader) :
    (∀ k ∈ objKeys s.uploadTasks, JsIndex.str k ∈ (pause s).chunksIndex) ∧
    (∀ k ∈ objKeys s.uploadTasks, k ∈ (pause s).chunksIndex.map JsIndex.toNat) ∧
    (pause s).chunksIndex = s.chunksIndex ++ (objKeys s.uploadTasks).map JsIndex.str ∧
    (pause s).uploadTasks = [] ∧
    (pause s).isUploading = false ∧
    (pause s).chunksQueue = s.chunksQueue ∧
    (∀ id, (step (.uploadFail id) s).uploadTasks = s.uploadTasks) := by
  rw [pause_eq]
  refine ⟨?_, ?_, rfl, rfl, rfl, rfl, ?_⟩
  · intro k hk
    simp only [List.mem_append, List.mem_map]
    exact Or.inr ⟨k, hk, rfl⟩
  · intro k hk
    simp only [List.map_append, List.mem_append, List.mem_map]
    exact Or.inr ⟨JsIndex.str k, ⟨k, hk, rfl⟩, rfl⟩
  · intro id
    simp only [step]
    split
    · rfl
    · obtain ⟨m, h⟩ := emit_frame .error
        { s with requests := setReqState id .failed s.requests }
      rw [h]

/-- The session of `pauseConfig` with chunk 0 in flight: `pause` puts the key 0
back into `chunksIndex`. -/
theorem pause_requeues_witness :
    0 ∈ objKeys (session pauseConfig "id" true [] 0 [.readDone 0]).uploadTasks ∧
    JsIndex.str 0 ∈ (pause (session pauseConfig "id" true [] 0 [.readDone 0])).chunksIndex ∧
    (pause (session pauseConfig "id" true [] 0 [.readDone 0])).chunksIndex
      = [.num 1, .num 2, .str 0] :=
  ⟨by decide,
    (pause_requeues (session pauseConfig "id" true [] 0 [.readDone 0])).1 0 (by decide),
    by decide⟩

/-! ### Concurrency bound (C4) -/

theorem objSet_length_le (k v : Nat) (o : List (Nat × Nat)) :
    (objSet k v o).length ≤ o.length + 1 := by
  induction o with
  | nil => simp [objSet]
  | cons e t ih =>
    obtain ⟨k1, v1⟩ := e
    simp only [objSet]
    split
    · simp
    · split
      · simp
      · simp only [List.length_cons]; omega

theorem objDelete_length_le (k : Nat) (o : List (Nat × Nat)) :
    (objDelete k o).length ≤ o.length := by
  unfold objDelete
  exact List.length_filter_le _ _

theorem tasksBounded_congr {s t : Uploader} (hc : t.config = s.config)
    (ht : t.uploadTasks = s.uploadTasks) (h : TasksBounded s) : TasksBounded t := by
  unfold TasksBounded at *
  rw [hc, ht]; exact h

theorem tasksBounded_emit {s : Uploader} (e : Emitted) (h : TasksBounded s) :
    TasksBounded (emit e s) := by
  obtain ⟨m, hm⟩ := emit_frame e s
  rw [hm]; exact tasksBounded_congr rfl rfl h

theorem tasksBounded_readFileChunk {s : Uploader} (h : TasksBounded s) :
    TasksBounded (readFileChunk s) := by
  obtain ⟨a, b, hm⟩ := readFileChunk_frame s
  rw [hm]; exact tasksBounded_congr rfl rfl h

theorem tasksBounded_uploadChunkFrom (l : List Chunk) : ∀ {s : Uploader},
    TasksBounded s → TasksBounded (uploadChunkFrom l s) := by
  induction l with
  | nil => intro s h; exact h
  | cons c rest ih =>
    intro s h
    simp only [MiniprogramFileUploader.uploadChunkFrom]
    split
    · exact h
    · split
      · exact h
      · rename_i hne
        split
        · exact ih (tasksBounded_congr rfl rfl h)
        · unfold TasksBounded at *
          have := objSet_length_le c.index.toNat s.requests.length s.uploadTasks
          simp only [objKeys, List.length_map, dispatch] at *
          omega

theorem tasksBounded_uploadChunk {s : Uploader} (h : TasksBounded s) :
    TasksBounded (uploadChunk s) :=
  tasksBounded_uploadChunkFrom _ h

theorem tasksBounded__upload {s : Uploader} (now : Int) (h : TasksBounded s) :
    TasksBounded (_upload now s) := by
  unfold MiniprogramFileUploader._upload
  simp only
  split
  · exact foldl_uploadChunk_induct TasksBounded (fun _ h => tasksBounded_uploadChunk h) _ _ (tasksBounded_congr rfl rfl h)
  · exact tasksBounded_readFileChunk (tasksBounded_congr rfl rfl h)

theorem tasksBounded_pause (s : Uploader) : TasksBounded (pause s) := by
  rw [pause_eq]; simp [TasksBounded, objKeys]

theorem tasksBounded__reset (s : Uploader) : TasksBounded (_reset s) := by
  unfold MiniprogramFileUploader._reset
  apply tasksBounded_emit
  simp [TasksBounded, objKeys]

theorem tasksBounded_upload {s : Uploader} (i : String) (b : Bool) (u : List Nat) (now : Int)
    (h : TasksBounded s) : TasksBounded (upload i b u now s) := by
  rw [upload_eq]
  have h1 : TasksBounded { computeMD5 s with identifier := i } := by
    obtain ⟨q, g, e⟩ := computeMD5_frame s
    rw [e]; exact tasksBounded_congr rfl rfl h
  split
  · split
    · exact tasksBounded_emit _ h1
    · apply tasksBounded__upload
      obtain ⟨n, e⟩ := applyResume_frame u { computeMD5 s with identifier := i }
      rw [e]; exact tasksBounded_congr rfl rfl h1
  · exact tasksBounded__upload _ (tasksBounded_congr rfl rfl h)

theorem tasksBounded_updateUploadSize {s : Uploader} (l now : Int) (h : TasksBounded s) :
    TasksBounded (updateUploadSize l now s) := by
  unfold MiniprogramFileUploader.updateUploadSize
  exact tasksBounded_emit _ (tasksBounded_congr rfl rfl h)

theorem tasksBounded_onUploadSuccess {s : Uploader} (i : JsIndex) (l now : Int)
    (h : TasksBounded s) : TasksBounded (onUploadSuccess i l now s) := by
  unfold MiniprogramFileUploader.onUploadSuccess
  have h2 : TasksBounded
      { s with chunksSend := s.chunksSend + 1, gConfirmed := s.gConfirmed ++ [i]
               uploadTasks := objDelete i.toNat s.uploadTasks } := by
    unfold TasksBounded at *
    have := objDelete_length_le i.toNat s.uploadTasks
    simp only [objKeys, List.length_map] at *
    omega
  have h5 := tasksBounded_uploadChunk (tasksBounded_readFileChunk (tasksBounded_updateUploadSize l now h2))
  simp only
  split
  · exact tasksBounded_emit _ h5
  · exact h5

theorem tasksBounded_step (e : Event) {s : Uploader} (h : TasksBounded s) :
    TasksBounded (step e s) := by
  cases e with
  | upload i b u now => exact tasksBounded_upload i b u now h
  | pause => exact tasksBounded_pause s
  | resume now => exact tasksBounded__upload now (tasksBounded_congr rfl rfl h)
  | cancel => exact tasksBounded__reset _
  | readDone k =>
    simp only [MiniprogramFileUploader.step]
    split
    · exact h
    · exact tasksBounded_uploadChunk (tasksBounded_congr rfl rfl h)
  | readFail k =>
    simp only [MiniprogramFileUploader.step]
    split
    · exact h
    · exact tasksBounded_emit _ (tasksBounded_congr rfl rfl h)
  | uploadSuccess id now =>
    simp only [MiniprogramFileUploader.step]
    split
    · exact h
    · exact tasksBounded_onUploadSuccess _ _ _ (tasksBounded_congr rfl rfl h)
  | uploadFail id =>
    simp only [MiniprogramFileUploader.step]
    split
    · exact h
    · exact tasksBounded_emit _ (tasksBounded_congr rfl rfl h)
  | mergeDone =>
    simp only [MiniprogramFileUploader.step]
    split
    · exact h
    · exact tasksBounded_emit _ (tasksBounded_congr rfl rfl h)

theorem tasksBounded_run (evs : List Event) : ∀ {s : Uploader},
    TasksBounded s → TasksBounded (run evs s) := by
  induction evs with
  | nil => intro s h; exact h
  | cons e rest ih => intro s h; exact ih (tasksBounded_step e h)

theorem new_uploadTasks (cfg : Config) : (new cfg).uploadTasks = [] := rfl

/-- C4: in every state reached from a freshly constructed uploader by any sequence
of events (upload, read completion or failure, upload success or failure, pause,
resume, cancel, merge response) the object `uploadTasks` has at most
`maxConcurrency` entries. -/
theorem concurrency_bound (cfg : Config) (evs : List Event) :
    (run evs (new cfg)).uploadTasks.length ≤ cfg.maxConcurrency := by
  have h0 : TasksBounded (new cfg) := by
    simp [TasksBounded, new_uploadTasks, objKeys]
  have h := tasksBounded_run evs h0
  unfold TasksBounded at h
  rw [run_config] at h
  simpa [objKeys] using h

/-! ### Resume set is never sent (C3) -/

theorem readLoop_chunksIndex (n : Nat) : ∀ s : Uploader,
    (readLoop n s).chunksIndex = s.chunksIndex.drop n := by
  induction n with
  | zero => intro s; rfl
  | succ n ih =>
    intro s
    cases hc : s.chunksIndex with
    | nil => simp [readLoop, hc]
    | cons i rest => simp only [readLoop, hc]; rw [ih]; rfl

theorem readLoop_reads_index (n : Nat) : ∀ s : Uploader,
    (readLoop n s).reads.map (fun r => r.index)
      = s.reads.map (fun r => r.index) ++ s.chunksIndex.take n := by
  induction n with
  | zero => intro s; simp [readLoop]
  | succ n ih =>
    intro s
    cases hc : s.chunksIndex with
    | nil => simp [readLoop, hc]
    | cons i rest => simp only [readLoop, hc]; rw [ih]; simp [readRequest]

theorem abortTask_index (id : Nat) (rs : List UploadReq) :
    (abortTask id rs).map (fun r => r.index) = rs.map (fun r => r.index) := by
  unfold abortTask
  rw [List.map_map]
  apply List.map_congr_left
  intro r _
  simp only [Function.comp]
  split <;> rfl

theorem abortAll_index (l : List (Nat × Nat)) : ∀ rs : List UploadReq,
    (l.foldl (fun rs e => abortTask e.2 rs) rs).map (fun r => r.index)
      = rs.map (fun r => r.index) := by
  induction l with
  | nil => intro rs; rfl
  | cons e rest ih => intro rs; rw [List.foldl_cons, ih, abortTask_index]

theorem setReqState_index (id : Nat) (st : ReqState) (rs : List UploadReq) :
    (setReqState id st rs).map (fun r => r.index) = rs.map (fun r => r.index) := by
  unfold setReqState
  rw [List.map_map]
  apply List.map_congr_left
  intro r _
  simp only [Function.comp]
  split <;> rfl

theorem map_index_toNat (rs : List UploadReq) :
    rs.map (fun r => r.index.toNat) = (rs.map (fun r => r.index)).map JsIndex.toNat := by
  rw [List.map_map]; rfl

theorem map_index_toNat_reads (rs : List ReadReq) :
    rs.map (fun r => r.index.toNat) = (rs.map (fun r => r.index)).map JsIndex.toNat := by
  rw [List.map_map]; rfl

theorem mem_objKeys_objSet (x k v : Nat) (o : List (Nat × Nat)) :
    x ∈ objKeys (objSet k v o) ↔ x = k ∨ x ∈ objKeys o := by
  induction o with
  | nil => simp [objSet, objKeys]
  | cons e t ih =>
    obtain ⟨k1, v1⟩ := e
    simp only [objSet]
    split
    · rename_i h; subst h; simp [objKeys]
    · split
      · simp [objKeys]
      · simp only [objKeys, List.map_cons, List.mem_cons] at ih ⊢
        rw [ih]; tauto

theorem mem_objKeys_objDelete (x k : Nat) (o : List (Nat × Nat)) :
    x ∈ objKeys (objDelete k o) ↔ x ≠ k ∧ x ∈ objKeys o := by
  simp only [objKeys, objDelete, List.mem_map, List.mem_filter, decide_eq_true_eq]
  constructor
  · rintro ⟨e, ⟨he, hne⟩, rfl⟩; exact ⟨hne, e, he, rfl⟩
  · rintro ⟨hne, e, he, rfl⟩; exact ⟨e, ⟨he, hne⟩, rfl⟩

theorem not_mem_of_not_jsIncludes {u : List Nat} {i : JsIndex}
    (hs : strSafe u i) (h : ¬ jsIncludes u i = true) : i.toNat ∉ u := by
  cases i with
  | num n => simpa [jsIncludes] using h
  | str k => exact hs k rfl

theorem skipSafe_emit {u : List Nat} {s : Uploader} (e : Emitted) (h : SkipSafe u s) : SkipSafe u (emit e s) := by
  obtain ⟨m, hm⟩ := emit_frame e s
  rw [hm]; exact ⟨h.resume, h.pending, h.reading, h.queued, h.tasks, h.sent⟩

theorem skipSafe_readFileChunk {u : List Nat} {s : Uploader} (h : SkipSafe u s) : SkipSafe u (readFileChunk s) := by
  have h1 := readLoop_chunksIndex (readCount s).toNat s
  have h2 := readLoop_reads_index (readCount s).toNat s
  obtain ⟨a, b, hm⟩ := readFileChunk_frame s
  unfold MiniprogramFileUploader.readFileChunk at *
  rw [hm] at h1 h2 ⊢
  simp only at h1 h2
  refine ⟨h.resume, ?_, ?_, h.queued, h.tasks, h.sent⟩
  · intro i hi
    simp only at hi
    rw [h1] at hi
    exact h.pending i (List.mem_of_mem_drop hi)
  · intro i hi
    simp only at hi
    rw [h2, List.mem_append] at hi
    rcases hi with hi | hi
    · exact h.reading i hi
    · exact h.pending i (List.mem_of_mem_take hi)

theorem skipSafe_uploadChunkFrom {u : List Nat} (l : List Chunk) : ∀ {s : Uploader},
    s.chunksQueue = l → SkipSafe u s → SkipSafe u (uploadChunkFrom l s) := by
  induction l with
  | nil => intro s _ h; exact h
  | cons c rest ih =>
    intro s hq h
    have hqd := h.queued
    rw [hq] at hqd
    simp only [List.map_cons, List.mem_cons, forall_eq_or_imp] at hqd
    have hrest : SkipSafe u { s with chunksQueue := rest } :=
      ⟨h.resume, h.pending, h.reading, hqd.2, h.tasks, h.sent⟩
    simp only [MiniprogramFileUploader.uploadChunkFrom]
    split
    · exact h
    · split
      · exact h
      · split
        · exact ih rfl hrest
        · rename_i hinc
          have hc : c.index.toNat ∉ u := by
            rw [← h.resume]; exact not_mem_of_not_jsIncludes (by rw [h.resume]; exact hqd.1) hinc
          refine ⟨h.resume, h.pending, h.reading, hqd.2, ?_, ?_⟩
          · intro k hk
            simp only [dispatch, mem_objKeys_objSet] at hk
            rcases hk with rfl | hk
            · exact hc
            · exact h.tasks k hk
          · intro k hk
            simp only [dispatch, List.map_append, List.mem_append, List.map_cons, List.map_nil,
              List.mem_singleton] at hk
            rcases hk with hk | rfl
            · exact h.sent k hk
            · exact hc

theorem skipSafe_uploadChunk {u : List Nat} {s : Uploader} (h : SkipSafe u s) : SkipSafe u (uploadChunk s) :=
  skipSafe_uploadChunkFrom _ rfl h

theorem skipSafe__upload {u : List Nat} {s : Uploader} (now : Int) (h : SkipSafe u s) :
    SkipSafe u (_upload now s) := by
  unfold MiniprogramFileUploader._upload
  simp only
  split
  · exact foldl_uploadChunk_induct (SkipSafe u) (fun _ h => skipSafe_uploadChunk h) _ _
      ⟨h.resume, h.pending, h.reading, h.queued, h.tasks, h.sent⟩
  · exact skipSafe_readFileChunk ⟨h.resume, h.pending, h.reading, h.queued, h.tasks, h.sent⟩

theorem skipSafe_pause {u : List Nat} {s : Uploader} (h : SkipSafe u s) : SkipSafe u (pause s) := by
  rw [pause_eq]
  refine ⟨h.resume, ?_, h.reading, h.queued, ?_, ?_⟩
  · intro i hi
    simp only [List.mem_append, List.mem_map] at hi
    rcases hi with hi | ⟨k, hk, rfl⟩
    · exact h.pending i hi
    · intro k2 hk2
      cases hk2
      exact h.tasks k hk
  · intro k hk; simp [objKeys] at hk
  · intro k hk
    simp only [map_index_toNat, abortAll_index] at hk
    rw [← map_index_toNat] at hk
    exact h.sent k hk

theorem skipSafe_updateUploadSize {u : List Nat} {s : Uploader} (l now : Int) (h : SkipSafe u s) :
    SkipSafe u (updateUploadSize l now s) := by
  unfold MiniprogramFileUploader.updateUploadSize
  exact skipSafe_emit _ ⟨h.resume, h.pending, h.reading, h.queued, h.tasks, h.sent⟩

theorem skipSafe_onUploadSuccess {u : List Nat} {s : Uploader} (i : JsIndex) (l now : Int)
    (h : SkipSafe u s) : SkipSafe u (onUploadSuccess i l now s) := by
  unfold MiniprogramFileUploader.onUploadSuccess
  have h2 : SkipSafe u
      { s with chunksSend := s.chunksSend + 1, gConfirmed := s.gConfirmed ++ [i]
               uploadTasks := objDelete i.toNat s.uploadTasks } :=
    ⟨h.resume, h.pending, h.reading, h.queued,
      fun k hk => h.tasks k ((mem_objKeys_objDelete _ _ _).1 hk).2, h.sent⟩
  have h5 := skipSafe_uploadChunk (skipSafe_readFileChunk (skipSafe_updateUploadSize l now h2))
  simp only
  split
  · exact skipSafe_emit _ h5
  · exact h5

theorem skipSafe_setReqState {u : List Nat} {s : Uploader} (id : Nat) (st : ReqState) (h : SkipSafe u s) :
    SkipSafe u { s with requests := setReqState id st s.requests } := by
  refine ⟨h.resume, h.pending, h.reading, h.queued, h.tasks, ?_⟩
  intro k hk
  simp only [map_index_toNat, setReqState_index] at hk
  rw [← map_index_toNat] at hk
  exact h.sent k hk

theorem skipSafe_step {u : List Nat} (e : Event) (he : e.inSession = true) {s : Uploader} (h : SkipSafe u s) :
    SkipSafe u (step e s) := by
  cases e with
  | upload i b u now => simp [Event.inSession] at he
  | cancel => simp [Event.inSession] at he
  | pause => exact skipSafe_pause h
  | resume now => exact skipSafe__upload now ⟨h.resume, h.pending, h.reading, h.queued, h.tasks, h.sent⟩
  | readDone k =>
    simp only [MiniprogramFileUploader.step]
    split
    · exact h
    · rename_i r hr
      apply skipSafe_uploadChunk
      have hmem : r ∈ s.reads := List.get?_mem hr
      refine ⟨h.resume, h.pending, ?_, ?_, h.tasks, h.sent⟩
      · intro i hi
        simp only [List.mem_map] at hi
        obtain ⟨x, hx, rfl⟩ := hi
        exact h.reading _ (List.mem_map.2 ⟨x, List.mem_of_mem_eraseIdx hx, rfl⟩)
      · intro i hi
        simp only [List.map_append, List.mem_append, List.map_cons, List.map_nil,
          List.mem_singleton] at hi
        rcases hi with hi | rfl
        · exact h.queued i hi
        · exact h.reading _ (List.mem_map.2 ⟨r, hmem, rfl⟩)
  | readFail k =>
    simp only [MiniprogramFileUploader.step]
    split
    · exact h
    · apply skipSafe_emit
      refine ⟨h.resume, h.pending, ?_, h.queued, h.tasks, h.sent⟩
      intro i hi
      simp only [List.mem_map] at hi
      obtain ⟨x, hx, rfl⟩ := hi
      exact h.reading _ (List.mem_map.2 ⟨x, List.mem_of_mem_eraseIdx hx, rfl⟩)
  | uploadSuccess id now =>
    simp only [MiniprogramFileUploader.step]
    split
    · exact h
    · exact skipSafe_onUploadSuccess _ _ _ (skipSafe_setReqState id _ h)
  | uploadFail id =>
    simp only [MiniprogramFileUploader.step]
    split
    · exact h
    · exact skipSafe_emit _ (skipSafe_setReqState id _ h)
  | mergeDone =>
    simp only [MiniprogramFileUploader.step]
    split
    · exact h
    · exact skipSafe_emit _ ⟨h.resume, h.pending, h.reading, h.queued, h.tasks, h.sent⟩

theorem skipSafe_run {u : List Nat} (evs : List Event) : ∀ {s : Uploader},
    (∀ e ∈ evs, e.inSession = true) → SkipSafe u s → SkipSafe u (run evs s) := by
  induction evs with
  | nil => intro s _ h; exact h
  | cons e rest ih =>
    intro s he h
    exact ih (fun x hx => he x (List.mem_cons_of_mem _ hx)) (skipSafe_step e (he e (List.mem_cons_self _ _)) h)

theorem strSafe_num (u : List Nat) {i : JsIndex} (h : ∃ n, i = JsIndex.num n) : strSafe u i := by
  obtain ⟨n, rfl⟩ := h
  intro k hk
  cases hk

theorem untouched_skipSafe {s : Uploader} (h : Untouched s) : SkipSafe s.uploadedChunks s := by
  refine ⟨rfl, fun i hi => strSafe_num _ (h.pending i hi), ?_,
    fun i hi => strSafe_num _ (h.queued i hi), ?_, ?_⟩
  · rw [h.reading]; intro i hi; simp at hi
  · rw [h.tasks]; intro i hi; simp [objKeys] at hi
  · rw [h.sent]; intro i hi; simp at hi

theorem untouched_new (cfg : Config) : Untouched (new cfg) := by
  refine ⟨?_, rfl, ?_, rfl, rfl⟩
  · intro i hi
    have : (MiniprogramFileUploader.new cfg).chunksIndex
        = (List.range (ceilDiv cfg.size cfg.chunkSize)).map JsIndex.num := rfl
    rw [this, List.mem_map] at hi
    obtain ⟨n, _, rfl⟩ := hi
    exact ⟨n, rfl⟩
  · intro i hi
    have : (MiniprogramFileUploader.new cfg).chunksQueue = [] := rfl
    rw [this] at hi
    simp at hi

theorem hashLoop_untouched (b : Bool) (n : Nat) (l : List Nat) : ∀ {s : Uploader},
    Untouched s → Untouched (l.foldl (hashSlice b n) s) := by
  induction l with
  | nil => intro s h; exact h
  | cons i rest ih =>
    intro s h
    rw [List.foldl_cons]
    apply ih
    cases b
    · exact ⟨h.pending, h.reading, h.queued, h.tasks, h.sent⟩
    · refine ⟨h.pending, h.reading, ?_, h.tasks, h.sent⟩
      intro j hj
      simp only [hashSlice, if_true, List.map_append, List.mem_append, List.map_cons,
        List.map_nil, List.mem_singleton] at hj
      rcases hj with hj | rfl
      · exact h.queued j hj
      · exact ⟨i, rfl⟩

theorem untouched_computeMD5 {s : Uploader} (h : Untouched s) : Untouched (computeMD5 s) := by
  unfold MiniprogramFileUploader.computeMD5
  have h1 := hashLoop_untouched (decide (s.size < s.config.maxMemory))
    (if decide (s.size < s.config.maxMemory) = true then s.chunkSize else 10 * MB)
    (List.range (ceilDiv s.size
      (if decide (s.size < s.config.maxMemory) = true then s.chunkSize else 10 * MB))) h
  exact ⟨fun i hi => by simp at hi, h1.reading, h1.queued, h1.tasks, h1.sent⟩

theorem untouched_applyResume {s : Uploader} (u : List Nat) (h : Untouched s) :
    Untouched (applyResume u s) ∧ (applyResume u s).uploadedChunks = jsSort u := by
  obtain ⟨n, e⟩ := applyResume_frame u s
  rw [e]
  refine ⟨⟨?_, h.reading, h.queued, h.tasks, h.sent⟩, rfl⟩
  intro i hi
  exact h.pending i (List.mem_of_mem_filter hi)

theorem mem_jsSort (u : List Nat) (k : Nat) : k ∈ jsSort u ↔ k ∈ u :=
  (List.perm_insertionSort jsStrLe u).mem_iff

theorem skipSafe_after_upload (cfg : Config) (i : String) (b : Bool) (u : List Nat) (now : Int) :
    SkipSafe (resumeSet cfg b u) (upload i b u now (new cfg)) := by
  have h0 := untouched_new cfg
  have hcfg : (MiniprogramFileUploader.new cfg).config = cfg := rfl
  have hu0 : (MiniprogramFileUploader.new cfg).uploadedChunks = [] := rfl
  rw [upload_eq, hcfg]
  unfold resumeSet
  cases ht : cfg.testChunks
  · simp only [Bool.false_eq_true, false_and, if_false]
    apply skipSafe__upload
    have h1 : Untouched { MiniprogramFileUploader.new cfg with identifier := i, isUploading := true } :=
      ⟨h0.pending, h0.reading, h0.queued, h0.tasks, h0.sent⟩
    exact untouched_skipSafe h1
  · have h1 : Untouched { computeMD5 (MiniprogramFileUploader.new cfg) with identifier := i } :=
      ⟨(untouched_computeMD5 h0).pending, (untouched_computeMD5 h0).reading, (untouched_computeMD5 h0).queued, (untouched_computeMD5 h0).tasks,
        (untouched_computeMD5 h0).sent⟩
    have hu1 : ({ computeMD5 (MiniprogramFileUploader.new cfg) with identifier := i } :
        Uploader).uploadedChunks = [] := by
      obtain ⟨q, g, e⟩ := computeMD5_frame (MiniprogramFileUploader.new cfg)
      rw [e]; exact hu0
    cases b
    · simp only [true_and, if_true, Bool.false_eq_true, if_false]
      have := skipSafe_emit .complete (untouched_skipSafe h1)
      rw [hu1] at this
      exact this
    · simp only [true_and, if_true, Bool.true_eq_false, if_false]
      apply skipSafe__upload
      obtain ⟨h2, hu2⟩ := untouched_applyResume u h1
      have h3 : Untouched { applyResume u
          { computeMD5 (MiniprogramFileUploader.new cfg) with identifier := i } with
          isUploading := true } := ⟨h2.pending, h2.reading, h2.queued, h2.tasks, h2.sent⟩
      have := untouched_skipSafe h3
      simp only [hu2] at this
      exact this

theorem uploadChunk_skips (s : Uploader) (c : Chunk) (rest : List Chunk)
    (hq : s.chunksQueue = c :: rest) (hup : s.isUploading = true)
    (hfree : (objKeys s.uploadTasks).length ≠ s.config.maxConcurrency)
    (hin : jsIncludes s.uploadedChunks c.index = true) :
    uploadChunk s = uploadChunk { s with chunksQueue := rest } := by
  unfold uploadChunk
  rw [hq]
  simp [uploadChunkFrom, hup, hfree, hin]

theorem uploadChunkFrom_fresh (l : List Chunk) : ∀ s : Uploader,
    (∀ c ∈ l, strSafe s.uploadedChunks c.index) →
    (∀ r ∈ (uploadChunkFrom l s).requests.drop s.requests.length,
      r.index.toNat ∉ s.uploadedChunks) ∧
    (∀ k ∈ objKeys (uploadChunkFrom l s).uploadTasks,
      k ∈ objKeys s.uploadTasks ∨ k ∉ s.uploadedChunks) := by
  induction l with
  | nil =>
    intro s _
    refine ⟨?_, fun k hk => Or.inl hk⟩
    intro r hr
    simp [uploadChunkFrom] at hr
  | cons c rest ih =>
    intro s hq
    have hc : strSafe s.uploadedChunks c.index := hq c (List.mem_cons_self _ _)
    have hrest : ∀ x ∈ rest, strSafe s.uploadedChunks x.index :=
      fun x hx => hq x (List.mem_cons_of_mem _ hx)
    simp only [uploadChunkFrom]
    split
    · exact ⟨fun r hr => by simp at hr, fun k hk => Or.inl hk⟩
    · split
      · exact ⟨fun r hr => by simp at hr, fun k hk => Or.inl hk⟩
      · split
        · exact ih { s with chunksQueue := rest } hrest
        · rename_i hinc
          have hn : c.index.toNat ∉ s.uploadedChunks := not_mem_of_not_jsIncludes hc hinc
          refine ⟨?_, ?_⟩
          · intro r hr
            simp only [dispatch, List.drop_left, List.mem_singleton] at hr
            rw [hr]
            exact hn
          · intro k hk
            simp only [dispatch, mem_objKeys_objSet] at hk
            rcases hk with rfl | hk
            · exact Or.inr hn
            · exact Or.inl hk

/-- C3, as stated, fails in an execution where `resume` runs before `upload` has
installed the resume set.  In `raceEvents` chunk 0 is read and sent while
`uploadedChunks` is still empty; `upload` then installs the resume set 0, so a
request for chunk 0 is in flight and recorded in `uploadTasks` although 0 is in
the resume set.  After `pause` and `resume` the key of chunk 0, re-queued as a
string, is read again, and `uploadChunk` issues a second request for chunk 0 while
`uploadedChunks` holds 0. -/
theorem early_resume_sends_resume_set_chunk :
    (run (raceEvents.take 2) (new raceConfig)).uploadedChunks = [] ∧
    (run (raceEvents.take 3) (new raceConfig)).uploadedChunks = [0] ∧
    (run (raceEvents.take 3) (new raceConfig)).requests
      = [{ id := 0, index := .num 0, length := 1, state := .inflight }] ∧
    objKeys (run (raceEvents.take 3) (new raceConfig)).uploadTasks = [0] ∧
    (run (raceEvents.take 5) (new raceConfig)).uploadedChunks = [0] ∧
    (run (raceEvents.take 5) (new raceConfig)).reads
      = [{ position := 0, length := 1, index := .str 0 }] ∧
    (run (raceEvents.take 5) (new raceConfig)).requests
      = [{ id := 0, index := .num 0, length := 1, state := .aborted }] ∧
    (run raceEvents (new raceConfig)).requests
      = [{ id := 0, index := .num 0, length := 1, state := .aborted },
         { id := 1, index := .str 0, length := 1, state := .inflight }] ∧
    objKeys (run raceEvents (new raceConfig)).uploadTasks = [0] ∧
    ¬ (∀ r ∈ (run raceEvents (new raceConfig)).requests,
        r.index.toNat ∉ (run raceEvents (new raceConfig)).uploadedChunks) := by
  decide

/-- C3, amended: take any execution that starts with `upload` on a newly
constructed uploader, the negotiation of `upload` (hashing and verify response,
any response) finishing before anything else happens, followed by any sequence of
read completions and failures, upload successes and failures, pause, resume and
merge responses.  The resume set is the one the verify response gave (sorted), or
empty when `testChunks` is off or `needUpload` is false.  No request that
`uploadChunk` ever issued, and no key of `uploadTasks`, is an index of the resume
set.  `uploadChunk` is called in the middle of a callback, so what one call does
is stated for every state `t` that has the resume set of the execution and whose
queue holds only indices found in the Pending list, the outstanding reads or the
queue of the execution (with any `uploadTasks`): the call issues no request and
records no task for an index of the resume set, and when the queue head is an
index of the resume set the call does exactly what it does on the queue without
that head, that is, the entry is dropped, no request is made for it and nothing
is recorded for it. -/
theorem resume_set_never_sent (cfg : Config) (ident : String) (needUpload : Bool)
    (u : List Nat) (now : Int) (evs : List Event) (hev : ∀ e ∈ evs, e.inSession = true) :
    (∀ k, k ∈ (session cfg ident needUpload u now evs).uploadedChunks ↔
      (cfg.testChunks = true ∧ needUpload = true) ∧ k ∈ u) ∧
    (∀ r ∈ (session cfg ident needUpload u now evs).requests,
      r.index.toNat ∉ (session cfg ident needUpload u now evs).uploadedChunks) ∧
    (∀ k ∈ objKeys (session cfg ident needUpload u now evs).uploadTasks,
      k ∉ (session cfg ident needUpload u now evs).uploadedChunks) ∧
    (∀ t : Uploader,
      t.uploadedChunks = (session cfg ident needUpload u now evs).uploadedChunks →
      (∀ c ∈ t.chunksQueue,
        c.index ∈ (session cfg ident needUpload u now evs).chunksIndex
        ∨ c.index ∈ (session cfg ident needUpload u now evs).reads.map (fun r => r.index)
        ∨ c.index
            ∈ (session cfg ident needUpload u now evs).chunksQueue.map (fun c => c.index)) →
      (∀ r ∈ (uploadChunk t).requests.drop t.requests.length,
        r.index.toNat ∉ t.uploadedChunks) ∧
      (∀ k ∈ objKeys (uploadChunk t).uploadTasks,
        k ∈ objKeys t.uploadTasks ∨ k ∉ t.uploadedChunks) ∧
      (∀ c rest, t.chunksQueue = c :: rest → t.isUploading = true →
        (objKeys t.uploadTasks).length ≠ t.config.maxConcurrency →
        c.index.toNat ∈ t.uploadedChunks →
        uploadChunk t = uploadChunk { t with chunksQueue := rest })) := by
  have h : SkipSafe (resumeSet cfg needUpload u) (session cfg ident needUpload u now evs) :=
    skipSafe_run evs hev (skipSafe_after_upload cfg ident needUpload u now)
  generalize session cfg ident needUpload u now evs = s at h
  refine ⟨?_, ?_, ?_, ?_⟩
  · intro k
    rw [h.resume]
    unfold resumeSet
    split
    · rename_i hc; simp [mem_jsSort, hc]
    · rename_i hc; simp [hc]
  · intro r hr
    rw [h.resume]
    exact h.sent _ (List.mem_map.2 ⟨r, hr, rfl⟩)
  · intro k hk
    rw [h.resume]
    exact h.tasks k hk
  · intro t hres hq
    have hsafe : ∀ c ∈ t.chunksQueue, strSafe t.uploadedChunks c.index := by
      intro c hc
      rw [hres, h.resume]
      rcases hq c hc with h1 | h1 | h1
      · exact h.pending _ h1
      · exact h.reading _ h1
      · exact h.queued _ h1
    have hnew := uploadChunkFrom_fresh t.chunksQueue t hsafe
    refine ⟨hnew.1, hnew.2, ?_⟩
    intro c rest hq2 hup hfree hin
    apply uploadChunk_skips t c rest hq2 hup hfree
    have hs := hsafe c (by rw [hq2]; simp)
    cases hc : c.index with
    | num n => rw [hc] at hin; simpa [jsIncludes, JsIndex.toNat] using hin
    | str k => rw [hc] at hin; exact absurd hin (hs k hc)

/-- Two executions.  In the scenario of the specification with a pause and a
resume, chunk 2 is sent twice (the first request is aborted), chunks 0 and 1
never.  In `skipSession` the success callback of chunk 0 calls `uploadChunk` in
the state `skipCallState`, whose queue head is chunk 1 of the resume set with
`uploadTasks` empty: the call drops the head and sends chunk 2. -/
theorem resume_set_never_sent_witness :
    (∀ e ∈ [Event.pause, Event.resume 1, Event.readDone 0], e.inSession = true) ∧
    (session resumeConfig "id" true [1, 0] 0
        [Event.pause, Event.resume 1, Event.readDone 0]).requests.map (fun r => r.index)
      = [.num 2, .str 2] ∧
    (∀ r ∈ (session resumeConfig "id" true [1, 0] 0
        [Event.pause, Event.resume 1, Event.readDone 0]).requests,
      r.index.toNat ∉ (session resumeConfig "id" true [1, 0] 0
        [Event.pause, Event.resume 1, Event.readDone 0]).uploadedChunks) ∧
    step (.uploadSuccess 0 1) skipSession = uploadChunk skipCallState ∧
    skipCallState.chunksQueue.map (fun c => c.index) = [.num 1, .num 2] ∧
    skipCallState.uploadedChunks = [1] ∧
    skipCallState.isUploading = true ∧
    (objKeys skipCallState.uploadTasks).length ≠ skipCallState.config.maxConcurrency ∧
    (uploadChunk skipCallState).requests.map (fun r => r.index) = [.num 0, .num 2] ∧
    uploadChunk skipCallState
      = uploadChunk { skipCallState with chunksQueue := skipCallState.chunksQueue.tail } :=
  ⟨by decide, by decide,
    (resume_set_never_sent resumeConfig "id" true [1, 0] 0
      [Event.pause, Event.resume 1, Event.readDone 0] (by decide)).2.1,
    by decide, by decide, by decide, by decide, by decide, by decide,
    ((resume_set_never_sent smallFileConfig "id" true [1] 0 [] (by decide)).2.2.2
      skipCallState (by decide) (by decide)).2.2
      { chunk := 1, length := 1, index := .num 1 } [{ chunk := 2, length := 1, index := .num 2 }]
      (by decide) (by decide) (by decide) (by decide)⟩

/-! ### The event uploadDone (C9) -/

theorem tally_emit (e : Emitted) (he : e ≠ Emitted.uploadDone) (s : Uploader) :
    tally (emit e s) = tally s := by
  obtain ⟨m, h⟩ := emit_frame e s
  rw [h]
  simp only [tally, doneCount, List.count_append, List.count_singleton, Prod.mk.injEq, and_true]
  simp [he]

theorem tally_emit_done (s : Uploader) :
    tally (emit .uploadDone s)
      = (doneCount s + 1, s.chunksSend, s.chunksNeedSend, s.gConfirmed.length) := by
  simp [tally, doneCount, emit]

theorem tally_readFileChunk (s : Uploader) : tally (readFileChunk s) = tally s := by
  obtain ⟨a, b, h⟩ := readFileChunk_frame s
  rw [h]; rfl

theorem tally_uploadChunk (s : Uploader) : tally (uploadChunk s) = tally s := by
  obtain ⟨a, b, c, h⟩ := uploadChunk_frame s
  rw [h]; rfl

theorem tally_updateUploadSize (l now : Int) (s : Uploader) :
    tally (updateUploadSize l now s) = tally s := by
  unfold updateUploadSize
  rw [tally_emit _ (by simp)]; rfl

theorem tally__upload (now : Int) (s : Uploader) : tally (_upload now s) = tally s := by
  unfold _upload
  simp only
  split
  · exact foldl_uploadChunk_induct (fun t => tally t = tally s)
      (fun t h => (tally_uploadChunk t).trans h) _ _ rfl
  · rw [tally_readFileChunk]; rfl

theorem tally_pause (s : Uploader) : tally (pause s) = tally s := by
  rw [pause_eq]; rfl

theorem tally_upload (i : String) (b : Bool) (u : List Nat) (now : Int) (s : Uploader) :
    tally (upload i b u now s) = tally s ∨
    tally (upload i b u now s) = (doneCount s, s.chunksSend, 0, s.gConfirmed.length) := by
  rw [upload_eq]
  obtain ⟨q, g, e⟩ := computeMD5_frame s
  split
  · split
    · left
      rw [tally_emit _ (by simp), e]; rfl
    · right
      rw [tally__upload]
      obtain ⟨n, e2⟩ := applyResume_frame u { computeMD5 s with identifier := i }
      rw [e2, e]
      simp [tally, doneCount]
  · left
    rw [tally__upload]; rfl

theorem tally_onUploadSuccess (i : JsIndex) (l now : Int) (s : Uploader) :
    tally (onUploadSuccess i l now s)
      = (doneCount s + (if s.chunksSend + 1 = s.chunksNeedSend then 1 else 0),
          s.chunksSend + 1, s.chunksNeedSend, s.gConfirmed.length + 1) := by
  unfold onUploadSuccess
  simp only
  have h5 : tally (uploadChunk (readFileChunk (updateUploadSize l now
      { s with chunksSend := s.chunksSend + 1, gConfirmed := s.gConfirmed ++ [i]
               uploadTasks := objDelete i.toNat s.uploadTasks })))
      = (doneCount s, s.chunksSend + 1, s.chunksNeedSend, s.gConfirmed.length + 1) := by
    rw [tally_uploadChunk, tally_readFileChunk, tally_updateUploadSize]
    simp [tally, doneCount]
  have hs : (uploadChunk (readFileChunk (updateUploadSize l now
      { s with chunksSend := s.chunksSend + 1, gConfirmed := s.gConfirmed ++ [i]
               uploadTasks := objDelete i.toNat s.uploadTasks }))).chunksSend
      = s.chunksSend + 1 := congrArg (fun p => p.2.1) h5
  have hn : (uploadChunk (readFileChunk (updateUploadSize l now
      { s with chunksSend := s.chunksSend + 1, gConfirmed := s.gConfirmed ++ [i]
               uploadTasks := objDelete i.toNat s.uploadTasks }))).chunksNeedSend
      = s.chunksNeedSend := congrArg (fun p => p.2.2.1) h5
  have hd : doneCount (uploadChunk (readFileChunk (updateUploadSize l now
      { s with chunksSend := s.chunksSend + 1, gConfirmed := s.gConfirmed ++ [i]
               uploadTasks := objDelete i.toNat s.uploadTasks })))
      = doneCount s := congrArg (fun p => p.1) h5
  have hg : (uploadChunk (readFileChunk (updateUploadSize l now
      { s with chunksSend := s.chunksSend + 1, gConfirmed := s.gConfirmed ++ [i]
               uploadTasks := objDelete i.toNat s.uploadTasks }))).gConfirmed.length
      = s.gConfirmed.length + 1 := congrArg (fun p => p.2.2.2) h5
  rw [hs, hn]
  split
  · rw [tally_emit_done, hs, hn, hd, hg]
  · rw [h5]; rfl

theorem tally_step (e : Event) (s : Uploader) :
    tally (step e s) = tally s ∨
    tally (step e s) = (doneCount s, s.chunksSend, 0, s.gConfirmed.length) ∨
    (e = Event.cancel ∧ tally (step e s) = (doneCount s, 0, s.totalChunks, 0)) ∨
    ((∃ id now, e = Event.uploadSuccess id now) ∧
      tally (step e s)
        = (doneCount s + (if s.chunksSend + 1 = s.chunksNeedSend then 1 else 0),
            s.chunksSend + 1, s.chunksNeedSend, s.gConfirmed.length + 1)) := by
  cases e with
  | upload i b u now =>
    rcases tally_upload i b u now s with h | h
    · exact Or.inl h
    · exact Or.inr (Or.inl h)
  | pause => exact Or.inl (tally_pause s)
  | resume now => exact Or.inl ((tally__upload now _).trans rfl)
  | cancel =>
    refine Or.inr (Or.inr (Or.inl ⟨rfl, ?_⟩))
    simp only [step, cancel, _reset]
    rw [tally_emit _ (by simp), pause_eq]
    simp [tally, doneCount]
  | readDone k =>
    left
    simp only [step]
    split
    · rfl
    · exact (tally_uploadChunk _).trans rfl
  | readFail k =>
    left
    simp only [step]
    split
    · rfl
    · exact (tally_emit _ (by simp) _).trans rfl
  | uploadSuccess id now =>
    simp only [step]
    split
    · exact Or.inl rfl
    · exact Or.inr (Or.inr (Or.inr ⟨⟨id, now, rfl⟩, (tally_onUploadSuccess _ _ _ _).trans rfl⟩))
  | uploadFail id =>
    left
    simp only [step]
    split
    · rfl
    · exact (tally_emit _ (by simp) _).trans rfl
  | mergeDone =>
    left
    simp only [step]
    split
    · rfl
    · exact (tally_emit _ (by simp) _).trans rfl

theorem doneCount_run_le (d0 : Nat) (evs : List Event) : ∀ s : Uploader,
    (∀ e ∈ evs, e ≠ Event.cancel) →
    (doneCount s = d0 ∨ (doneCount s = d0 + 1 ∧ s.chunksNeedSend ≤ s.chunksSend)) →
    (doneCount (run evs s) = d0 ∨
      (doneCount (run evs s) = d0 + 1 ∧ (run evs s).chunksNeedSend ≤ (run evs s).chunksSend)) := by
  induction evs with
  | nil => intro s _ h; exact h
  | cons e rest ih =>
    intro s hev h
    apply ih (step e s) (fun x hx => hev x (List.mem_cons_of_mem _ hx))
    have hne : e ≠ Event.cancel := hev e (List.mem_cons_self _ _)
    rcases tally_step e s with ht | ht | ⟨hc, _⟩ | ⟨_, ht⟩
    · simp only [tally, Prod.mk.injEq] at ht
      rw [ht.1, ht.2.1, ht.2.2.1]; exact h
    · simp only [tally, Prod.mk.injEq] at ht
      rw [ht.1, ht.2.1, ht.2.2.1]
      rcases h with h | h
      · exact Or.inl h
      · exact Or.inr ⟨h.1, Nat.zero_le _⟩
    · exact absurd hc hne
    · simp only [tally, Prod.mk.injEq] at ht
      rw [ht.1, ht.2.1, ht.2.2.1]
      rcases h with h | h
      · by_cases hq : s.chunksSend + 1 = s.chunksNeedSend
        · right; rw [if_pos hq, h]; exact ⟨rfl, by omega⟩
        · left; rw [if_neg hq, h]; rfl
      · right
        have hq : ¬ s.chunksSend + 1 = s.chunksNeedSend := by omega
        rw [if_neg hq]
        exact ⟨h.1, by omega⟩

theorem confirmed_run (evs : List Event) : ∀ s : Uploader,
    s.gConfirmed.length = s.chunksSend →
    (run evs s).gConfirmed.length = (run evs s).chunksSend := by
  induction evs with
  | nil => intro s h; exact h
  | cons e rest ih =>
    intro s h
    apply ih (step e s)
    rcases tally_step e s with ht | ht | ⟨_, ht⟩ | ⟨_, ht⟩ <;>
      simp only [tally, Prod.mk.injEq] at ht <;> omega

/-- C9: start a session in any state `s0` whose log of success callbacks agrees
with `chunksSend` (a freshly constructed or freshly reset uploader does), and let
any events but `cancel` happen.  Then uploadDone has been emitted at most once
since `s0`; and whenever the next event emits it, that event is an upload success,
it emits it exactly once, and the incremented `chunksSend`, which is the number of
chunks confirmed in the session, equals `chunksNeedSend`. -/
theorem uploadDone_once (s0 : Uploader) (evs : List Event)
    (hev : ∀ e ∈ evs, e ≠ Event.cancel) (hc : s0.gConfirmed.length = s0.chunksSend) :
    doneCount (run evs s0) ≤ doneCount s0 + 1 ∧
    (run evs s0).gConfirmed.length = (run evs s0).chunksSend ∧
    (∀ e : Event, doneCount (step e (run evs s0)) ≠ doneCount (run evs s0) →
      (∃ id now, e = Event.uploadSuccess id now) ∧
      doneCount (step e (run evs s0)) = doneCount (run evs s0) + 1 ∧
      (step e (run evs s0)).chunksSend = (run evs s0).chunksSend + 1 ∧
      (step e (run evs s0)).chunksSend = (step e (run evs s0)).chunksNeedSend ∧
      (step e (run evs s0)).gConfirmed.length = (step e (run evs s0)).chunksNeedSend) := by
  have hcr := confirmed_run evs s0 hc
  refine ⟨?_, hcr, ?_⟩
  · rcases doneCount_run_le (doneCount s0) evs s0 hev (Or.inl rfl) with h | h
    · omega
    · omega
  · generalize run evs s0 = s at hcr
    intro e hne
    rcases tally_step e s with ht | ht | ⟨_, ht⟩ | ⟨hex, ht⟩ <;>
      simp only [tally, Prod.mk.injEq] at ht
    · exact absurd ht.1 hne
    · exact absurd ht.1 hne
    · exact absurd ht.1 hne
    · by_cases hq : s.chunksSend + 1 = s.chunksNeedSend
      · rw [if_pos hq] at ht
        exact ⟨hex, ht.1, ht.2.1, by omega, by omega⟩
      · rw [if_neg hq] at ht
        exact absurd ht.1 hne

/-- A one-chunk session: the success of its only upload emits uploadDone. -/
theorem uploadDone_once_witness :
    (∀ e ∈ [Event.upload "id" true [] 0, Event.readDone 0], e ≠ Event.cancel) ∧
    (new oneChunkConfig).gConfirmed.length = (new oneChunkConfig).chunksSend ∧
    doneCount (step (.uploadSuccess 0 1)
      (run [Event.upload "id" true [] 0, Event.readDone 0] (new oneChunkConfig))) = 1 ∧
    doneCount (run [Event.upload "id" true [] 0, Event.readDone 0] (new oneChunkConfig))
      ≤ doneCount (new oneChunkConfig) + 1 ∧
    (step (.uploadSuccess 0 1)
      (run [Event.upload "id" true [] 0, Event.readDone 0] (new oneChunkConfig))).chunksSend
      = (step (.uploadSuccess 0 1)
      (run [Event.upload "id" true [] 0, Event.readDone 0] (new oneChunkConfig))).chunksNeedSend :=
  have h := uploadDone_once (new oneChunkConfig)
    [Event.upload "id" true [] 0, Event.readDone 0] (by decide) (by decide)
  ⟨by decide, by decide, by decide, h.1, ((h.2.2 (.uploadSuccess 0 1) (by decide)).2.2.2).1⟩

/-! ### Pause followed by resume (C8) -/

theorem mem_waiting (v : Nat) (s : Uploader) :
    v ∈ waiting s ↔
      v ∈ s.chunksIndex.map JsIndex.toNat ∨ v ∈ s.reads.map (fun r => r.index.toNat)
        ∨ v ∈ s.chunksQueue.map (fun c => c.index.toNat) ∨ v ∈ objKeys s.uploadTasks := by
  simp only [waiting, List.mem_append, or_assoc]

theorem mem_waiting_pause (v : Nat) (s : Uploader) : v ∈ waiting (pause s) ↔ v ∈ waiting s := by
  rw [pause_eq, mem_waiting, mem_waiting]
  have hk : ((objKeys s.uploadTasks).map JsIndex.str).map JsIndex.toNat
      = objKeys s.uploadTasks := by
    rw [List.map_map]
    exact List.map_id _
  simp only [List.map_append, hk, List.mem_append]
  simp only [objKeys, List.map_nil, List.not_mem_nil, or_false]
  tauto

theorem mem_waiting_readFileChunk (v : Nat) (s : Uploader) :
    v ∈ waiting (readFileChunk s) ↔ v ∈ waiting s := by
  have h1 := readLoop_chunksIndex (readCount s).toNat s
  have h2 := readLoop_reads_index (readCount s).toNat s
  obtain ⟨a, b, hm⟩ := readFileChunk_frame s
  unfold readFileChunk at *
  rw [hm] at h1 h2 ⊢
  simp only at h1 h2
  rw [mem_waiting, mem_waiting]
  simp only [map_index_toNat_reads, h1, h2, List.map_append, List.mem_append]
  have h3 : v ∈ s.chunksIndex.map JsIndex.toNat ↔
      v ∈ (s.chunksIndex.take (readCount s).toNat).map JsIndex.toNat
        ∨ v ∈ (s.chunksIndex.drop (readCount s).toNat).map JsIndex.toNat := by
    rw [← List.mem_append, ← List.map_append, List.take_append_drop]
  rw [h3]
  tauto

theorem mem_waiting_uploadChunkFrom (v : Nat) (l : List Chunk) : ∀ s : Uploader,
    s.chunksQueue = l → v ∉ s.uploadedChunks →
    (v ∈ waiting (uploadChunkFrom l s) ↔ v ∈ waiting s) := by
  induction l with
  | nil => intro s _ _; rfl
  | cons c rest ih =>
    intro s hq hv
    simp only [uploadChunkFrom]
    split
    · rfl
    · split
      · rfl
      · split
        · rename_i hinc
          rw [ih { s with chunksQueue := rest } rfl hv, mem_waiting, mem_waiting, hq]
          have hne : v ≠ c.index.toNat := by
            intro h
            cases hc : c.index with
            | num n =>
              rw [hc] at hinc h
              simp only [jsIncludes, decide_eq_true_eq] at hinc
              exact hv (by rw [h]; exact hinc)
            | str k => rw [hc] at hinc; simp [jsIncludes] at hinc
          simp only [List.map_cons, List.mem_cons]
          tauto
        · rw [mem_waiting, mem_waiting, hq]
          simp only [dispatch, mem_objKeys_objSet, List.map_cons, List.mem_cons]
          tauto

theorem mem_waiting_uploadChunk (v : Nat) (s : Uploader) (hv : v ∉ s.uploadedChunks) :
    v ∈ waiting (uploadChunk s) ↔ v ∈ waiting s :=
  mem_waiting_uploadChunkFrom v _ s rfl hv

theorem uploadChunk_uploadedChunks (s : Uploader) :
    (uploadChunk s).uploadedChunks = s.uploadedChunks := by
  obtain ⟨a, b, c, h⟩ := uploadChunk_frame s
  rw [h]

theorem mem_waiting__upload (v : Nat) (now : Int) (s : Uploader) (hv : v ∉ s.uploadedChunks) :
    v ∈ waiting (_upload now s) ↔ v ∈ waiting s := by
  unfold _upload
  simp only
  split
  · have := foldl_uploadChunk_induct
      (fun t => t.uploadedChunks = s.uploadedChunks ∧ (v ∈ waiting t ↔ v ∈ waiting s))
      (fun t ht => ⟨(uploadChunk_uploadedChunks t).trans ht.1,
        (mem_waiting_uploadChunk v t (by rw [ht.1]; exact hv)).trans ht.2⟩)
      (List.range s.config.maxConcurrency)
      { s with startUploadTime := some now, _uploadedSize := some 0 } ⟨rfl, Iff.rfl⟩
    exact this.2
  · rw [mem_waiting_readFileChunk]; rfl

/-- C8, as stated, fails: in the session of `pauseConfig` where chunk 0 is in
flight and chunks 1 and 2 are Pending, `pause` then `resume` leaves chunks 2 and 0
Pending (chunk 1 has been handed to the reader), so the set of Pending indices is
not the one before the pause. -/
theorem pause_resume_changes_pending :
    (session pauseConfig "id" true [] 0 [.readDone 0]).isUploading = true ∧
    (session pauseConfig "id" true [] 0 [.readDone 0]).chunksIndex = [.num 1, .num 2] ∧
    (step (.resume 3) (step .pause
      (session pauseConfig "id" true [] 0 [.readDone 0]))).chunksIndex = [.num 2, .str 0] ∧
    ¬ (∀ v : Nat,
      v ∈ (step (.resume 3) (step .pause
        (session pauseConfig "id" true [] 0 [.readDone 0]))).chunksIndex.map JsIndex.toNat
      ↔ v ∈ (session pauseConfig "id" true [] 0 [.readDone 0]).chunksIndex.map JsIndex.toNat) := by
  refine ⟨by decide, by decide, by decide, ?_⟩
  intro h
  have h1 := (h 1).2 (by decide)
  revert h1
  decide

/-- C8, amended: for every state, `pause` followed by `resume` leaves the resume
(Skipped) set, the confirmed chunks and both counters unchanged, and leaves
unchanged the set of indices outside the resume set that wait in some stage (the
Pending list, an outstanding read, the queue, or `uploadTasks`); the Pending list
after `pause` is the old one followed by the indices that were in flight. -/
theorem pause_resume_keeps_waiting (s : Uploader) (now : Int) :
    (step (.resume now) (step .pause s)).uploadedChunks = s.uploadedChunks ∧
    (step (.resume now) (step .pause s)).gConfirmed = s.gConfirmed ∧
    (step (.resume now) (step .pause s)).chunksSend = s.chunksSend ∧
    (step (.resume now) (step .pause s)).chunksNeedSend = s.chunksNeedSend ∧
    (step .pause s).chunksIndex = s.chunksIndex ++ (objKeys s.uploadTasks).map JsIndex.str ∧
    (∀ v : Nat, v ∉ s.uploadedChunks →
      (v ∈ waiting (step (.resume now) (step .pause s)) ↔ v ∈ waiting s)) := by
  have hu : ∀ t : Uploader, (_upload now t).uploadedChunks = t.uploadedChunks ∧
      (_upload now t).gConfirmed = t.gConfirmed := by
    intro t
    unfold _upload
    simp only
    split
    · exact foldl_uploadChunk_induct
        (fun x => x.uploadedChunks = t.uploadedChunks ∧ x.gConfirmed = t.gConfirmed)
        (fun x hx => by
          obtain ⟨a, b, c, h⟩ := uploadChunk_frame x
          rw [h]; exact hx) _ _ ⟨rfl, rfl⟩
    · obtain ⟨a, b, h⟩ := readFileChunk_frame
        { t with startUploadTime := some now, _uploadedSize := some 0 }
      rw [h]; exact ⟨rfl, rfl⟩
  have ht := (tally__upload now { pause s with isUploading := true }).trans (tally_pause s)
  simp only [tally, Prod.mk.injEq] at ht
  have hp : (pause s).uploadedChunks = s.uploadedChunks ∧ (pause s).gConfirmed = s.gConfirmed := by
    rw [pause_eq]; exact ⟨rfl, rfl⟩
  refine ⟨(hu _).1.trans hp.1, (hu _).2.trans hp.2, ht.2.1, ht.2.2.1, ?_, ?_⟩
  · simp only [step]; rw [pause_eq]
  · intro v hv
    simp only [step, resume]
    rw [mem_waiting__upload v now _ (by rw [show ({ pause s with isUploading := true } :
      Uploader).uploadedChunks = (pause s).uploadedChunks from rfl, hp.1]; exact hv)]
    exact (mem_waiting_pause v s)

/-- The session of `pauseConfig` with chunk 0 in flight: chunk 0 waits before
`pause` (in `uploadTasks`) and after `resume` (in `chunksIndex`). -/
theorem pause_resume_keeps_waiting_witness :
    0 ∉ (session pauseConfig "id" true [] 0 [.readDone 0]).uploadedChunks ∧
    0 ∈ waiting (session pauseConfig "id" true [] 0 [.readDone 0]) ∧
    0 ∈ waiting (step (.resume 3) (step .pause
      (session pauseConfig "id" true [] 0 [.readDone 0]))) :=
  ⟨by decide, by decide,
    ((pause_resume_keeps_waiting (session pauseConfig "id" true [] 0 [.readDone 0]) 3).2.2.2.2.2
      0 (by decide)).2 (by decide)⟩

/-! ### Guards of `uploadChunk` (C14) -/

theorem uploadChunkFrom_of_paused (l : List Chunk) (s : Uploader) (h : s.isUploading = false) :
    uploadChunkFrom l s = s := by
  cases l with
  | nil => rfl
  | cons c rest => simp [uploadChunkFrom, h]

theorem uploadChunkFrom_of_full (l : List Chunk) (s : Uploader)
    (h : (objKeys s.uploadTasks).length = s.config.maxConcurrency) :
    uploadChunkFrom l s = s := by
  cases l with
  | nil => rfl
  | cons c rest => simp [uploadChunkFrom, h]

/-- C14: when `isUploading` is false, or `chunksQueue` is empty, or `uploadTasks`
holds `maxConcurrency` entries, `uploadChunk` returns the state it was given: no
request, and no field changed.  So while `isUploading` is false the completion of
a read does nothing but remove the read from the outstanding ones and append its
chunk to `chunksQueue`. -/
theorem uploadChunk_noop (s : Uploader)
    (h : s.isUploading = false ∨ s.chunksQueue = [] ∨
      s.uploadTasks.length = s.config.maxConcurrency) :
    uploadChunk s = s ∧
    (s.isUploading = false → ∀ k r, s.reads.get? k = some r →
      step (.readDone k) s
        = { s with reads := s.reads.eraseIdx k
                   chunksQueue := s.chunksQueue ++
                     [{ chunk := r.position, length := r.length, index := r.index }] }) := by
  constructor
  · unfold uploadChunk
    rcases h with h | h | h
    · exact uploadChunkFrom_of_paused _ s h
    · rw [h]; rfl
    · exact uploadChunkFrom_of_full _ s (by simpa [objKeys] using h)
  · intro hp k r hr
    simp only [step, hr, onReadDone, uploadChunk]
    exact uploadChunkFrom_of_paused _ _ hp

/-- A paused one-chunk session: the read that completes is only queued. -/
theorem uploadChunk_noop_witness :
    (step .pause (session oneChunkConfig "id" true [] 0 [])).isUploading = false ∧
    uploadChunk (step .pause (session oneChunkConfig "id" true [] 0 []))
      = step .pause (session oneChunkConfig "id" true [] 0 []) ∧
    step (.readDone 0) (step .pause (session oneChunkConfig "id" true [] 0 []))
      = { step .pause (session oneChunkConfig "id" true [] 0 []) with
          reads := (step .pause (session oneChunkConfig "id" true [] 0 [])).reads.eraseIdx 0
          chunksQueue := (step .pause (session oneChunkConfig "id" true [] 0 [])).chunksQueue ++
            [{ chunk := 0, length := 1, index := .num 0 }] } :=
  have h := uploadChunk_noop (step .pause (session oneChunkConfig "id" true [] 0 []))
    (Or.inl (by decide))
  ⟨by decide, h.1,
    h.2 (by decide) 0 { position := 0, length := 1, index := .num 0 } (by decide)⟩

/-! ### Counters across pause and resume (C15) -/

theorem _upload_frame (now : Int) (s : Uploader) :
    ∃ ci rd q rq ut, _upload now s =
      { s with startUploadTime := some now, _uploadedSize := some 0, chunksIndex := ci
               reads := rd, chunksQueue := q, requests := rq, uploadTasks := ut } := by
  unfold _upload
  simp only
  split
  · exact foldl_uploadChunk_induct
      (fun t => ∃ ci rd q rq ut, t =
        { s with startUploadTime := some now, _uploadedSize := some 0, chunksIndex := ci
                 reads := rd, chunksQueue := q, requests := rq, uploadTasks := ut })
      (fun t ht => by
        obtain ⟨ci, rd, q, rq, ut, e⟩ := ht
        obtain ⟨q2, rq2, ut2, e2⟩ := uploadChunk_frame t
        rw [e2, e]
        exact ⟨ci, rd, q2, rq2, ut2, rfl⟩) _ _ ⟨_, _, _, _, _, rfl⟩
  · obtain ⟨ci, rd, e⟩ := readFileChunk_frame
      { s with startUploadTime := some now, _uploadedSize := some 0 }
    rw [e]
    exact ⟨ci, rd, _, _, _, rfl⟩

/-- C15: `pause` followed by `resume` leaves `uploadedSize` unchanged; `resume`
sets `_uploadedSize` to 0 and `startUploadTime` to the current time; and neither
`pause` nor `resume` changes `chunksSend`, `chunksNeedSend`, `sizeNeedSend` or
`uploadedSize`. -/
theorem pause_resume_counters (s : Uploader) (now : Int) :
    (resume now (pause s)).uploadedSize = s.uploadedSize ∧
    (resume now s)._uploadedSize = some 0 ∧
    (resume now s).startUploadTime = some now ∧
    ((pause s).chunksSend = s.chunksSend ∧ (pause s).chunksNeedSend = s.chunksNeedSend ∧
      (pause s).sizeNeedSend = s.sizeNeedSend ∧ (pause s).uploadedSize = s.uploadedSize) ∧
    ((resume now s).chunksSend = s.chunksSend ∧
      (resume now s).chunksNeedSend = s.chunksNeedSend ∧
      (resume now s).sizeNeedSend = s.sizeNeedSend ∧
      (resume now s).uploadedSize = s.uploadedSize) := by
  have hr : ∀ t : Uploader, (resume now t)._uploadedSize = some 0 ∧
      (resume now t).startUploadTime = some now ∧ (resume now t).chunksSend = t.chunksSend ∧
      (resume now t).chunksNeedSend = t.chunksNeedSend ∧
      (resume now t).sizeNeedSend = t.sizeNeedSend ∧
      (resume now t).uploadedSize = t.uploadedSize := by
    intro t
    unfold resume
    obtain ⟨ci, rd, q, rq, ut, e⟩ := _upload_frame now { t with isUploading := true }
    rw [e]
    exact ⟨rfl, rfl, rfl, rfl, rfl, rfl⟩
  have hp : (pause s).chunksSend = s.chunksSend ∧ (pause s).chunksNeedSend = s.chunksNeedSend ∧
      (pause s).sizeNeedSend = s.sizeNeedSend ∧ (pause s).uploadedSize = s.uploadedSize := by
    rw [pause_eq]; exact ⟨rfl, rfl, rfl, rfl⟩
  exact ⟨(hr (pause s)).2.2.2.2.2.trans hp.2.2.2, (hr s).1, (hr s).2.1, hp,
    (hr s).2.2.1, (hr s).2.2.2.1, (hr s).2.2.2.2.1, (hr s).2.2.2.2.2⟩
/-! ### The path without upload (C11) -/

theorem idle_step (e : Event) (he : e.isCompletion = true) (s : Uploader)
    (h : s.isUploading = false ∧ s.requests = [] ∧ s.mergeRequests = 0) :
    (step e s).isUploading = false ∧ (step e s).requests = [] ∧ (step e s).mergeRequests = 0 ∧
    doneCount (step e s) = doneCount s := by
  obtain ⟨h1, h2, h3⟩ := h
  cases e with
  | upload i b u now => simp [Event.isCompletion] at he
  | pause => simp [Event.isCompletion] at he
  | resume now => simp [Event.isCompletion] at he
  | cancel => simp [Event.isCompletion] at he
  | readDone k =>
    simp only [step]
    split
    · exact ⟨h1, h2, h3, rfl⟩
    · simp only [onReadDone, uploadChunk]
      rw [uploadChunkFrom_of_paused _ _ (by exact h1)]
      exact ⟨h1, h2, h3, rfl⟩
  | readFail k =>
    simp only [step]
    split
    · exact ⟨h1, h2, h3, rfl⟩
    · exact ⟨h1, h2, h3, by simp [doneCount, emit]⟩
  | uploadSuccess id now =>
    have : step (.uploadSuccess id now) s = s := by simp [step, h2]
    rw [this]; exact ⟨h1, h2, h3, rfl⟩
  | uploadFail id =>
    have : step (.uploadFail id) s = s := by simp [step, h2]
    rw [this]; exact ⟨h1, h2, h3, rfl⟩
  | mergeDone =>
    have : step .mergeDone s = s := by simp [step, h3]
    rw [this]; exact ⟨h1, h2, h3, rfl⟩

theorem idle_run (evs : List Event) : ∀ s : Uploader,
    (∀ e ∈ evs, e.isCompletion = true) →
    (s.isUploading = false ∧ s.requests = [] ∧ s.mergeRequests = 0) →
    (run evs s).isUploading = false ∧ (run evs s).requests = [] ∧
      (run evs s).mergeRequests = 0 ∧ doneCount (run evs s) = doneCount s := by
  induction evs with
  | nil => intro s _ h; exact ⟨h.1, h.2.1, h.2.2, rfl⟩
  | cons e rest ih =>
    intro s hev h
    have h1 := idle_step e (hev e (List.mem_cons_self _ _)) s h
    have h2 := ih (step e s) (fun x hx => hev x (List.mem_cons_of_mem _ hx))
      ⟨h1.1, h1.2.1, h1.2.2.1⟩
    exact ⟨h2.1, h2.2.1, h2.2.2.1, h2.2.2.2.trans h1.2.2.2⟩

/-- C11: with `testChunks` on and the verify response `needUpload = false`, `upload`
on a freshly constructed uploader emits complete (after the progress 0 of the
constructor and nothing else), issues no upload request and no merge request and
leaves `isUploading` false; and whatever completions the environment reports
afterwards, no upload request and no merge request is ever issued and uploadDone
is never emitted. -/
theorem dedup_path (cfg : Config) (ident : String) (u : List Nat) (now : Int)
    (evs : List Event) (ht : cfg.testChunks = true)
    (hev : ∀ e ∈ evs, e.isCompletion = true) :
    (step (.upload ident false u now) (new cfg)).gEmitted
      = [.progressNum (.int 0), .complete] ∧
    (step (.upload ident false u now) (new cfg)).requests = [] ∧
    (step (.upload ident false u now) (new cfg)).mergeRequests = 0 ∧
    (step (.upload ident false u now) (new cfg)).isUploading = false ∧
    (run evs (step (.upload ident false u now) (new cfg))).requests = [] ∧
    (run evs (step (.upload ident false u now) (new cfg))).mergeRequests = 0 ∧
    (run evs (step (.upload ident false u now) (new cfg))).isUploading = false ∧
    doneCount (run evs (step (.upload ident false u now) (new cfg))) = 0 := by
  have h0 : (step (.upload ident false u now) (new cfg)).gEmitted
        = [.progressNum (.int 0), .complete] ∧
      (step (.upload ident false u now) (new cfg)).requests = [] ∧
      (step (.upload ident false u now) (new cfg)).mergeRequests = 0 ∧
      (step (.upload ident false u now) (new cfg)).isUploading = false := by
    simp only [step]
    rw [upload_eq]
    have hc : (new cfg).config.testChunks = true := ht
    simp only [hc, if_true]
    obtain ⟨q, g, e⟩ := computeMD5_frame (new cfg)
    rw [e]
    exact ⟨rfl, rfl, rfl, rfl⟩
  have h1 := idle_run evs _ hev ⟨h0.2.2.2, h0.2.1, h0.2.2.1⟩
  refine ⟨h0.1, h0.2.1, h0.2.2.1, h0.2.2.2, h1.2.1, h1.2.2.1, h1.1, ?_⟩
  rw [h1.2.2.2, doneCount, h0.1]
  decide

/-- The scenario file with the server already holding it. -/
theorem dedup_path_witness :
    resumeConfig.testChunks = true ∧
    (∀ e ∈ [Event.readDone 0, Event.uploadSuccess 0 1, Event.mergeDone],
      e.isCompletion = true) ∧
    (step (.upload "id" false [] 0) (new resumeConfig)).gEmitted
      = [.progressNum (.int 0), .complete] ∧
    (run [Event.readDone 0, Event.uploadSuccess 0 1, Event.mergeDone]
      (step (.upload "id" false [] 0) (new resumeConfig))).requests = [] :=
  have h := dedup_path resumeConfig "id" [] 0
    [Event.readDone 0, Event.uploadSuccess 0 1, Event.mergeDone] (by decide) (by decide)
  ⟨by decide, by decide, h.1, h.2.2.2.2.1⟩
/-! ### Cancel (C12) -/

/-- C12, as stated, fails for the per-resume counter: in the session of
`pauseConfig` where the first chunk has been confirmed, `_uploadedSize` is 1 after
`cancel`, while it is undefined right after construction (and `_upload` starts it
at 0). -/
theorem cancel_keeps_session_counter :
    (new pauseConfig)._uploadedSize = none ∧
    (step .cancel (session pauseConfig "id" true [] 0
      [.readDone 0, .uploadSuccess 0 1]))._uploadedSize = some 1 ∧
    (step .cancel (session pauseConfig "id" true [] 0
      [.readDone 0, .uploadSuccess 0 1]))._uploadedSize
      ≠ (new pauseConfig)._uploadedSize := by
  decide

/-- C12, amended: in every state reached from the constructor, `cancel` puts every
counter and collection that `_reset` assigns back to its value right after
construction: `chunksIndex` is `0, 1, ..., totalChunks - 1`, `chunksNeedSend` is
`totalChunks`, `sizeNeedSend` is `size`, `chunksSend` and `uploadedSize` are 0,
`averageSpeed` and `progress` are 0, `identifier` is empty, `isUploading` is false,
`chunksQueue`, `uploadTasks` and `uploadedChunks` are empty; the last notification
emitted is progress 0.  The per-resume counter `_uploadedSize` and
`startUploadTime` are left as they were. -/
theorem cancel_resets (cfg : Config) (evs : List Event) :
    sessionFields (step .cancel (run evs (new cfg))) = sessionFields (new cfg) ∧
    (step .cancel (run evs (new cfg))).chunksIndex
      = (List.range (ceilDiv cfg.size cfg.chunkSize)).map JsIndex.num ∧
    (step .cancel (run evs (new cfg))).chunksNeedSend = ceilDiv cfg.size cfg.chunkSize ∧
    (step .cancel (run evs (new cfg))).totalChunks = ceilDiv cfg.size cfg.chunkSize ∧
    (step .cancel (run evs (new cfg))).sizeNeedSend = cfg.size ∧
    (step .cancel (run evs (new cfg))).chunksSend = 0 ∧
    (step .cancel (run evs (new cfg))).uploadedSize = 0 ∧
    (step .cancel (run evs (new cfg))).averageSpeed = .int 0 ∧
    (step .cancel (run evs (new cfg))).progress = .int 0 ∧
    (step .cancel (run evs (new cfg))).identifier = "" ∧
    (step .cancel (run evs (new cfg))).isUploading = false ∧
    (step .cancel (run evs (new cfg))).chunksQueue = [] ∧
    (step .cancel (run evs (new cfg))).uploadTasks = [] ∧
    (step .cancel (run evs (new cfg))).uploadedChunks = [] ∧
    (step .cancel (run evs (new cfg))).gEmitted
      = (run evs (new cfg)).gEmitted ++ [.progressNum (.int 0)] ∧
    (step .cancel (run evs (new cfg)))._uploadedSize = (run evs (new cfg))._uploadedSize ∧
    (step .cancel (run evs (new cfg))).startUploadTime
      = (run evs (new cfg)).startUploadTime := by
  have him := immut_run evs (new cfg)
  generalize run evs (new cfg) = s at him
  simp only [immut, Prod.mk.injEq] at him
  obtain ⟨_, hsz, _, htot, _⟩ := him
  have hsz0 : (new cfg).size = cfg.size := rfl
  have htot0 : (new cfg).totalChunks = ceilDiv cfg.size cfg.chunkSize := rfl
  rw [hsz0] at hsz
  rw [htot0] at htot
  have hc : step .cancel s = emit (.progressNum (.int 0))
      { pause s with
        chunksIndex := (List.range (pause s).totalChunks).map JsIndex.num
        chunksNeedSend := (pause s).totalChunks
        sizeNeedSend := (pause s).size
        progress := .int 0
        identifier := ""
        isUploading := false
        chunksSend := 0
        chunksQueue := []
        uploadTasks := []
        pUploadList := []
        uploadedChunks := []
        uploadedSize := 0
        averageSpeed := .int 0
        timeRemaining := .posInf
        gConfirmed := [] } := rfl
  rw [hc]
  obtain ⟨m, e⟩ := emit_frame (.progressNum (.int 0))
      { pause s with
        chunksIndex := (List.range (pause s).totalChunks).map JsIndex.num
        chunksNeedSend := (pause s).totalChunks
        sizeNeedSend := (pause s).size
        progress := .int 0
        identifier := ""
        isUploading := false
        chunksSend := 0
        chunksQueue := []
        uploadTasks := []
        pUploadList := []
        uploadedChunks := []
        uploadedSize := 0
        averageSpeed := .int 0
        timeRemaining := .posInf
        gConfirmed := [] }
  rw [e, pause_eq]
  simp only [sessionFields, hsz, htot, and_self, and_true]
  rfl

/-! ### Byte ranges (C13, C17, C18) -/

theorem ceilDiv_pos_of_lt {a b i : Nat} (h : i < ceilDiv a b) (hb : 0 < b) : 0 < a := by
  rcases Nat.eq_zero_or_pos a with ha | ha
  · subst ha
    have : ceilDiv 0 b = 0 := by
      unfold ceilDiv
      exact Nat.div_eq_of_lt (by omega)
    omega
  · exact ha

theorem mul_lt_of_lt_ceilDiv {a b i : Nat} (h : i < ceilDiv a b) (hb : 0 < b) : i * b < a := by
  have ha := ceilDiv_pos_of_lt h hb
  have h1 := ceilDiv_pred_mul_lt a b ha hb
  have h2 : i * b ≤ (ceilDiv a b - 1) * b := Nat.mul_le_mul_right _ (by omega)
  omega

theorem chunkLen_of_lt {a b i : Nat} (hb : 0 < b) (h : i + 1 < ceilDiv a b) :
    chunkLen a b i = b := by
  have h1 := mul_lt_of_lt_ceilDiv h hb
  rw [Nat.add_mul] at h1
  unfold chunkLen
  rw [min_eq_right]
  omega

theorem chunkLen_last {a b i : Nat} (hb : 0 < b) (h : i + 1 = ceilDiv a b) :
    chunkLen a b i = (a : Int) - (i * b : Nat) := by
  have h1 := ceilDiv_mul_ge a b hb
  rw [← h, Nat.add_mul] at h1
  unfold chunkLen
  rw [min_eq_left]
  omega

theorem chunkLen_bounds {a b i : Nat} (hb : 0 < b) (h : i < ceilDiv a b) :
    i * b < a ∧ 1 ≤ chunkLen a b i ∧ ((i * b : Nat) : Int) + chunkLen a b i ≤ a := by
  have h1 := mul_lt_of_lt_ceilDiv h hb
  refine ⟨h1, ?_, ?_⟩
  · unfold chunkLen
    rw [le_min_iff]
    omega
  · unfold chunkLen
    have := min_le_left ((a : Int) - (i * b : Nat)) (b : Int)
    omega

theorem readRequest_length (s : Uploader) (i : JsIndex) :
    (readRequest s i).length = chunkLen s.size s.chunkSize i.toNat := rfl

/-- Total length of distinct chunks: full chunks, less the shortfall of the last
chunk when it is among them. -/
theorem sum_chunkLen (a b : Nat) (hb : 0 < b) (r : List Nat) (hnd : r.Nodup)
    (hlt : ∀ i ∈ r, i < ceilDiv a b) :
    (r.map (chunkLen a b)).sum
      = (r.length : Int) * b
        - (if ceilDiv a b - 1 ∈ r then (ceilDiv a b : Int) * b - a else 0) := by
  induction r with
  | nil => simp
  | cons i rest ih =>
    have hi : i < ceilDiv a b := hlt i (List.mem_cons_self _ _)
    have hnd' := (List.nodup_cons.1 hnd)
    have ih' := ih hnd'.2 (fun j hj => hlt j (List.mem_cons_of_mem _ hj))
    simp only [List.map_cons, List.sum_cons, List.length_cons, List.mem_cons]
    rw [ih']
    by_cases hlast : i + 1 = ceilDiv a b
    · have hmem : ceilDiv a b - 1 = i := by omega
      have hnot : ¬ (ceilDiv a b - 1 ∈ rest) := by rw [hmem]; exact hnd'.1
      rw [chunkLen_last hb hlast, if_neg hnot, if_pos (Or.inl hmem), ← hlast]
      push_cast
      ring
    · have hne : ¬ (ceilDiv a b - 1 = i) := by omega
      rw [chunkLen_of_lt hb (by omega)]
      by_cases hm : ceilDiv a b - 1 ∈ rest
      · rw [if_pos hm, if_pos (Or.inr hm)]; push_cast; ring
      · rw [if_neg hm, if_neg (by tauto)]; push_cast; ring

theorem sum_chunkLen_range (a b : Nat) (hb : 0 < b) :
    ((List.range (ceilDiv a b)).map (chunkLen a b)).sum = a := by
  rw [sum_chunkLen a b hb _ (List.nodup_range _) (fun i hi => List.mem_range.1 hi)]
  rcases Nat.eq_zero_or_pos (ceilDiv a b) with h | h
  · have ha : a = 0 := by
      have := ceilDiv_mul_ge a b hb
      rw [h] at this
      omega
    have hnot : ¬ (ceilDiv a b - 1 ∈ List.range (ceilDiv a b)) := by rw [h]; simp
    rw [if_neg hnot, h, ha]
    simp
  · rw [if_pos (List.mem_range.2 (by omega))]
    simp
theorem hashLoop_eq (b : Bool) (n : Nat) (l : List Nat) : ∀ s : Uploader,
    l.foldl (hashSlice b n) s =
      { s with
        chunksQueue := s.chunksQueue ++
          (if b then l.map (fun i =>
            ({ chunk := i * n, length := chunkLen s.size n i, index := .num i } : Chunk)) else [])
        gHashed := s.gHashed ++ l.map (fun i => (i * n, chunkLen s.size n i)) } := by
  induction l with
  | nil => intro s; cases b <;> simp
  | cons i rest ih =>
    intro s
    rw [List.foldl_cons, ih]
    cases b <;> simp [hashSlice, chunkLen]

theorem computeMD5_eq (s : Uploader) :
    computeMD5 s =
      { s with
        chunksQueue := s.chunksQueue ++
          (if s.size < s.config.maxMemory then
            (List.range (ceilDiv s.size s.chunkSize)).map (fun i =>
              ({ chunk := i * s.chunkSize, length := chunkLen s.size s.chunkSize i
                 index := .num i } : Chunk))
          else [])
        gHashed := s.gHashed ++
          (List.range (ceilDiv s.size (if s.size < s.config.maxMemory then s.chunkSize
              else 10 * MB))).map
            (fun i => (i * (if s.size < s.config.maxMemory then s.chunkSize else 10 * MB),
              chunkLen s.size (if s.size < s.config.maxMemory then s.chunkSize else 10 * MB) i))
        chunksIndex := [] } := by
  unfold computeMD5
  simp only [hashLoop_eq]
  by_cases h : s.size < s.config.maxMemory <;> simp [h]

/-! ### Resume bookkeeping on its own (C13) and reads within the file (C18) -/

theorem includesNum_iff (r : List JsIndex) (z : Int) :
    includesNum r z = true ↔ ∃ n, JsIndex.num n ∈ r ∧ (n : Int) = z := by
  induction r with
  | nil => simp [includesNum]
  | cons x rest ih =>
    unfold includesNum at ih ⊢
    rw [List.any_cons, Bool.or_eq_true, ih]
    cases x with
    | num m =>
      simp only [decide_eq_true_eq, List.mem_cons, JsIndex.num.injEq]
      constructor
      · rintro (h | ⟨n, hn, h⟩)
        · exact ⟨m, Or.inl rfl, h⟩
        · exact ⟨n, Or.inr hn, h⟩
      · rintro ⟨n, hn | hn, h⟩
        · exact Or.inl (hn ▸ h)
        · exact Or.inr ⟨n, hn, h⟩
    | str m =>
      simp only [List.mem_cons, false_or, Bool.false_eq_true]
      constructor
      · rintro ⟨n, hn, h⟩; exact ⟨n, Or.inr hn, h⟩
      · rintro ⟨n, hn | hn, h⟩
        · cases hn
        · exact ⟨n, hn, h⟩

theorem includesNum_last (r : List JsIndex) (t : Nat) :
    includesNum r ((t : Int) - 1) = true ↔ JsIndex.num (t - 1) ∈ r ∧ 0 < t := by
  rw [includesNum_iff]
  constructor
  · rintro ⟨x, hx, h⟩
    have hxt : x = t - 1 ∧ 0 < t := by omega
    exact ⟨hxt.1 ▸ hx, hxt.2⟩
  · rintro ⟨h, ht⟩
    exact ⟨t - 1, h, by omega⟩

/-- Total length of the chunks of a list of distinct indices in which the last
chunk is not held as a string key. -/
theorem sum_chunkLen_index (a b : Nat) (hb : 0 < b) (r : List JsIndex) (hnd : r.Nodup)
    (hlt : ∀ i ∈ r, i.toNat < ceilDiv a b) (hstr : JsIndex.str (ceilDiv a b - 1) ∉ r) :
    (r.map (fun i => chunkLen a b i.toNat)).sum
      = (r.length : Int) * b
        - (if JsIndex.num (ceilDiv a b - 1) ∈ r then (ceilDiv a b : Int) * b - a else 0) := by
  induction r with
  | nil => simp
  | cons i rest ih =>
    have hi : i.toNat < ceilDiv a b := hlt i (List.mem_cons_self _ _)
    have hnd' := (List.nodup_cons.1 hnd)
    have hstr' : JsIndex.str (ceilDiv a b - 1) ∉ rest :=
      fun h => hstr (List.mem_cons_of_mem _ h)
    have hne : i ≠ JsIndex.str (ceilDiv a b - 1) :=
      fun h => hstr (h ▸ List.mem_cons_self _ _)
    have ih' := ih hnd'.2 (fun j hj => hlt j (List.mem_cons_of_mem _ hj)) hstr'
    simp only [List.map_cons, List.sum_cons, List.length_cons, List.mem_cons]
    rw [ih']
    by_cases hlast : i.toNat + 1 = ceilDiv a b
    · have hmem : JsIndex.num (ceilDiv a b - 1) = i := by
        cases i with
        | num n => simp only [JsIndex.toNat] at hlast; congr 1; omega
        | str n =>
          exfalso; apply hne
          simp only [JsIndex.toNat] at hlast; congr 1; omega
      have hnot : ¬ (JsIndex.num (ceilDiv a b - 1) ∈ rest) := by rw [hmem]; exact hnd'.1
      rw [chunkLen_last hb hlast, if_neg hnot, if_pos (Or.inl hmem), ← hlast]
      push_cast
      ring
    · have hne2 : ¬ (JsIndex.num (ceilDiv a b - 1) = i) := by
        intro h
        apply hlast
        rw [← h]
        simp only [JsIndex.toNat]
        omega
      rw [chunkLen_of_lt hb (by omega)]
      by_cases hm : JsIndex.num (ceilDiv a b - 1) ∈ rest
      · rw [if_pos hm, if_pos (Or.inr hm)]; push_cast; ring
      · rw [if_neg hm, if_neg (by tauto)]; push_cast; ring

/-- C13, amended: the resume bookkeeping of `upload` on its own.  Let the Pending
list hold distinct indices below `totalChunks`, each entry that is a member of the
resume list `u` or the final index `totalChunks - 1` being held as a number (not
as a string key re-queued by `pause`).  After the step `chunksIndex` is the
Pending list without the members of `u`, in the same order; `chunksNeedSend` is
its length; and `sizeNeedSend` is the sum of the byte lengths
`min (size - i * chunkSize) chunkSize` of the indices left. -/
theorem applyResume_correct (s : Uploader) (u : List Nat) (hc : 0 < s.chunkSize)
    (ht : s.totalChunks = ceilDiv s.size s.chunkSize)
    (hnd : s.chunksIndex.Nodup)
    (hlt : ∀ i ∈ s.chunksIndex, i.toNat < s.totalChunks)
    (hnum : ∀ i ∈ s.chunksIndex,
      i.toNat ∈ u ∨ i.toNat + 1 = s.totalChunks → i = JsIndex.num i.toNat) :
    (applyResume u s).chunksIndex = s.chunksIndex.filter (fun i => decide (i.toNat ∉ u)) ∧
    (applyResume u s).chunksNeedSend
      = (s.chunksIndex.filter (fun i => decide (i.toNat ∉ u))).length ∧
    (applyResume u s).sizeNeedSend
      = ((s.chunksIndex.filter (fun i => decide (i.toNat ∉ u))).map
          (fun i => chunkLen s.size s.chunkSize i.toNat)).sum := by
  have hf : s.chunksIndex.filter (fun v => !jsIncludes (jsSort u) v)
      = s.chunksIndex.filter (fun i => decide (i.toNat ∉ u)) := by
    apply List.filter_congr
    intro x hx
    cases x with
    | num n => simp [jsIncludes, mem_jsSort, JsIndex.toNat]
    | str k =>
      have hk : k ∉ u := fun h => by
        have := hnum _ hx (Or.inl h)
        cases this
      simp [jsIncludes, JsIndex.toNat, hk]
  have hstr : JsIndex.str (ceilDiv s.size s.chunkSize - 1)
      ∉ s.chunksIndex.filter (fun i => decide (i.toNat ∉ u)) := by
    intro hm
    have h1 := List.mem_of_mem_filter hm
    have h3 := hlt _ h1
    simp only [JsIndex.toNat] at h3
    have h2 := hnum _ h1 (Or.inr (by simp only [JsIndex.toNat]; omega))
    cases h2
  have hsum := sum_chunkLen_index s.size s.chunkSize hc
    (s.chunksIndex.filter (fun i => decide (i.toNat ∉ u)))
    (hnd.filter _) (fun i hi => ht ▸ hlt i (List.mem_of_mem_filter hi)) hstr
  unfold applyResume
  simp only [hf]
  split
  · rename_i hin
    rw [includesNum_last, ht] at hin
    rw [hsum, if_pos hin.1, ht]
    exact ⟨rfl, rfl, rfl⟩
  · rename_i hin
    rw [includesNum_last, ht] at hin
    have hnot : ¬ (JsIndex.num (ceilDiv s.size s.chunkSize - 1)
        ∈ s.chunksIndex.filter (fun i => decide (i.toNat ∉ u))) := by
      intro hm
      apply hin
      refine ⟨hm, ?_⟩
      have := hlt _ (List.mem_of_mem_filter hm)
      simp only [JsIndex.toNat] at this
      omega
    rw [hsum, if_neg hnot]
    exact ⟨rfl, rfl, by simp⟩

/-- The Pending list of `mixedPending` (numbers 1 and 2, string key of chunk 0)
with the resume list 1: chunk 2 of 500 000 bytes and chunk 0 of 1 000 000 bytes
are left. -/
theorem applyResume_correct_witness :
    (0 < mixedPending.chunkSize ∧
      mixedPending.totalChunks = ceilDiv mixedPending.size mixedPending.chunkSize ∧
      mixedPending.chunksIndex = [.num 1, .num 2, .str 0] ∧
      mixedPending.chunksIndex.Nodup ∧
      (∀ i ∈ mixedPending.chunksIndex, i.toNat < mixedPending.totalChunks) ∧
      (∀ i ∈ mixedPending.chunksIndex,
        i.toNat ∈ [1] ∨ i.toNat + 1 = mixedPending.totalChunks → i = JsIndex.num i.toNat)) ∧
    (applyResume [1] mixedPending).chunksIndex = [.num 2, .str 0] ∧
    (applyResume [1] mixedPending).chunksNeedSend = 2 ∧
    (applyResume [1] mixedPending).sizeNeedSend = 1500000 ∧
    (applyResume [1] mixedPending).sizeNeedSend
      = ((mixedPending.chunksIndex.filter (fun i => decide (i.toNat ∉ [1]))).map
          (fun i => chunkLen mixedPending.size mixedPending.chunkSize i.toNat)).sum :=
  ⟨⟨by decide, by decide, by decide, by decide, by decide, by decide⟩, by decide, by decide,
    by decide,
    (applyResume_correct mixedPending [1] (by decide) (by decide) (by decide) (by decide)
      (by decide)).2.2⟩

/-- C13, as stated, fails on a Pending list that holds string keys.  In
`pausedScenario` the Pending list is the keys of chunks 0, 1, 2 as `pause`
re-queued them: distinct indices below `totalChunks`.  With the resume list 0, 1
the step removes nothing and leaves `chunksNeedSend` 3 and `sizeNeedSend`
3 000 000, where the Pending list without the members of the resume list is chunk
2 alone, of 500 000 bytes; with the empty resume list `sizeNeedSend` is again
3 000 000, where the three chunks have 2 500 000 bytes. -/
theorem applyResume_keeps_string_keys :
    pausedScenario.chunksIndex = [.str 0, .str 1, .str 2] ∧
    pausedScenario.chunksIndex.Nodup ∧
    (pausedScenario.chunksIndex.map JsIndex.toNat).Nodup ∧
    (∀ i ∈ pausedScenario.chunksIndex, i.toNat < pausedScenario.totalChunks) ∧
    (applyResume [0, 1] pausedScenario).chunksIndex = [.str 0, .str 1, .str 2] ∧
    (applyResume [0, 1] pausedScenario).chunksIndex.map JsIndex.toNat
      ≠ (pausedScenario.chunksIndex.map JsIndex.toNat).filter (fun i => decide (i ∉ [0, 1])) ∧
    (applyResume [0, 1] pausedScenario).chunksNeedSend = 3 ∧
    (applyResume [0, 1] pausedScenario).sizeNeedSend = 3000000 ∧
    (([0, 1, 2].filter (fun i => decide (i ∉ [0, 1]))).map
      (chunkLen pausedScenario.size pausedScenario.chunkSize)).sum = 500000 ∧
    (applyResume [] pausedScenario).chunksIndex = [.str 0, .str 1, .str 2] ∧
    (applyResume [] pausedScenario).sizeNeedSend = 3000000 ∧
    (((applyResume [] pausedScenario).chunksIndex.map JsIndex.toNat).map
      (chunkLen pausedScenario.size pausedScenario.chunkSize)).sum = 2500000 := by
  decide

/-- C18: let `chunkSize` be positive (`size` is positive as soon as there is a
chunk) and the Pending list hold only indices below `totalChunks`.  `readFileChunk` removes exactly
`min |chunksIndex| (max 0 (maxLoadChunks - |chunksQueue|))` indices from the front
of `chunksIndex` (never more than the list holds) and issues one read for each;
each of these reads, and each read of `computeMD5`, has `position < size`,
`length ≥ 1` and `position + length ≤ size`. -/
theorem reads_within_file (s : Uploader) (hc : 0 < s.chunkSize)
    (ht : s.totalChunks = ceilDiv s.size s.chunkSize)
    (hp : ∀ i ∈ s.chunksIndex, i.toNat < s.totalChunks) :
    (readFileChunk s).chunksIndex
      = s.chunksIndex.drop (min s.chunksIndex.length (s.maxLoadChunks - s.chunksQueue.length)) ∧
    (readFileChunk s).reads
      = s.reads ++ (s.chunksIndex.take
          (min s.chunksIndex.length (s.maxLoadChunks - s.chunksQueue.length))).map
            (readRequest s) ∧
    (readFileChunk s).chunksIndex.length
        + min s.chunksIndex.length (s.maxLoadChunks - s.chunksQueue.length)
      = s.chunksIndex.length ∧
    (∀ r ∈ (s.chunksIndex.take
          (min s.chunksIndex.length (s.maxLoadChunks - s.chunksQueue.length))).map
            (readRequest s),
      r.position < s.size ∧ 1 ≤ r.length ∧ (r.position : Int) + r.length ≤ s.size) ∧
    (∀ p ∈ (computeMD5 s).gHashed.drop s.gHashed.length,
      p.1 < s.size ∧ 1 ≤ p.2 ∧ (p.1 : Int) + p.2 ≤ s.size) := by
  have hn : (readCount s).toNat
      = min s.chunksIndex.length (s.maxLoadChunks - s.chunksQueue.length) := by
    unfold readCount; omega
  have h1 : (readFileChunk s).chunksIndex = s.chunksIndex.drop (readCount s).toNat :=
    readLoop_chunksIndex _ s
  have h2 := readFileChunk_reads s
  rw [hn] at h1 h2
  refine ⟨h1, h2, ?_, ?_, ?_⟩
  · rw [h1, List.length_drop]; omega
  · intro r hr
    rw [List.mem_map] at hr
    obtain ⟨i, hi, rfl⟩ := hr
    have hlt := hp i (List.mem_of_mem_take hi)
    rw [ht] at hlt
    have hb := chunkLen_bounds hc hlt
    exact ⟨hb.1, hb.2.1, hb.2.2⟩
  · intro p hpm
    rw [computeMD5_eq] at hpm
    simp only [List.drop_left, List.mem_map, List.mem_range] at hpm
    obtain ⟨i, hi, rfl⟩ := hpm
    have hpos : 0 < (if s.size < s.config.maxMemory then s.chunkSize else 10 * MB) := by
      split
      · exact hc
      · decide
    have hb := chunkLen_bounds hpos hi
    exact ⟨hb.1, hb.2.1, hb.2.2⟩

/-- The scenario of the specification: the three reads of the first
`readFileChunk` lie within the 2 500 000 bytes. -/
theorem reads_within_file_witness :
    (0 < (new scenarioConfig).chunkSize ∧
      (new scenarioConfig).totalChunks
        = ceilDiv (new scenarioConfig).size (new scenarioConfig).chunkSize ∧
      ∀ i ∈ (new scenarioConfig).chunksIndex, i.toNat < (new scenarioConfig).totalChunks) ∧
    (readFileChunk (new scenarioConfig)).reads
      = [{ position := 0, length := 1000000, index := .num 0 },
         { position := 1000000, length := 1000000, index := .num 1 },
         { position := 2000000, length := 500000, index := .num 2 }] ∧
    (readFileChunk (new scenarioConfig)).chunksIndex.length
        + min (new scenarioConfig).chunksIndex.length
            ((new scenarioConfig).maxLoadChunks - (new scenarioConfig).chunksQueue.length)
      = (new scenarioConfig).chunksIndex.length :=
  ⟨⟨by decide, by decide, by decide⟩, by decide,
    (reads_within_file (new scenarioConfig) (by decide) (by decide) (by decide)).2.2.1⟩

/-! ### Chunks kept by the hashing pass (C17) -/

theorem readFileChunk_of_empty (s : Uploader) (h : s.chunksIndex = []) :
    readFileChunk s = s := by
  unfold readFileChunk
  cases (readCount s).toNat with
  | zero => rfl
  | succ n => simp [readLoop, h]

theorem noReads_readFileChunk (s : Uploader) (h : s.chunksIndex = [] ∧ s.reads = []) :
    (readFileChunk s).chunksIndex = [] ∧ (readFileChunk s).reads = [] := by
  rw [readFileChunk_of_empty s h.1]; exact h

theorem noReads_applyResume (u : List Nat) (s : Uploader)
    (h : s.chunksIndex = [] ∧ s.reads = []) :
    (applyResume u s).chunksIndex = [] ∧ (applyResume u s).reads = [] := by
  obtain ⟨n, e⟩ := applyResume_frame u s
  rw [e]
  exact ⟨by simp [h.1], h.2⟩

theorem noReads_uploadChunk (s : Uploader) (h : s.chunksIndex = [] ∧ s.reads = []) :
    (uploadChunk s).chunksIndex = [] ∧ (uploadChunk s).reads = [] := by
  obtain ⟨a, b, c, e⟩ := uploadChunk_frame s
  rw [e]; exact h

theorem noReads__upload (now : Int) (s : Uploader) (h : s.chunksIndex = [] ∧ s.reads = []) :
    (_upload now s).chunksIndex = [] ∧ (_upload now s).reads = [] := by
  unfold _upload
  simp only
  split
  · exact foldl_uploadChunk_induct (fun t => t.chunksIndex = [] ∧ t.reads = [])
      noReads_uploadChunk _ _ h
  · exact noReads_readFileChunk _ h

theorem noReads_onUploadSuccess (i : JsIndex) (l now : Int) (s : Uploader)
    (h : s.chunksIndex = [] ∧ s.reads = []) :
    (onUploadSuccess i l now s).chunksIndex = [] ∧ (onUploadSuccess i l now s).reads = [] := by
  unfold onUploadSuccess
  have h3 : (updateUploadSize l now
      { s with chunksSend := s.chunksSend + 1, gConfirmed := s.gConfirmed ++ [i]
               uploadTasks := objDelete i.toNat s.uploadTasks }).chunksIndex = [] ∧
      (updateUploadSize l now
      { s with chunksSend := s.chunksSend + 1, gConfirmed := s.gConfirmed ++ [i]
               uploadTasks := objDelete i.toNat s.uploadTasks }).reads = [] := by
    unfold updateUploadSize
    obtain ⟨m, e⟩ := emit_frame _ _
    rw [e]; exact h
  have h5 := noReads_uploadChunk _ (noReads_readFileChunk _ h3)
  simp only
  split
  · obtain ⟨m, e⟩ := emit_frame .uploadDone _
    rw [e]; exact h5
  · exact h5

theorem noReads_step (e : Event) (he : e.keepsTasks = true) (s : Uploader)
    (h : s.chunksIndex = [] ∧ s.reads = []) :
    (step e s).chunksIndex = [] ∧ (step e s).reads = [] := by
  cases e with
  | upload i b u now => simp [Event.keepsTasks] at he
  | pause => simp [Event.keepsTasks] at he
  | cancel => simp [Event.keepsTasks] at he
  | resume now => exact noReads__upload now _ h
  | readDone k =>
    have : step (.readDone k) s = s := by simp [step, h.2]
    rw [this]; exact h
  | readFail k =>
    have : step (.readFail k) s = s := by simp [step, h.2]
    rw [this]; exact h
  | uploadSuccess id now =>
    simp only [step]
    split
    · exact h
    · exact noReads_onUploadSuccess _ _ _ _ h
  | uploadFail id =>
    simp only [step]
    split
    · exact h
    · obtain ⟨m, e⟩ := emit_frame .error _
      rw [e]; exact h
  | mergeDone =>
    simp only [step]
    split
    · exact h
    · obtain ⟨m, e⟩ := emit_frame .complete _
      rw [e]; exact h

theorem noReads_run (evs : List Event) : ∀ s : Uploader,
    (∀ e ∈ evs, e.keepsTasks = true) → (s.chunksIndex = [] ∧ s.reads = []) →
    (run evs s).chunksIndex = [] ∧ (run evs s).reads = [] := by
  induction evs with
  | nil => intro s _ h; exact h
  | cons e rest ih =>
    intro s hev h
    exact ih (step e s) (fun x hx => hev x (List.mem_cons_of_mem _ hx))
      (noReads_step e (hev e (List.mem_cons_self _ _)) s h)

theorem noReads_upload (cfg : Config) (i : String) (b : Bool) (u : List Nat) (now : Int)
    (ht : cfg.testChunks = true) :
    (upload i b u now (new cfg)).chunksIndex = [] ∧ (upload i b u now (new cfg)).reads = [] := by
  rw [upload_eq]
  have hc : (new cfg).config.testChunks = true := ht
  simp only [hc, if_true]
  have h1 : ({ computeMD5 (new cfg) with identifier := i } : Uploader).chunksIndex = [] ∧
      ({ computeMD5 (new cfg) with identifier := i } : Uploader).reads = [] := by
    obtain ⟨q, g, e⟩ := computeMD5_frame (new cfg)
    rw [e]; exact ⟨rfl, rfl⟩
  split
  · obtain ⟨m, e⟩ := emit_frame .complete { computeMD5 (new cfg) with identifier := i }
    rw [e]; exact h1
  · apply noReads__upload
    have h2 := noReads_applyResume u { computeMD5 (new cfg) with identifier := i } h1
    exact h2
/-- C17, as stated, fails when the upload is paused: in the session of
`smallFileConfig` (file below `maxMemory`, so the hashing pass has read and queued
chunk 0) the upload of chunk 0 is aborted by `pause`, its index goes back to
`chunksIndex`, and after `resume` the next upload success makes `readFileChunk`
read chunk 0 from the file a second time. -/
theorem paused_chunk_is_read_again :
    smallFileConfig.size < smallFileConfig.maxMemory ∧
    (0, 1) ∈ (session smallFileConfig "id" true [] 0
      [.pause, .resume 1, .uploadSuccess 1 2]).gHashed ∧
    (session smallFileConfig "id" true [] 0 [.pause, .resume 1, .uploadSuccess 1 2]).reads
      = [{ position := 0, length := 1, index := .str 0 }] := by
  decide

/-- C17, amended: let `chunkSize` be positive.  On a freshly constructed uploader
with `size < maxMemory`, `computeMD5` leaves in `chunksQueue` exactly one entry for
each index `0, 1, ..., totalChunks - 1`, in ascending order, each with length
`min (size - i * chunkSize) chunkSize`; in either slice mode it leaves
`chunksIndex` empty, and the slices it hashed start at 0, each starts where the
one before ends, and their lengths sum to `size`.  In a session with `testChunks`
on, as long as `pause` is not called, `chunksIndex` stays empty and no read is
ever issued by `readFileChunk`. -/
theorem hashing_keeps_chunks (cfg : Config) (hc : 0 < cfg.chunkSize) :
    (cfg.size < cfg.maxMemory →
      (computeMD5 (new cfg)).chunksQueue
        = (List.range (new cfg).totalChunks).map (fun i =>
            ({ chunk := i * cfg.chunkSize, length := chunkLen cfg.size cfg.chunkSize i
               index := .num i } : Chunk))) ∧
    (computeMD5 (new cfg)).chunksIndex = [] ∧
    (computeMD5 (new cfg)).gHashed
      = (List.range (ceilDiv cfg.size
            (if cfg.size < cfg.maxMemory then cfg.chunkSize else 10 * MB))).map
          (fun i => (i * (if cfg.size < cfg.maxMemory then cfg.chunkSize else 10 * MB),
            chunkLen cfg.size (if cfg.size < cfg.maxMemory then cfg.chunkSize else 10 * MB) i)) ∧
    (∀ i, i + 1 < ceilDiv cfg.size (if cfg.size < cfg.maxMemory then cfg.chunkSize else 10 * MB) →
      (((i + 1) * (if cfg.size < cfg.maxMemory then cfg.chunkSize else 10 * MB) : Nat) : Int)
        = ((i * (if cfg.size < cfg.maxMemory then cfg.chunkSize else 10 * MB) : Nat) : Int)
          + chunkLen cfg.size (if cfg.size < cfg.maxMemory then cfg.chunkSize else 10 * MB) i) ∧
    (((computeMD5 (new cfg)).gHashed.map (fun p => p.2)).sum = cfg.size) ∧
    (cfg.testChunks = true →
      ∀ (ident : String) (b : Bool) (u : List Nat) (now : Int) (evs : List Event),
        (∀ e ∈ evs, e.keepsTasks = true) →
        (session cfg ident b u now evs).chunksIndex = [] ∧
        (session cfg ident b u now evs).reads = []) := by
  have hpos : 0 < (if cfg.size < cfg.maxMemory then cfg.chunkSize else 10 * MB) := by
    split
    · exact hc
    · decide
  have hq : (computeMD5 (new cfg)).chunksQueue =
      (if cfg.size < cfg.maxMemory then
        (List.range (ceilDiv cfg.size cfg.chunkSize)).map (fun i =>
          ({ chunk := i * cfg.chunkSize, length := chunkLen cfg.size cfg.chunkSize i
             index := .num i } : Chunk))
      else []) := by
    rw [computeMD5_eq]
    exact List.nil_append _
  have hg : (computeMD5 (new cfg)).gHashed
      = (List.range (ceilDiv cfg.size
            (if cfg.size < cfg.maxMemory then cfg.chunkSize else 10 * MB))).map
          (fun i => (i * (if cfg.size < cfg.maxMemory then cfg.chunkSize else 10 * MB),
            chunkLen cfg.size (if cfg.size < cfg.maxMemory then cfg.chunkSize else 10 * MB) i)) := by
    rw [computeMD5_eq]
    exact List.nil_append _
  refine ⟨?_, ?_, hg, ?_, ?_, ?_⟩
  · intro hm
    rw [hq, if_pos hm]
    rfl
  · rw [computeMD5_eq]
  · intro i hi
    rw [chunkLen_of_lt hpos hi]
    push_cast
    ring
  · rw [hg, List.map_map]
    exact sum_chunkLen_range cfg.size _ hpos
  · intro ht ident b u now evs hev
    exact noReads_run evs _ hev (noReads_upload cfg ident b u now ht)

/-- The session of `smallFileConfig` without a pause: nothing is read again. -/
theorem hashing_keeps_chunks_witness :
    0 < smallFileConfig.chunkSize ∧
    (smallFileConfig.size < smallFileConfig.maxMemory ∧ smallFileConfig.testChunks = true ∧
      ∀ e ∈ [Event.uploadSuccess 0 1, Event.resume 2, Event.uploadSuccess 1 3],
        e.keepsTasks = true) ∧
    (computeMD5 (new smallFileConfig)).chunksQueue
      = [{ chunk := 0, length := 1, index := .num 0 }, { chunk := 1, length := 1, index := .num 1 },
         { chunk := 2, length := 1, index := .num 2 }] ∧
    (session smallFileConfig "id" true [] 0
      [Event.uploadSuccess 0 1, Event.resume 2, Event.uploadSuccess 1 3]).reads = [] ∧
    (session smallFileConfig "id" true [] 0
      [Event.uploadSuccess 0 1, Event.resume 2, Event.uploadSuccess 1 3]).gConfirmed
      = [.num 0, .num 1] :=
  have h := hashing_keeps_chunks smallFileConfig (by decide)
  ⟨by decide, ⟨by decide, by decide, by decide⟩, (h.1 (by decide)).trans (by decide),
    (h.2.2.2.2.2 (by decide) "id" true [] 0
      [Event.uploadSuccess 0 1, Event.resume 2, Event.uploadSuccess 1 3] (by decide)).2,
    by decide⟩

/-! ### Progress estimate (C16) -/

/-- Where `parseInt` agrees with the floor: a non-negative dividend and a positive
divisor whose quotient is zero or at least `1e-6`. -/
theorem parseIntDiv_of_plain (a b : Int) (ha : 0 ≤ a) (hb : 0 < b)
    (hr : a = 0 ∨ b ≤ 1000000 * a) :
    parseIntDiv (some a) (some b) = .int (a / b) := by
  unfold parseIntDiv
  have hb0 : b ≠ 0 := by omega
  have hc : ¬ (a ≠ 0 ∧ a.natAbs * 1000000 < b.natAbs) := by omega
  simp only [hb0, hc, if_false]
  rw [Int.tdiv_eq_ediv ha (by omega)]

/-- What `updateUploadSize` does when the average speed is in the range where
`parseInt` truncates: both sizes grow by the chunk length, `averageSpeed` is the
floor of `_uploadedSize / elapsed`, and the notification carries the new values of
the four fields. -/
theorem updateUploadSize_plain (s : Uploader) (len now x t0 : Int)
    (hx : s._uploadedSize = some x) (ht : s.startUploadTime = some t0)
    (hel : 0 < now - t0) (hnn : 0 ≤ x + len)
    (hr : x + len = 0 ∨ now - t0 ≤ 1000000 * (x + len)) :
    (updateUploadSize len now s).uploadedSize = s.uploadedSize + len ∧
    (updateUploadSize len now s)._uploadedSize = some (x + len) ∧
    (updateUploadSize len now s).averageSpeed = .int ((x + len) / (now - t0)) ∧
    (updateUploadSize len now s).gEmitted = s.gEmitted ++
      [.progress { progress := (updateUploadSize len now s).progress
                   uploadedSize := (updateUploadSize len now s).uploadedSize
                   averageSpeed := (updateUploadSize len now s).averageSpeed
                   timeRemaining := (updateUploadSize len now s).timeRemaining }] := by
  have hp := parseIntDiv_of_plain (x + len) (now - t0) hnn hel hr
  simp only [updateUploadSize, emit, hx, ht, Option.map_some', hp, and_self]

/-- The progress ratio is rounded as a double, not as an exact fraction: 3 / 200
is the double just below 0.015 and gives 0.01; 1 / 8 is 0.125 exactly and gives
0.13; 201 / 200 is the double just below 1.005 and gives 1. -/
theorem toFixed2_rounds_the_double :
    toFixed2 3 200 = .cent 1 ∧ toFixed2 1 8 = .cent 13 ∧ toFixed2 201 200 = .cent 100 ∧
    toFixed2 1000000 2500000 = .cent 40 ∧ toFixed2 (-1) 8 = .cent (-13) := by
  decide

/-- C16, the code on a one-byte file whose only chunk is confirmed 2 000 000 time
units after `upload`: `_uploadedSize` is 1 and the elapsed time is 2 000 000, so
the floor of their quotient is 0, yet `averageSpeed` is 5: the quotient `5e-7` is
printed in exponent notation and `parseInt` reads its first digit. -/
theorem averageSpeed_of_slow_upload :
    (session oneChunkConfig "id" true [] 0 [.readDone 0])._uploadedSize = some 0 ∧
    (session oneChunkConfig "id" true [] 0 [.readDone 0]).startUploadTime = some 0 ∧
    (session oneChunkConfig "id" true [] 0
      [.readDone 0, .uploadSuccess 0 2000000])._uploadedSize = some 1 ∧
    (1 : Int) / (2000000 - 0) = 0 ∧
    (session oneChunkConfig "id" true [] 0
      [.readDone 0, .uploadSuccess 0 2000000]).averageSpeed = .int 5 ∧
    (session oneChunkConfig "id" true [] 0
      [.readDone 0, .uploadSuccess 0 2000000]).gEmitted.getLast?
      = some .uploadDone ∧
    Emitted.progress { progress := .cent 100, uploadedSize := 1, averageSpeed := .int 5
                       timeRemaining := .int 0 }
      ∈ (session oneChunkConfig "id" true [] 0
          [.readDone 0, .uploadSuccess 0 2000000]).gEmitted := by
  decide

/-! ### Chunk conservation without resume set (C19) -/

theorem occ_eq (v : Nat) (s : Uploader) :
    occ v s = (s.chunksIndex.map JsIndex.toNat).count v
      + (s.reads.map (fun r => r.index.toNat)).count v
      + (s.chunksQueue.map (fun c => c.index.toNat)).count v
      + (objKeys s.uploadTasks).count v
      + (s.gConfirmed.map JsIndex.toNat).count v := by
  simp only [occ, whereabouts, waiting, List.count_append]

theorem count_cons_nat (a b : Nat) (l : List Nat) :
    (b :: l).count a = l.count a + if a = b then 1 else 0 := by
  rw [List.count_cons]
  by_cases h : a = b
  · subst h; simp
  · have : ¬ (b = a) := fun h2 => h h2.symm
    simp [h, this]

theorem count_objKeys_objSet_le (v k id : Nat) (o : List (Nat × Nat)) :
    (objKeys (objSet k id o)).count v
      ≤ (objKeys o).count v + (if v = k then 1 else 0) := by
  induction o with
  | nil => simp only [objSet, objKeys, List.map_cons, List.map_nil, count_cons_nat,
      List.count_nil]; omega
  | cons e t ih =>
    obtain ⟨k1, v1⟩ := e
    simp only [objSet]
    split
    · rename_i h; subst h
      simp only [objKeys, List.map_cons, count_cons_nat]
      omega
    · split
      · simp only [objKeys, List.map_cons, count_cons_nat]
        omega
      · simp only [objKeys, List.map_cons, count_cons_nat] at ih ⊢
        omega

theorem count_objKeys_objDelete (v k : Nat) (o : List (Nat × Nat)) :
    (objKeys (objDelete k o)).count v = if v = k then 0 else (objKeys o).count v := by
  induction o with
  | nil => simp [objKeys, objDelete]
  | cons e t ih =>
    obtain ⟨k1, v1⟩ := e
    simp only [objKeys, objDelete] at ih ⊢
    by_cases h1 : k1 = k
    · simp only [List.filter_cons, h1, ne_eq, not_true_eq_false, decide_False, Bool.false_eq_true,
        if_false, List.map_cons, count_cons_nat]
      rw [ih]
      split <;> omega
    · simp only [List.filter_cons, h1, ne_eq, not_false_eq_true, decide_True, if_true,
        List.map_cons, count_cons_nat]
      rw [ih]
      by_cases hv : v = k
      · have : ¬ (v = k1) := by rw [hv]; exact fun h => h1 h.symm
        rw [if_pos hv, if_pos hv, if_neg this]
      · rw [if_neg hv, if_neg hv]

theorem mem_objSet_self (k id : Nat) (o : List (Nat × Nat)) : (k, id) ∈ objSet k id o := by
  induction o with
  | nil => simp [objSet]
  | cons e t ih =>
    obtain ⟨k1, v1⟩ := e
    simp only [objSet]
    split
    · simp
    · split
      · simp
      · exact List.mem_cons_of_mem _ ih

theorem mem_objSet_of_ne {k id k2 v2 : Nat} {o : List (Nat × Nat)} (h : (k2, v2) ∈ o)
    (hne : k2 ≠ k) : (k2, v2) ∈ objSet k id o := by
  induction o with
  | nil => simp at h
  | cons e t ih =>
    obtain ⟨k1, v1⟩ := e
    simp only [objSet]
    rcases List.mem_cons.1 h with h | h
    · have hk : k1 = k2 := by simpa using (congrArg Prod.fst h).symm
      have hv : v1 = v2 := by simpa using (congrArg Prod.snd h).symm
      subst hk; subst hv
      split
      · rename_i hk; exact absurd hk.symm hne
      · split
        · simp
        · simp
    · split
      · exact List.mem_cons_of_mem _ h
      · split
        · exact List.mem_cons_of_mem _ (List.mem_cons_of_mem _ h)
        · exact List.mem_cons_of_mem _ (ih h)

theorem mem_objDelete_of_ne {k k2 v2 : Nat} {o : List (Nat × Nat)} (h : (k2, v2) ∈ o)
    (hne : k2 ≠ k) : (k2, v2) ∈ objDelete k o := by
  unfold objDelete
  rw [List.mem_filter]
  exact ⟨h, by simpa using hne⟩

theorem one_le_count_objKeys {k a : Nat} {o : List (Nat × Nat)} (h : (k, a) ∈ o) :
    1 ≤ (objKeys o).count k :=
  List.count_pos_iff.2 (List.mem_map.2 ⟨(k, a), h, rfl⟩)

theorem two_le_count_objKeys {k a b : Nat} {o : List (Nat × Nat)} (ha : (k, a) ∈ o)
    (hb : (k, b) ∈ o) (hab : a ≠ b) : 2 ≤ (objKeys o).count k := by
  induction o with
  | nil => simp at ha
  | cons e t ih =>
    obtain ⟨k1, v1⟩ := e
    simp only [objKeys, List.map_cons, count_cons_nat] at ih ⊢
    rcases List.mem_cons.1 ha with ha | ha <;> rcases List.mem_cons.1 hb with hb | hb
    · simp only [Prod.mk.injEq] at ha hb
      exact absurd (ha.2.trans hb.2.symm) hab
    · have := one_le_count_objKeys hb
      simp only [objKeys] at this
      simp only [Prod.mk.injEq] at ha
      rw [if_pos ha.1]; omega
    · have := one_le_count_objKeys ha
      simp only [objKeys] at this
      simp only [Prod.mk.injEq] at hb
      rw [if_pos hb.1]; omega
    · have := ih ha hb
      omega

theorem count_map_eraseIdx {α : Type} (f : α → Nat) (v : Nat) (l : List α) (k : Nat) (r : α)
    (h : l.get? k = some r) :
    ((l.eraseIdx k).map f).count v + (if f r = v then 1 else 0) = (l.map f).count v := by
  induction l generalizing k with
  | nil => simp at h
  | cons x t ih =>
    cases k with
    | zero =>
      simp only [List.get?_cons_zero, Option.some.injEq] at h
      subst h
      simp only [List.eraseIdx_cons_zero, List.map_cons, count_cons_nat]
      by_cases hv : v = f x
      · simp [hv]
      · have : ¬ (f x = v) := fun h => hv h.symm
        simp [hv, this]
    | succ k =>
      simp only [List.get?_cons_succ] at h
      have := ih k h
      simp only [List.eraseIdx_cons_succ, List.map_cons, count_cons_nat]
      omega

theorem count_take_add_drop (v n : Nat) (l : List Nat) :
    (l.take n).count v + (l.drop n).count v = l.count v := by
  rw [← List.count_append, List.take_append_drop]
theorem conserved_congr {s t : Uploader} (h : Conserved s)
    (h1 : t.chunksIndex = s.chunksIndex) (h2 : t.reads = s.reads)
    (h3 : t.chunksQueue = s.chunksQueue) (h4 : t.uploadTasks = s.uploadTasks)
    (h5 : t.gConfirmed = s.gConfirmed) (h6 : t.requests = s.requests)
    (h7 : t.size = s.size) (h8 : t.chunkSize = s.chunkSize)
    (h9 : t.totalChunks = s.totalChunks) (h10 : t.uploadedSize = s.uploadedSize)
    (h11 : t.uploadedChunks = s.uploadedChunks) (h12 : t.chunksNeedSend = s.chunksNeedSend)
    (h13 : t.sizeNeedSend = s.sizeNeedSend) (h14 : t.chunksSend = s.chunksSend) :
    Conserved t := by
  have ho : ∀ v, occ v t = occ v s := by
    intro v; rw [occ_eq, occ_eq, h1, h2, h3, h4, h5]
  refine ⟨?_, ?_, ?_, ?_, ?_, ?_, ?_, ?_, ?_, ?_, ?_, ?_⟩
  · intro v; rw [ho]; exact h.nodup v
  · intro v hv; rw [ho] at hv; rw [h9]; exact h.bound v hv
  · rw [h6]; exact h.ids
  · rw [h6, h4]; exact h.inflight
  · rw [h2, h7, h8]; exact h.lenReads
  · rw [h3, h7, h8]; exact h.lenQueue
  · rw [h6, h7, h8]; exact h.lenReq
  · rw [h10, h5, h7, h8]; exact h.total
  · rw [h11]; exact h.noSkip
  · rw [h12, h9]; exact h.need
  · rw [h13, h7]; exact h.sizeNeed
  · rw [h5, h14]; exact h.sent

theorem conserved_emit {s : Uploader} (e : Emitted) (h : Conserved s) :
    Conserved (emit e s) := by
  obtain ⟨m, hm⟩ := emit_frame e s
  rw [hm]
  exact conserved_congr h rfl rfl rfl rfl rfl rfl rfl rfl rfl rfl rfl rfl rfl rfl

theorem conserved_readFileChunk {s : Uploader} (h : Conserved s) :
    Conserved (readFileChunk s) := by
  have h1 : (readFileChunk s).chunksIndex = s.chunksIndex.drop (readCount s).toNat :=
    readLoop_chunksIndex _ s
  have h2 := readFileChunk_reads s
  obtain ⟨a, b, hm⟩ := readFileChunk_frame s
  rw [hm] at h1 h2 ⊢
  simp only at h1 h2
  subst h1; subst h2
  have ho : ∀ v, occ v
      { s with chunksIndex := s.chunksIndex.drop (readCount s).toNat
               reads := s.reads ++ (s.chunksIndex.take (readCount s).toNat).map (readRequest s) }
      = occ v s := by
    intro v
    rw [occ_eq, occ_eq]
    have h3 := count_take_add_drop v (readCount s).toNat (s.chunksIndex.map JsIndex.toNat)
    simp only [List.map_append, List.map_map, List.count_append, List.map_drop,
      ← List.map_take] at h3 ⊢
    have h4 : ((fun r => r.index.toNat) ∘ readRequest s) = JsIndex.toNat := rfl
    rw [h4]
    omega
  refine ⟨?_, ?_, h.ids, h.inflight, ?_, h.lenQueue, h.lenReq, h.total, h.noSkip, h.need,
    h.sizeNeed, h.sent⟩
  · intro v; rw [ho]; exact h.nodup v
  · intro v hv; rw [ho] at hv; exact h.bound v hv
  · intro r hr
    rcases List.mem_append.1 hr with hr | hr
    · exact h.lenReads r hr
    · obtain ⟨i, _, rfl⟩ := List.mem_map.1 hr
      rfl

theorem conserved_uploadChunkFrom (l : List Chunk) : ∀ {s : Uploader},
    s.chunksQueue = l → Conserved s → Conserved (uploadChunkFrom l s) := by
  induction l with
  | nil => intro s _ h; exact h
  | cons c rest ih =>
    intro s hq h
    simp only [uploadChunkFrom]
    split
    · exact h
    · split
      · exact h
      · have hskip : jsIncludes s.uploadedChunks c.index = false := by
          rw [h.noSkip]; cases c.index <;> simp [jsIncludes]
        simp only [hskip, Bool.false_eq_true, if_false]
        have hcq : c ∈ s.chunksQueue := by rw [hq]; exact List.mem_cons_self _ _
        have hkey : (objKeys s.uploadTasks).count c.index.toNat = 0 := by
          have h1 := h.nodup c.index.toNat
          rw [occ_eq, hq] at h1
          simp only [List.map_cons, count_cons_nat, if_true] at h1
          omega
        have ho : ∀ v, occ v (dispatch c { s with chunksQueue := rest }) ≤ occ v s := by
          intro v
          rw [occ_eq, occ_eq, hq]
          have h2 := count_objKeys_objSet_le v c.index.toNat s.requests.length s.uploadTasks
          simp only [dispatch, List.map_cons, count_cons_nat]
          omega
        refine ⟨?_, ?_, ?_, ?_, h.lenReads, ?_, ?_, h.total, h.noSkip, h.need, h.sizeNeed,
          h.sent⟩
        · intro v; exact le_trans (ho v) (h.nodup v)
        · intro v hv; exact h.bound v (lt_of_lt_of_le hv (ho v))
        · simp only [dispatch, List.map_append, List.map_cons, List.map_nil, List.length_append,
            List.length_singleton, List.range_succ, h.ids]
        · intro r hr hst
          simp only [dispatch, List.mem_append, List.mem_singleton] at hr ⊢
          rcases hr with hr | rfl
          · have hm := h.inflight r hr hst
            apply mem_objSet_of_ne hm
            intro hk
            have := one_le_count_objKeys hm
            rw [hk] at this
            omega
          · exact mem_objSet_self _ _ _
        · intro x hx
          exact h.lenQueue x (by rw [hq]; exact List.mem_cons_of_mem _ hx)
        · intro r hr
          simp only [dispatch, List.mem_append, List.mem_singleton] at hr
          rcases hr with hr | rfl
          · exact h.lenReq r hr
          · exact h.lenQueue c hcq

theorem conserved_uploadChunk {s : Uploader} (h : Conserved s) : Conserved (uploadChunk s) :=
  conserved_uploadChunkFrom _ rfl h

theorem conserved__upload {s : Uploader} (now : Int) (h : Conserved s) :
    Conserved (_upload now s) := by
  unfold _upload
  simp only
  split
  · exact foldl_uploadChunk_induct Conserved (fun _ h => conserved_uploadChunk h) _ _
      (conserved_congr h rfl rfl rfl rfl rfl rfl rfl rfl rfl rfl rfl rfl rfl rfl)
  · exact conserved_readFileChunk
      (conserved_congr h rfl rfl rfl rfl rfl rfl rfl rfl rfl rfl rfl rfl rfl rfl)
theorem abortTask_map {β : Type} (f : UploadReq → β)
    (hf : ∀ (r : UploadReq) (st : ReqState), f { r with state := st } = f r)
    (id : Nat) (rs : List UploadReq) : (abortTask id rs).map f = rs.map f := by
  unfold abortTask
  rw [List.map_map]
  apply List.map_congr_left
  intro r _
  simp only [Function.comp]
  split
  · exact hf r _
  · rfl

theorem abortAll_map {β : Type} (f : UploadReq → β)
    (hf : ∀ (r : UploadReq) (st : ReqState), f { r with state := st } = f r)
    (l : List (Nat × Nat)) : ∀ rs : List UploadReq,
    (l.foldl (fun rs e => abortTask e.2 rs) rs).map f = rs.map f := by
  induction l with
  | nil => intro rs; rfl
  | cons e rest ih => intro rs; rw [List.foldl_cons, ih, abortTask_map f hf]

theorem setReqState_map {β : Type} (f : UploadReq → β)
    (hf : ∀ (r : UploadReq) (st : ReqState), f { r with state := st } = f r)
    (id : Nat) (st : ReqState) (rs : List UploadReq) : (setReqState id st rs).map f = rs.map f := by
  unfold setReqState
  rw [List.map_map]
  apply List.map_congr_left
  intro r _
  simp only [Function.comp]
  split
  · exact hf r _
  · rfl

theorem abortAll_inflight (l : List (Nat × Nat)) : ∀ (rs : List UploadReq) (r : UploadReq),
    r ∈ l.foldl (fun rs e => abortTask e.2 rs) rs → r.state = .inflight →
    r ∈ rs ∧ ∀ e ∈ l, e.2 ≠ r.id := by
  induction l with
  | nil => intro rs r hr _; exact ⟨hr, by simp⟩
  | cons e rest ih =>
    intro rs r hr hst
    rw [List.foldl_cons] at hr
    obtain ⟨h1, h2⟩ := ih _ r hr hst
    unfold abortTask at h1
    obtain ⟨r0, hr0, hg⟩ := List.mem_map.1 h1
    by_cases hc : r0.id = e.2 ∧ r0.state = .inflight
    · rw [if_pos hc] at hg
      rw [← hg] at hst
      cases hst
    · rw [if_neg hc] at hg
      subst hg
      refine ⟨hr0, ?_⟩
      intro x hx
      rcases List.mem_cons.1 hx with rfl | hx
      · intro heq
        exact hc ⟨heq.symm, hst⟩
      · exact h2 x hx

theorem setReqState_inflight (id : Nat) (st : ReqState) (hne : st ≠ .inflight)
    (rs : List UploadReq) (r : UploadReq) (hr : r ∈ setReqState id st rs)
    (hst : r.state = .inflight) : r ∈ rs ∧ r.id ≠ id := by
  unfold setReqState at hr
  obtain ⟨r0, hr0, hg⟩ := List.mem_map.1 hr
  by_cases hc : r0.id = id
  · rw [if_pos hc] at hg
    rw [← hg] at hst
    exact absurd hst hne
  · rw [if_neg hc] at hg
    subst hg
    exact ⟨hr0, hc⟩

/-- Preservation when only the states of the requests change, none becoming in
flight, and nothing else does. -/
theorem conserved_requests {s : Uploader} (h : Conserved s) (rs : List UploadReq)
    (hid : rs.map (fun r => r.id) = s.requests.map (fun r => r.id))
    (hlen : rs.map (fun r => (r.index, r.length)) = s.requests.map (fun r => (r.index, r.length)))
    (hin : ∀ r ∈ rs, r.state = .inflight → r ∈ s.requests) :
    Conserved { s with requests := rs } := by
  have hl : rs.length = s.requests.length := by
    have := congrArg List.length hid
    simpa using this
  have ho : ∀ v, occ v { s with requests := rs } = occ v s := fun v => by rw [occ_eq, occ_eq]
  refine ⟨?_, ?_, ?_, ?_, h.lenReads, h.lenQueue, ?_, h.total, h.noSkip, h.need, h.sizeNeed,
    h.sent⟩
  · intro v; rw [ho]; exact h.nodup v
  · intro v hv; rw [ho] at hv; exact h.bound v hv
  · show rs.map (fun r => r.id) = List.range rs.length
    rw [hid, hl]; exact h.ids
  · intro r hr hst
    exact h.inflight r (hin r hr hst) hst
  · intro r hr
    have hm : (r.index, r.length) ∈ rs.map (fun r => (r.index, r.length)) :=
      List.mem_map.2 ⟨r, hr, rfl⟩
    rw [hlen] at hm
    obtain ⟨r0, hr0, he⟩ := List.mem_map.1 hm
    simp only [Prod.mk.injEq] at he
    have := h.lenReq r0 hr0
    rw [he.1, he.2] at this
    exact this

theorem conserved_pause {s : Uploader} (h : Conserved s) : Conserved (pause s) := by
  rw [pause_eq]
  have hno : ∀ r ∈ s.uploadTasks.foldl (fun rs e => abortTask e.2 rs) s.requests,
      r.state ≠ .inflight := by
    intro r hr hst
    obtain ⟨h1, h2⟩ := abortAll_inflight _ _ r hr hst
    exact h2 _ (h.inflight r h1 hst) rfl
  have h1 := conserved_requests h (s.uploadTasks.foldl (fun rs e => abortTask e.2 rs) s.requests)
    (abortAll_map (fun r => r.id) (fun _ _ => rfl) _ _)
    (abortAll_map (fun r => (r.index, r.length)) (fun _ _ => rfl) _ _)
    (fun r hr hst => absurd hst (hno r hr))
  have ho : ∀ v, occ v
      { s with chunksIndex := s.chunksIndex ++ (objKeys s.uploadTasks).map JsIndex.str
               requests := s.uploadTasks.foldl (fun rs e => abortTask e.2 rs) s.requests
               uploadTasks := []
               isUploading := false } = occ v s := by
    intro v
    rw [occ_eq, occ_eq]
    have hk : ((objKeys s.uploadTasks).map JsIndex.str).map JsIndex.toNat
        = objKeys s.uploadTasks := by
      rw [List.map_map]
      exact List.map_id _
    simp only [List.map_append, hk, List.count_append]
    simp only [objKeys, List.map_nil, List.count_nil]
    omega
  refine ⟨?_, ?_, h1.ids, ?_, h.lenReads, h.lenQueue, h1.lenReq, h.total, h.noSkip, h.need,
    h.sizeNeed, h.sent⟩
  · intro v; rw [ho]; exact h.nodup v
  · intro v hv; rw [ho] at hv; exact h.bound v hv
  · intro r hr hst
    exact absurd hst (hno r hr)
theorem conserved_readDone {s : Uploader} (h : Conserved s) (k : Nat) (r : ReadReq)
    (hr : s.reads.get? k = some r) : Conserved (onReadDone r { s with reads := s.reads.eraseIdx k }) := by
  unfold onReadDone
  apply conserved_uploadChunk
  have hmem : r ∈ s.reads := List.get?_mem hr
  have ho : ∀ v, occ v
      { s with reads := s.reads.eraseIdx k
               chunksQueue := s.chunksQueue ++
                 [{ chunk := r.position, length := r.length, index := r.index }] } = occ v s := by
    intro v
    rw [occ_eq, occ_eq]
    have h1 := count_map_eraseIdx (fun r : ReadReq => r.index.toNat) v s.reads k r hr
    simp only [List.map_append, List.map_cons, List.map_nil, List.count_append, count_cons_nat,
      List.count_nil]
    by_cases hv : v = r.index.toNat
    · have hv' : r.index.toNat = v := hv.symm
      simp only [hv', if_true] at h1 ⊢
      omega
    · have hv' : ¬ (r.index.toNat = v) := fun h => hv h.symm
      simp only [hv', hv, if_false] at h1 ⊢
      omega
  refine ⟨?_, ?_, h.ids, h.inflight, ?_, ?_, h.lenReq, h.total, h.noSkip, h.need, h.sizeNeed,
    h.sent⟩
  · intro v; rw [ho]; exact h.nodup v
  · intro v hv; rw [ho] at hv; exact h.bound v hv
  · intro x hx
    exact h.lenReads x (List.mem_of_mem_eraseIdx hx)
  · intro c hc
    rcases List.mem_append.1 hc with hc | hc
    · exact h.lenQueue c hc
    · rw [List.mem_singleton] at hc
      subst hc
      exact h.lenReads r hmem

theorem conserved_readFail {s : Uploader} (h : Conserved s) (k : Nat) (r : ReadReq)
    (hr : s.reads.get? k = some r) : Conserved { s with reads := s.reads.eraseIdx k } := by
  have ho : ∀ v, occ v { s with reads := s.reads.eraseIdx k } ≤ occ v s := by
    intro v
    rw [occ_eq, occ_eq]
    have h1 := count_map_eraseIdx (fun r : ReadReq => r.index.toNat) v s.reads k r hr
    simp only
    omega
  refine ⟨?_, ?_, h.ids, h.inflight, ?_, h.lenQueue, h.lenReq, h.total, h.noSkip, h.need,
    h.sizeNeed, h.sent⟩
  · intro v; exact le_trans (ho v) (h.nodup v)
  · intro v hv; exact h.bound v (lt_of_lt_of_le hv (ho v))
  · intro x hx
    exact h.lenReads x (List.mem_of_mem_eraseIdx hx)

theorem conserved_confirm {s : Uploader} (h : Conserved s) (i : JsIndex) (len now : Int)
    (id : Nat) (hin : (i.toNat, id) ∈ s.uploadTasks)
    (hlen : len = chunkLen s.size s.chunkSize i.toNat)
    (hid : ∀ r ∈ s.requests, r.state = .inflight → r.id ≠ id) :
    Conserved (updateUploadSize len now
      { s with chunksSend := s.chunksSend + 1, gConfirmed := s.gConfirmed ++ [i]
               uploadTasks := objDelete i.toNat s.uploadTasks }) := by
  unfold updateUploadSize
  apply conserved_emit
  have hone := one_le_count_objKeys hin
  have ho : ∀ v, occ v
      { s with chunksSend := s.chunksSend + 1, gConfirmed := s.gConfirmed ++ [i]
               uploadTasks := objDelete i.toNat s.uploadTasks
               uploadedSize := s.uploadedSize + len } ≤ occ v s := by
    intro v
    rw [occ_eq, occ_eq]
    simp only [List.map_append, List.map_cons, List.map_nil, List.count_append, count_cons_nat,
      List.count_nil, count_objKeys_objDelete]
    by_cases hv : v = i.toNat
    · subst hv; simp only [if_true]; omega
    · simp only [hv, if_false]; omega
  refine ⟨?_, ?_, h.ids, ?_, h.lenReads, h.lenQueue, h.lenReq, ?_, h.noSkip, h.need,
    h.sizeNeed, ?_⟩
  · intro v; exact le_trans (ho v) (h.nodup v)
  · intro v hv; exact h.bound v (lt_of_lt_of_le hv (ho v))
  · intro r hr hst
    have hm := h.inflight r hr hst
    apply mem_objDelete_of_ne hm
    intro hk
    rw [hk] at hm
    have h2 := two_le_count_objKeys hm hin (hid r hr hst)
    have h1 := h.nodup i.toNat
    rw [occ_eq] at h1
    omega
  · show s.uploadedSize + len
      = ((s.gConfirmed ++ [i]).map (fun i => chunkLen s.size s.chunkSize i.toNat)).sum
    rw [List.map_append, List.sum_append, ← h.total, hlen]
    simp
  · show (s.gConfirmed ++ [i]).length = s.chunksSend + 1
    rw [List.length_append, h.sent]
    rfl

theorem conserved_onUploadSuccess {s : Uploader} (h : Conserved s) (i : JsIndex)
    (len now : Int) (id : Nat) (hin : (i.toNat, id) ∈ s.uploadTasks)
    (hlen : len = chunkLen s.size s.chunkSize i.toNat)
    (hid : ∀ r ∈ s.requests, r.state = .inflight → r.id ≠ id) :
    Conserved (onUploadSuccess i len now s) := by
  unfold onUploadSuccess
  have h5 := conserved_uploadChunk (conserved_readFileChunk
    (conserved_confirm h i len now id hin hlen hid))
  simp only
  split
  · exact conserved_emit _ h5
  · exact h5

theorem conserved_step (e : Event) (he : e.inSession = true) {s : Uploader}
    (h : Conserved s) : Conserved (step e s) := by
  cases e with
  | upload i b u now => simp [Event.inSession] at he
  | cancel => simp [Event.inSession] at he
  | pause => exact conserved_pause h
  | resume now =>
    exact conserved__upload now
      (conserved_congr h rfl rfl rfl rfl rfl rfl rfl rfl rfl rfl rfl rfl rfl rfl)
  | readDone k =>
    simp only [step]
    split
    · exact h
    · rename_i r hr
      exact conserved_readDone h k r hr
  | readFail k =>
    simp only [step]
    split
    · exact h
    · rename_i r hr
      exact conserved_emit _ (conserved_readFail h k r hr)
  | uploadSuccess id now =>
    simp only [step]
    split
    · exact h
    · rename_i r hr
      have hmem : r ∈ s.requests := List.mem_of_find?_eq_some hr
      have hp := List.find?_some hr
      simp only [decide_eq_true_eq] at hp
      have h1 := conserved_requests h (setReqState id .succeeded s.requests)
        (setReqState_map (fun r => r.id) (fun _ _ => rfl) _ _ _)
        (setReqState_map (fun r => (r.index, r.length)) (fun _ _ => rfl) _ _ _)
        (fun x hx hst => (setReqState_inflight id .succeeded (by decide) _ x hx hst).1)
      apply conserved_onUploadSuccess h1 r.index r.length now id
      · have := h.inflight r hmem hp.2
        rw [hp.1] at this
        exact this
      · exact h.lenReq r hmem
      · intro x hx hst
        exact (setReqState_inflight id .succeeded (by decide) _ x hx hst).2
  | uploadFail id =>
    simp only [step]
    split
    · exact h
    · apply conserved_emit
      exact conserved_requests h (setReqState id .failed s.requests)
        (setReqState_map (fun r => r.id) (fun _ _ => rfl) _ _ _)
        (setReqState_map (fun r => (r.index, r.length)) (fun _ _ => rfl) _ _ _)
        (fun x hx hst => (setReqState_inflight id .failed (by decide) _ x hx hst).1)
  | mergeDone =>
    simp only [step]
    split
    · exact h
    · exact conserved_emit _
        (conserved_congr h rfl rfl rfl rfl rfl rfl rfl rfl rfl rfl rfl rfl rfl rfl)

theorem conserved_run (evs : List Event) : ∀ {s : Uploader},
    (∀ e ∈ evs, e.inSession = true) → Conserved s → Conserved (run evs s) := by
  induction evs with
  | nil => intro s _ h; exact h
  | cons e rest ih =>
    intro s he h
    exact ih (fun x hx => he x (List.mem_cons_of_mem _ hx))
      (conserved_step e (he e (List.mem_cons_self _ _)) h)
theorem conserved_new (cfg : Config) : Conserved (new cfg) := by
  have hci : (new cfg).chunksIndex.map JsIndex.toNat = List.range (new cfg).totalChunks := by
    show ((List.range (new cfg).totalChunks).map JsIndex.num).map JsIndex.toNat = _
    rw [List.map_map]
    exact List.map_id _
  have ho : ∀ v, occ v (new cfg) = (List.range (new cfg).totalChunks).count v := by
    intro v
    rw [occ_eq, hci]
    show _ + ([] : List Nat).count v + ([] : List Nat).count v + ([] : List Nat).count v
      + ([] : List Nat).count v = _
    simp
  refine ⟨?_, ?_, rfl, ?_, ?_, ?_, ?_, rfl, rfl, rfl, rfl, rfl⟩
  · intro v; rw [ho]; exact List.nodup_iff_count_le_one.1 (List.nodup_range _) v
  · intro v hv
    rw [ho] at hv
    exact List.mem_range.1 (List.count_pos_iff.1 hv)
  · intro r hr; exact absurd hr (List.not_mem_nil r)
  · intro r hr; exact absurd hr (List.not_mem_nil r)
  · intro r hr; exact absurd hr (List.not_mem_nil r)
  · intro r hr; exact absurd hr (List.not_mem_nil r)

theorem conserved_session (cfg : Config) (ident : String) (b : Bool) (u : List Nat) (now : Int)
    (evs : List Event) (ht : cfg.testChunks = false) (hev : ∀ e ∈ evs, e.inSession = true) :
    Conserved (session cfg ident b u now evs) := by
  unfold session
  apply conserved_run evs hev
  simp only [step]
  rw [upload_eq]
  have hc : (new cfg).config.testChunks = false := ht
  simp only [hc, Bool.false_eq_true, if_false]
  exact conserved__upload now
    (conserved_congr (conserved_new cfg) rfl rfl rfl rfl rfl rfl rfl rfl rfl rfl rfl rfl rfl rfl)

theorem scaleUp_pow (k : Nat) (hk : 0 < k) : ∀ d fuel i, d < fuel → i + d = 52 →
    scaleUp fuel (2 ^ i * k) (2 ^ 52 * k) = d := by
  intro d
  induction d with
  | zero =>
    intro fuel i hf hi
    obtain ⟨f, rfl⟩ : ∃ f, fuel = f + 1 := ⟨fuel - 1, by omega⟩
    have : i = 52 := by omega
    subst this
    simp [scaleUp]
  | succ d ih =>
    intro fuel i hf hi
    obtain ⟨f, rfl⟩ : ∃ f, fuel = f + 1 := ⟨fuel - 1, by omega⟩
    have hlt : 2 ^ i * k < 2 ^ 52 * k :=
      Nat.mul_lt_mul_of_pos_right (Nat.pow_lt_pow_right (by omega) (by omega)) hk
    have hnot : ¬ (2 ^ 52 * k ≤ 2 ^ i * k) := by omega
    simp only [scaleUp, if_neg hnot]
    have h2 : 2 * (2 ^ i * k) = 2 ^ (i + 1) * k := by rw [pow_succ]; ring
    rw [h2, ih f (i + 1) (by omega) (by omega)]

theorem fixed2_self (k : Nat) (hk : 0 < k) : fixed2 k k = 100 := by
  have hup : scaleUp (k + 53) k (2 ^ 52 * k) = 52 := by
    have := scaleUp_pow k hk 52 (k + 53) 0 (by omega) (by omega)
    simpa using this
  have hdown : scaleDown k k (2 ^ 53 * k) = 0 := by
    obtain ⟨f, rfl⟩ : ∃ f, k = f + 1 := ⟨k - 1, by omega⟩
    have : f + 1 < 2 ^ 53 * (f + 1) := by omega
    simp [scaleDown, this]
  have hm : roundHalfEven (k * 2 ^ 52) (k * 2 ^ 0) = 2 ^ 52 := by
    have h1 : k * 2 ^ 52 % (k * 2 ^ 0) = 0 := by
      rw [pow_zero, mul_one]; exact Nat.mul_mod_right k _
    have h2 : k * 2 ^ 52 / (k * 2 ^ 0) = 2 ^ 52 := by
      rw [pow_zero, mul_one]; exact Nat.mul_div_cancel_left _ hk
    have h3 : ¬ (k * 2 ^ 0 < 2 * 0 ∨ (k * 2 ^ 0 = 2 * 0 ∧ 2 ^ 52 % 2 = 1)) := by
      rw [pow_zero, mul_one]; omega
    unfold roundHalfEven
    rw [h1, h2, if_neg h3]
  unfold fixed2
  rw [if_neg (by omega)]
  simp only [hup, hdown, hm]
  norm_num

theorem toFixed2_self (n : Int) (hn : 0 < n) : toFixed2 n n = .cent 100 := by
  unfold toFixed2
  have h0 : n ≠ 0 := by omega
  rw [if_neg h0, Int.sign_eq_one_of_pos hn]
  obtain ⟨m, rfl⟩ := Int.eq_ofNat_of_zero_le (le_of_lt hn)
  have hm : 0 < m := by omega
  simp only [Int.natAbs_ofNat, one_mul]
  rw [fixed2_self m hm]
  rfl

theorem onUploadSuccess_emitted (i : JsIndex) (l now : Int) (s : Uploader) :
    ∃ info : ProgressInfo,
      (onUploadSuccess i l now s).gEmitted
        = s.gEmitted ++ [.progress info]
          ++ (if s.chunksSend + 1 = s.chunksNeedSend then [.uploadDone] else []) ∧
      info.progress = toFixed2 (s.uploadedSize + l) s.sizeNeedSend ∧
      info.uploadedSize = s.uploadedSize + l ∧
      (onUploadSuccess i l now s).uploadedSize = s.uploadedSize + l ∧
      (onUploadSuccess i l now s).sizeNeedSend = s.sizeNeedSend := by
  unfold onUploadSuccess
  simp only
  obtain ⟨q, rq, ut, e2⟩ := uploadChunk_frame (readFileChunk (updateUploadSize l now
      { s with chunksSend := s.chunksSend + 1, gConfirmed := s.gConfirmed ++ [i]
               uploadTasks := objDelete i.toNat s.uploadTasks }))
  obtain ⟨ci, rd, e1⟩ := readFileChunk_frame (updateUploadSize l now
      { s with chunksSend := s.chunksSend + 1, gConfirmed := s.gConfirmed ++ [i]
               uploadTasks := objDelete i.toNat s.uploadTasks })
  rw [e2, e1]
  simp only [updateUploadSize, emit]
  refine ⟨{ progress := toFixed2 (s.uploadedSize + l) s.sizeNeedSend
            uploadedSize := s.uploadedSize + l
            averageSpeed := parseIntDiv (s._uploadedSize.map (· + l))
              (s.startUploadTime.map (now - ·))
            timeRemaining := parseIntDivNum (s.sizeNeedSend - (s.uploadedSize + l))
              (parseIntDiv (s._uploadedSize.map (· + l)) (s.startUploadTime.map (now - ·))) },
    ?_, rfl, rfl, ?_⟩
  · split
    · simp
    · simp
  · split <;> exact ⟨rfl, rfl⟩
theorem perm_range_of_nodup {l : List Nat} {n : Nat} (hnd : l.Nodup) (hlt : ∀ v ∈ l, v < n)
    (hlen : l.length = n) : l.Perm (List.range n) := by
  apply List.Subperm.perm_of_length_le
  · exact List.subperm_of_subset hnd (fun v hv => List.mem_range.2 (hlt v hv))
  · rw [List.length_range, hlen]

/-- C19: take a session without `testChunks` and with positive `chunkSize`: the
constructor, `upload`, then any read completions and failures, upload successes
and failures, merge responses, `pause` and `resume` (an aborted request never
reports success).  Whenever the next event emits uploadDone, the chunks confirmed
in the session are the indices `0, ..., totalChunks - 1`, each exactly once;
`uploadedSize`, `sizeNeedSend` and `size` are equal; and the notification emitted
just before uploadDone is a progress notification whose progress is 1 (100
hundredths) and whose `uploadedSize` is `size`. -/
theorem uploadDone_means_all_confirmed (cfg : Config) (ident : String) (b : Bool)
    (u : List Nat) (now : Int) (evs : List Event) (e : Event)
    (ht : cfg.testChunks = false) (hc : 0 < cfg.chunkSize)
    (hev : ∀ x ∈ evs, x.inSession = true)
    (hne : doneCount (step e (session cfg ident b u now evs))
      ≠ doneCount (session cfg ident b u now evs)) :
    ((step e (session cfg ident b u now evs)).gConfirmed.map JsIndex.toNat).Perm
      (List.range (new cfg).totalChunks) ∧
    (step e (session cfg ident b u now evs)).uploadedSize = cfg.size ∧
    (step e (session cfg ident b u now evs)).sizeNeedSend = cfg.size ∧
    ∃ (pre : List Emitted) (info : ProgressInfo),
      (step e (session cfg ident b u now evs)).gEmitted
        = pre ++ [.progress info, .uploadDone] ∧
      info.progress = .cent 100 ∧ info.uploadedSize = cfg.size := by
  have hS := conserved_session cfg ident b u now evs ht hev
  have him : immut (session cfg ident b u now evs) = immut (new cfg) := by
    unfold session
    rw [immut_run, immut_step]
  generalize session cfg ident b u now evs = s at hS him hne
  simp only [immut, Prod.mk.injEq] at him
  obtain ⟨_, hsz, hcs, htot, _⟩ := him
  have hsz0 : (new cfg).size = cfg.size := rfl
  have hcs0 : (new cfg).chunkSize = cfg.chunkSize := rfl
  have htot0 : (new cfg).totalChunks = ceilDiv cfg.size cfg.chunkSize := rfl
  rw [hsz0] at hsz
  rw [hcs0] at hcs
  -- the event is an upload success that reaches the needed count
  rcases tally_step e s with hty | hty | ⟨_, hty⟩ | ⟨⟨id, now2, rfl⟩, hty⟩ <;>
    simp only [tally, Prod.mk.injEq] at hty
  · exact absurd hty.1 hne
  · exact absurd hty.1 hne
  · exact absurd hty.1 hne
  by_cases hq : s.chunksSend + 1 = s.chunksNeedSend
  swap
  · rw [if_neg hq] at hty
    exact absurd hty.1 hne
  have hS2 : Conserved (step (.uploadSuccess id now2) s) :=
    conserved_step (.uploadSuccess id now2) rfl hS
  have him2 := immut_step (.uploadSuccess id now2) s
  simp only [immut, Prod.mk.injEq] at him2
  obtain ⟨_, hsz2, hcs2, htot2, _⟩ := him2
  -- shape of the step
  have hstep : ∃ r : UploadReq, step (.uploadSuccess id now2) s
      = onUploadSuccess r.index r.length now2
          { s with requests := setReqState id .succeeded s.requests } := by
    cases hf : s.requests.find? (fun r => decide (r.id = id ∧ r.state = .inflight)) with
    | none =>
      have : step (.uploadSuccess id now2) s = s := by simp only [step, hf]
      rw [this] at hne
      exact absurd rfl hne
    | some r => exact ⟨r, by simp only [step, hf]⟩
  obtain ⟨r, hr⟩ := hstep
  obtain ⟨info, hem, hip, hiu, hus, hsn⟩ := onUploadSuccess_emitted r.index r.length now2
    { s with requests := setReqState id .succeeded s.requests }
  rw [← hr] at hem hus hsn
  generalize step (.uploadSuccess id now2) s = t at hS2 hsz2 hcs2 htot2 hty hem hus hsn hne
  -- all chunks are confirmed
  have hlen : (t.gConfirmed.map JsIndex.toNat).length = ceilDiv cfg.size cfg.chunkSize := by
    rw [List.length_map, hS2.sent, hty.2.1, hq, hS.need, htot, htot0]
  have hcount : ∀ v, (t.gConfirmed.map JsIndex.toNat).count v ≤ occ v t := by
    intro v; rw [occ_eq]; omega
  have hnd : (t.gConfirmed.map JsIndex.toNat).Nodup :=
    List.nodup_iff_count_le_one.2 (fun v => le_trans (hcount v) (hS2.nodup v))
  have hlt : ∀ v ∈ t.gConfirmed.map JsIndex.toNat, v < ceilDiv cfg.size cfg.chunkSize := by
    intro v hv
    have := hS2.bound v (lt_of_lt_of_le (List.count_pos_iff.2 hv) (hcount v))
    rw [htot2, htot, htot0] at this
    exact this
  have hperm := perm_range_of_nodup hnd hlt hlen
  have hsum : t.uploadedSize = cfg.size := by
    rw [hS2.total, hsz2, hcs2, hsz, hcs]
    have : t.gConfirmed.map (fun i => chunkLen cfg.size cfg.chunkSize i.toNat)
        = (t.gConfirmed.map JsIndex.toNat).map (chunkLen cfg.size cfg.chunkSize) := by
      rw [List.map_map]; rfl
    rw [this, (hperm.map _).sum_eq]
    exact sum_chunkLen_range cfg.size cfg.chunkSize hc
  have hneed : t.sizeNeedSend = cfg.size := by rw [hS2.sizeNeed, hsz2, hsz]
  have hpos : 0 < cfg.size := by
    have h1 : 0 < ceilDiv cfg.size cfg.chunkSize := by
      rw [← htot0, ← htot, ← hS.need, ← hq]; omega
    exact ceilDiv_pos_of_lt h1 hc
  refine ⟨by rw [htot0]; exact hperm, hsum, hneed, s.gEmitted, info, ?_, ?_, ?_⟩
  · rw [hem]
    simp only [hq, if_true, List.append_assoc, List.singleton_append]
  · rw [hip]
    have h1 : s.uploadedSize + r.length = cfg.size := by rw [← hsum, hus]
    have h2 : s.sizeNeedSend = cfg.size := by rw [← hneed, hsn]
    simp only at h1 h2
    rw [h1, h2]
    exact toFixed2_self _ (by exact_mod_cast hpos)
  · rw [hiu, ← hsum, hus]

/-- The session `pausedSessionEvents`: the success of the request for chunk 0
(sent again after the pause) emits uploadDone; chunks 1, 2 and 0 are confirmed,
each once. -/
theorem uploadDone_means_all_confirmed_witness :
    (pauseConfig.testChunks = false ∧ 0 < pauseConfig.chunkSize ∧
      (∀ x ∈ pausedSessionEvents, x.inSession = true) ∧
      doneCount (step (.uploadSuccess 3 4)
          (session pauseConfig "id" true [] 0 pausedSessionEvents))
        ≠ doneCount (session pauseConfig "id" true [] 0 pausedSessionEvents)) ∧
    (step (.uploadSuccess 3 4)
      (session pauseConfig "id" true [] 0 pausedSessionEvents)).gConfirmed
      = [.num 1, .num 2, .str 0] ∧
    ((step (.uploadSuccess 3 4)
      (session pauseConfig "id" true [] 0 pausedSessionEvents)).gConfirmed.map
        JsIndex.toNat).Perm (List.range (new pauseConfig).totalChunks) ∧
    (step (.uploadSuccess 3 4)
      (session pauseConfig "id" true [] 0 pausedSessionEvents)).uploadedSize
      = pauseConfig.size :=
  have h := uploadDone_means_all_confirmed pauseConfig "id" true [] 0 pausedSessionEvents
    (.uploadSuccess 3 4) (by decide) (by decide) (by decide) (by decide)
  ⟨⟨by decide, by decide, by decide, by decide⟩, by decide, h.1, h.2.1⟩

end MiniprogramFileUploader
